import Mathlib

/-!
Formalization of the engineering core of the crossroads crossword tool:
the grid model and word detection, the autofill search, and the .puz codec.
Definitions are shallow embeddings of the corresponding TypeScript functions;
theorems settle the specified properties against them.
-/

set_option maxRecDepth 4000

namespace Crossroads

/-! ## Data model (src/lib/types.ts) -/

/-- The three cell kinds of the source type CellType. -/
inductive CellType where
  | black
  | empty
  | letter
deriving DecidableEq, Repr

/-- A grid cell: the source interface Cell has a type tag plus optional
letter and optional display number. -/
structure Cell where
  type : CellType
  letter : Option Char := none
  number : Option Nat := none
deriving DecidableEq, Repr

/-- A grid is a row-major list of rows of cells. -/
abbrev Grid := List (List Cell)

inductive Direction where
  | across
  | down
deriving DecidableEq, Repr

/-- An entry of the word index (source interface Word). The string id
of the source, for example across-3-4, injectively encodes the triple
(direction, startRow, startCol); we keep the triple itself as the key. -/
structure Word where
  number : Nat
  direction : Direction
  startRow : Nat
  startCol : Nat
  length : Nat
deriving DecidableEq, Repr

/-- The identifying key of an entry, standing for the source id string. -/
abbrev WordKey := Direction × Nat × Nat

def Word.key (w : Word) : WordKey := (w.direction, w.startRow, w.startCol)

/-! ## Grid primitives -/

/-- Cell lookup, modelling grid[row][col] (none when out of bounds). -/
def getCell (g : Grid) (r c : Nat) : Option Cell :=
  g[r]?.bind fun rowCells => rowCells[c]?

/-- Total cell lookup with an Empty default; used where the source only
evaluates in-bounds positions. -/
def getCellD (g : Grid) (r c : Nat) : Cell :=
  (getCell g r c).getD { type := CellType.empty }

/-- createEmptyGrid from src/lib/gridUtils.ts. -/
def createEmptyGrid (rows cols : Nat) : Grid :=
  List.replicate rows (List.replicate cols { type := CellType.empty })

/-- Functional single-cell update, modelling newGrid[r][c] = cell on a
fresh row-by-row copy of the grid. -/
def setCell (g : Grid) (r c : Nat) (cell : Cell) : Grid :=
  g.enum.map fun p => if p.1 = r then p.2.set c cell else p.2

/-! ## Word detection (src/lib/gridUtils.ts, detectWords) -/

/-- One run-scanning step shared by the across and the down scan of
detectWords: walk the cells of a row or column, tracking the -1/position wordStart
and the running length exactly as the source loop does, and flush a Word
at each black cell and at the end of the scanned cells. The argument mk builds a
Word from a start offset and a length. -/
def scanLine (mk : Nat → Nat → Word) : Nat → Option Nat → Nat → List Cell → List Word
  | _, wordStart, len, [] =>
    match wordStart with
    | some s => if len ≥ 1 then [mk s len] else []
    | none => []
  | pos, wordStart, len, cell :: rest =>
    if cell.type = CellType.black then
      (match wordStart with
       | some s => if len ≥ 1 then [mk s len] else []
       | none => []) ++ scanLine mk (pos + 1) none 0 rest
    else
      scanLine mk (pos + 1) (some (wordStart.getD pos)) (len + 1) rest

/-- The r-th row of the grid, as scanned by the across loop. -/
def rowCellsOf (g : Grid) (row : Nat) : List Cell :=
  g[row]?.getD []

/-- The cells of column col, as scanned by the down loop over
grid[row][col] for row below the row count. Rows are uniform in length
in every grid the tool builds; a shorter row reads as Empty here. -/
def colCells (g : Grid) (col : Nat) : List Cell :=
  (List.range g.length).map fun row => getCellD g row col

/-- The word constructor of the across scan (number assigned later). -/
def mkAcross (row : Nat) (s len : Nat) : Word := ⟨0, Direction.across, row, s, len⟩

/-- The word constructor of the down scan (number assigned later). -/
def mkDown (col : Nat) (s len : Nat) : Word := ⟨0, Direction.down, s, col, len⟩

/-- detectWords: across runs row by row, then down runs column by column. -/
def detectWords (g : Grid) : List Word :=
  let rows := g.length
  let cols := (g.head?.map List.length).getD 0
  let acrossWords := (List.range rows).flatMap fun row =>
    scanLine (mkAcross row) 0 none 0 (rowCellsOf g row)
  let downWords := (List.range cols).flatMap fun col =>
    scanLine (mkDown col) 0 none 0 (colCells g col)
  acrossWords ++ downWords

/-! ## Numbering (src/lib/gridUtils.ts, numberWords) -/

/-- Stable insertion used to model Array.prototype.sort (a stable sort)
with a boolean less-or-equal test derived from the source comparator. -/
def orderedInsert (le : α → α → Bool) (x : α) : List α → List α
  | [] => [x]
  | y :: ys => if le x y then x :: y :: ys else y :: orderedInsert le x ys

/-- Stable sort by a boolean less-or-equal test. -/
def sortBy (le : α → α → Bool) : List α → List α
  | [] => []
  | x :: xs => orderedInsert le x (sortBy le xs)

/-- The start position of a word. -/
def wordPos (w : Word) : Nat × Nat := (w.startRow, w.startCol)

/-- Comparator of the first sort of numberWords: by startRow, then startCol. -/
def posLe (a b : Word) : Bool :=
  a.startRow < b.startRow || (a.startRow == b.startRow && a.startCol ≤ b.startCol)

/-- Position order used to sort the start-position keys. -/
def posPairLe (a b : Nat × Nat) : Bool :=
  a.1 < b.1 || (a.1 == b.1 && a.2 ≤ b.2)

/-- Final comparator of numberWords: by number, across before down. -/
def numDirLe (a b : Word) : Bool :=
  a.number < b.number ||
    (a.number == b.number && (a.direction == b.direction || a.direction == Direction.across))

/-- Key insertion preserving first-insertion order, modelling the
startPositions Map of numberWords. -/
def insertPos (ps : List (Nat × Nat)) (p : Nat × Nat) : List (Nat × Nat) :=
  if p ∈ ps then ps else ps ++ [p]

/-- numberWords: sort by position, collect distinct start positions in
reading order, number the positions sequentially from 1, give each word
its position number, and return the words sorted by number with across
listed before down. -/
def numberWords (ws : List Word) : List Word :=
  let sortedWords := sortBy posLe ws
  let sortedPositions := sortBy posPairLe ((sortedWords.map wordPos).foldl insertPos [])
  let numberedWords := sortedPositions.enum.flatMap fun p =>
    (sortedWords.filter fun w => wordPos w = p.2).map fun w => { w with number := p.1 + 1 }
  sortBy numDirLe numberedWords

/-- getWordCells: the cells of an entry in order of travel. The source
indexes the grid directly and is only invoked on in-bounds entries; the
Empty default of getCellD is never reached there. -/
def getWordCells (g : Grid) (w : Word) : List Cell :=
  (List.range w.length).map fun i =>
    if w.direction = Direction.across then getCellD g w.startRow (w.startCol + i)
    else getCellD g (w.startRow + i) w.startCol

/-- getWordNumber: the number of the word starting at the position, if any. -/
def getWordNumber (row col : Nat) (ws : List Word) : Option Nat :=
  (ws.find? fun w => w.startRow == row && w.startCol == col).map (·.number)

/-! ## Symmetry (Grid component, applySymmetry and handleKeyDown) -/

inductive SymmetryType where
  | none
  | rotational
  | vertical
  | horizontal
deriving DecidableEq, Repr

/-- The mirror position written by applySymmetry for each non-None mode. -/
def mirrorPos : SymmetryType → Nat → Nat → Nat → Nat → Option (Nat × Nat)
  | SymmetryType.none, _, _, _, _ => Option.none
  | SymmetryType.rotational, totalRows, totalCols, row, col =>
      some (totalRows - 1 - row, totalCols - 1 - col)
  | SymmetryType.vertical, _, totalCols, row, col => some (row, totalCols - 1 - col)
  | SymmetryType.horizontal, totalRows, _, row, col => some (totalRows - 1 - row, col)

/-- applySymmetry: copy the edited cell to its mirror position unless the
mirror coincides with the edited position (or the mode is None). -/
def applySymmetry (g : Grid) (row col : Nat) (symType : SymmetryType)
    (totalRows totalCols : Nat) : Grid :=
  match mirrorPos symType totalRows totalCols row col with
  | Option.none => g
  | some (symRow, symCol) =>
      if symRow = row ∧ symCol = col then g
      else setCell g symRow symCol (getCellD g row col)

/-- The block-toggle edit (the period key of handleKeyDown): toggle the
selected cell between Black and Empty, then apply symmetry. -/
def toggleBlackEdit (g : Grid) (r c : Nat) (symType : SymmetryType)
    (totalRows totalCols : Nat) : Grid :=
  let wasBlack := (getCellD g r c).type = CellType.black
  let g1 :=
    if wasBlack then setCell g r c { type := CellType.empty }
    else setCell g r c { type := CellType.black }
  applySymmetry g1 r c symType totalRows totalCols

/-- The Backspace/Delete edit of handleKeyDown: a black cell is left
alone; otherwise the cell becomes Empty and symmetry is applied. -/
def deleteEdit (g : Grid) (r c : Nat) (symType : SymmetryType)
    (totalRows totalCols : Nat) : Grid :=
  if (getCellD g r c).type = CellType.black then g
  else applySymmetry (setCell g r c { type := CellType.empty }) r c symType totalRows totalCols

/-- The letter edit of handleKeyDown: write the uppercased letter at the
selected cell; no symmetry is applied. -/
def letterEdit (g : Grid) (r c : Nat) (ch : Char) : Grid :=
  setCell g r c { type := CellType.letter, letter := some ch.toUpper }

/-! ## Suggestions and the autofill dictionary (FillPanel / StatsPanel) -/

/-- A dictionary suggestion: a word with an optional rating. -/
structure Suggestion where
  word : List Char
  rating : Option Int
deriving DecidableEq, Repr

/-- matchesPattern: same length and every non-wildcard slot equal. -/
def matchesPattern (word pattern : List Char) : Bool :=
  word.length = pattern.length &&
    (List.range pattern.length).all fun i =>
      pattern.getD i '_' = '_' || pattern.getD i '_' = word.getD i '_'

/-- The pattern character of a cell: its uppercased letter when it is a
letter cell carrying one, a wildcard otherwise. -/
def patternChar (c : Cell) : Char :=
  if c.type = CellType.letter then
    match c.letter with
    | some ch => ch.toUpper
    | Option.none => '_'
  else '_'

/-- The pattern of an entry, as built by generateAutofill and FillPanel. -/
def patternOf (g : Grid) (w : Word) : List Char :=
  (getWordCells g w).map patternChar

/-- A cell that still needs filling, from the wordsToFill filter of
generateAutofill: empty, or a letter cell without a letter. -/
def cellNeedsFill (c : Cell) : Bool :=
  c.type = CellType.empty || (c.type = CellType.letter && c.letter.isNone)

/-- wordsToFill of generateAutofill: the entries with a cell to fill. -/
def wordsToFill (g : Grid) (ws : List Word) : List Word :=
  ws.filter fun w => (getWordCells g w).any cellNeedsFill

/-- The position of the i-th cell of an entry. -/
def entryPos (w : Word) (i : Nat) : Nat × Nat :=
  if w.direction = Direction.across then (w.startRow, w.startCol + i)
  else (w.startRow + i, w.startCol)

/-- The grid write performed for index i of the suggestion-row click
handler of FillPanel: place the letter, keeping the existing number. -/
def suggWrite (w : Word) (s : List Char) (g : Grid) (i : Nat) : Grid :=
  match getCell g (entryPos w i).1 (entryPos w i).2 with
  | some existingCell =>
      setCell g (entryPos w i).1 (entryPos w i).2
        { type := CellType.letter, letter := some (s.getD i '_'),
          number := existingCell.number }
  | Option.none => g

/-- The suggestion-row click handler of FillPanel: write the suggested
word letter by letter into the cells of the selected entry. -/
def applySuggestion (g : Grid) (w : Word) (s : List Char) : Grid :=
  (List.range (min s.length w.length)).foldl (suggWrite w s) g

/-- The grid positions covered by an entry. -/
def entryPositions (w : Word) : List (Nat × Nat) :=
  (List.range w.length).map (entryPos w)

/-! ## The .puz checksum primitive (src/lib/puzExport.ts) -/

/-- One loop iteration of cksum_region. The running state stays below
2 to the 17, so the right shift of the source is division by two and the
low-bit test is parity. -/
def cksum_step (cksum : Nat) (b : Nat) : Nat :=
  (if cksum % 2 = 1 then cksum / 2 + 0x8000 else cksum / 2) + b

/-- The index loop of cksum_region: i runs from 0 while i < len, reading
data[i]; the first argument counts the remaining iterations len - i. -/
def cksumLoop (data : List Nat) : Nat → Nat → Nat → Nat
  | 0, _, cksum => cksum
  | remaining + 1, i, cksum =>
      cksumLoop data remaining (i + 1) (cksum_step cksum (data.getD i 0))

/-- cksum_region: fold the bytes and keep the result to 16 bits. -/
def cksum_region (data : List Nat) (len : Nat) (cksum : Nat) : Nat :=
  cksumLoop data len 0 cksum &&& 0xFFFF

/-- Modelled from the spec: the checksum fold as C2 words it, with the
state masked to 16 bits after every byte. -/
def cksumSpecPerByteMasked (data : List Nat) (cksum : Nat) : Nat :=
  data.foldl (fun c b => cksum_step c b % 65536) cksum

/-- Modelled from the spec as amended: the same fold with the 16-bit mask
applied once, to the final state. -/
def cksumSpecMaskedAtEnd (data : List Nat) (cksum : Nat) : Nat :=
  data.foldl cksum_step cksum % 65536

/-! ## Lemmas about setCell -/

theorem getCell_setCell_ne (g : Grid) (r c : Nat) (cell : Cell) (r' c' : Nat)
    (h : ¬(r' = r ∧ c' = c)) : getCell (setCell g r c cell) r' c' = getCell g r' c' := by
  unfold getCell setCell
  rw [List.getElem?_map, List.getElem?_enum]
  cases hg : g[r']? with
  | none => simp
  | some row =>
    by_cases hr : r' = r
    · subst hr
      have hc : c ≠ c' := fun hcc => h ⟨rfl, hcc.symm⟩
      simp [List.getElem?_set_ne hc]
    · simp [hr]

theorem getCell_setCell_self (g : Grid) (r c : Nat) (cell : Cell)
    (h : (getCell g r c).isSome) : getCell (setCell g r c cell) r c = some cell := by
  unfold getCell at h
  unfold getCell setCell
  rw [List.getElem?_map, List.getElem?_enum]
  cases hg : g[r]? with
  | none => rw [hg] at h; simp at h
  | some row =>
    rw [hg] at h
    simp only [Option.some_bind] at h
    have hc : c < row.length := by
      cases hrc : row[c]? with
      | none => rw [hrc] at h; simp at h
      | some y => exact (List.getElem?_eq_some.mp hrc).choose
    simp [List.getElem?_set_eq_of_lt _ hc]

/-! ## Claim C8: the 5-by-5 grid with one black cell -/

/-- The grid of claim C8: 5 by 5, all Empty except a Black at (2,2). -/
def grid55 : Grid := setCell (createEmptyGrid 5 5) 2 2 { type := CellType.black }

/-- C8 counterexample: the word index of the 5-by-5 grid with a single
black cell at row 2, column 2 does not contain 8 across and 8 down
entries as claimed (it contains 6 of each). -/
theorem c8_counterexample :
    ¬ (((numberWords (detectWords grid55)).filter
          fun w => w.direction = Direction.across).length = 8 ∧
       ((numberWords (detectWords grid55)).filter
          fun w => w.direction = Direction.down).length = 8 ∧
       getWordNumber 0 0 (numberWords (detectWords grid55)) = some 1) := by
  decide

/-- C8 as amended: the word index of that grid contains exactly 6 across
entries and exactly 6 down entries, and position (0,0) is numbered 1. -/
theorem c8_word_index_counts :
    ((numberWords (detectWords grid55)).filter
        fun w => w.direction = Direction.across).length = 6 ∧
    ((numberWords (detectWords grid55)).filter
        fun w => w.direction = Direction.down).length = 6 ∧
    getWordNumber 0 0 (numberWords (detectWords grid55)) = some 1 := by
  decide

/-! ## Claim C5: the autofill variable set -/

/-- The 1-by-1 all-Empty grid. -/
def grid11 : Grid := createEmptyGrid 1 1

/-- C5 counterexample: on the 1-by-1 empty grid, the across entry of
length 1 is selected as an autofill variable, so one-letter entries are
not excluded from the variable set. -/
theorem c5_counterexample :
    (⟨1, Direction.across, 0, 0, 1⟩ : Word) ∈
      wordsToFill grid11 (numberWords (detectWords grid11)) := by
  decide

/-- C5 as amended: the autofill variable set is exactly the set of
incomplete entries — those with an Empty cell — with no exclusion of
one-letter entries, for any word list whose letter cells carry letters. -/
theorem c5_variables_are_incomplete_entries (g : Grid) (ws : List Word) (w : Word)
    (hvalid : ∀ cell ∈ getWordCells g w, cell.type = CellType.letter → cell.letter.isSome) :
    w ∈ wordsToFill g ws ↔
      w ∈ ws ∧ ∃ cell ∈ getWordCells g w, cell.type = CellType.empty := by
  unfold wordsToFill
  rw [List.mem_filter]
  constructor
  · rintro ⟨hmem, hany⟩
    refine ⟨hmem, ?_⟩
    rcases List.any_eq_true.mp hany with ⟨cell, hcell, hneed⟩
    unfold cellNeedsFill at hneed
    simp only [Bool.or_eq_true, decide_eq_true_eq, Bool.and_eq_true] at hneed
    rcases hneed with hempty | ⟨hletter, hnone⟩
    · exact ⟨cell, hcell, hempty⟩
    · have := hvalid cell hcell hletter
      rw [Option.isNone_iff_eq_none] at hnone
      rw [hnone] at this
      simp at this
  · rintro ⟨hmem, cell, hcell, hempty⟩
    refine ⟨hmem, List.any_eq_true.mpr ⟨cell, hcell, ?_⟩⟩
    unfold cellNeedsFill
    simp [hempty]

/-- C5 witness: the amended characterization evaluated on the 1-by-1
empty grid and its across entry. -/
theorem c5_witness :
    (⟨1, Direction.across, 0, 0, 1⟩ : Word) ∈
        wordsToFill grid11 (numberWords (detectWords grid11)) ↔
      (⟨1, Direction.across, 0, 0, 1⟩ : Word) ∈ numberWords (detectWords grid11) ∧
        ∃ cell ∈ getWordCells grid11 ⟨1, Direction.across, 0, 0, 1⟩,
          cell.type = CellType.empty :=
  c5_variables_are_incomplete_entries grid11 _ _ (by decide)

/-! ## Claim C7: symmetry propagation of edits -/

/-- A 2-by-2 grid with letters at (0,0) and (1,1). -/
def gridC7 : Grid := letterEdit (letterEdit (createEmptyGrid 2 2) 1 1 'A') 0 0 'B'

/-- C7 counterexample: under rotational symmetry, deleting the letter at
(0,0) — an edit that keeps the cell non-Black — also clears the letter at
the mirror cell (1,1), so the edit does not leave every cell other than
the edited one unchanged. -/
theorem c7_counterexample :
    getCell (deleteEdit gridC7 0 0 SymmetryType.rotational 2 2) 1 1 ≠ getCell gridC7 1 1 := by
  decide

/-- C7 as amended: under a non-None symmetry mode, placing a letter
leaves every cell other than the edited one unchanged; a Backspace/Delete
on a non-Black cell, however, also copies the resulting Empty state to
the mirror position — it leaves unchanged every cell other than the
edited one and its mirror, and writes Empty at the mirror. -/
theorem c7_symmetry_propagation (g : Grid) (r c : Nat) (sym : SymmetryType)
    (rows cols : Nat) (_hsym : sym ≠ SymmetryType.none) :
    (∀ ch r' c', ¬(r' = r ∧ c' = c) →
        getCell (letterEdit g r c ch) r' c' = getCell g r' c') ∧
    (∀ r' c', ¬(r' = r ∧ c' = c) → mirrorPos sym rows cols r c ≠ some (r', c') →
        getCell (deleteEdit g r c sym rows cols) r' c' = getCell g r' c') ∧
    (∀ mr mc, mirrorPos sym rows cols r c = some (mr, mc) → ¬(mr = r ∧ mc = c) →
        (getCell g r c).isSome → (getCell g mr mc).isSome →
        (getCellD g r c).type ≠ CellType.black →
        getCell (deleteEdit g r c sym rows cols) mr mc = some { type := CellType.empty }) := by
  refine ⟨fun ch r' c' hne => getCell_setCell_ne g r c _ r' c' hne, ?_, ?_⟩
  · intro r' c' hne hmir
    unfold deleteEdit
    by_cases hblack : (getCellD g r c).type = CellType.black
    · rw [if_pos hblack]
    · rw [if_neg hblack]
      unfold applySymmetry
      cases hmp : mirrorPos sym rows cols r c with
      | none => exact getCell_setCell_ne g r c _ r' c' hne
      | some p =>
        obtain ⟨mr, mc⟩ := p
        dsimp only
        by_cases hcenter : mr = r ∧ mc = c
        · rw [if_pos hcenter]
          exact getCell_setCell_ne g r c _ r' c' hne
        · rw [if_neg hcenter]
          have hne2 : ¬(r' = mr ∧ c' = mc) := by
            rintro ⟨rfl, rfl⟩
            exact hmir (by rw [hmp])
          rw [getCell_setCell_ne _ mr mc _ r' c' hne2]
          exact getCell_setCell_ne g r c _ r' c' hne
  · intro mr mc hmp hcenter hin hmirin hblack
    unfold deleteEdit
    rw [if_neg hblack]
    unfold applySymmetry
    rw [hmp]
    dsimp only
    rw [if_neg hcenter]
    have hset : getCell (setCell g r c { type := CellType.empty }) r c =
        some { type := CellType.empty } := getCell_setCell_self g r c _ hin
    have hval : getCellD (setCell g r c { type := CellType.empty }) r c =
        { type := CellType.empty } := by
      unfold getCellD
      rw [hset]
      rfl
    rw [hval]
    apply getCell_setCell_self
    rw [getCell_setCell_ne g r c _ mr mc (fun hmm => hcenter hmm)]
    exact hmirin

/-- C7 witness: the amended statement evaluated on the 2-by-2 grid under
rotational symmetry, checking the frame of the letter edit, the frame of
the delete away from the mirror, and the mirror write of the delete. -/
theorem c7_witness :
    getCell (letterEdit gridC7 0 0 'Z') 0 1 = getCell gridC7 0 1 ∧
    getCell (deleteEdit gridC7 0 0 SymmetryType.rotational 2 2) 0 1 = getCell gridC7 0 1 ∧
    getCell (deleteEdit gridC7 0 0 SymmetryType.rotational 2 2) 1 1 =
      some { type := CellType.empty } :=
  have h := c7_symmetry_propagation gridC7 0 0 SymmetryType.rotational 2 2 (by decide)
  ⟨h.1 'Z' 0 1 (by decide), h.2.1 0 1 (by decide) (by decide),
    h.2.2 1 1 (by decide) (by decide) (by decide) (by decide) (by decide)⟩

/-! ## Claim C10: applying a single-entry suggestion -/

theorem suggWrite_frame (w : Word) (s : List Char) (g : Grid) (i : Nat)
    (hi : i < w.length) (r c : Nat) (h : (r, c) ∉ entryPositions w) :
    getCell (suggWrite w s g i) r c = getCell g r c := by
  have hpos : entryPos w i ∈ entryPositions w :=
    List.mem_map.mpr ⟨i, List.mem_range.mpr hi, rfl⟩
  unfold suggWrite
  cases hx : getCell g (entryPos w i).1 (entryPos w i).2 with
  | none => rfl
  | some existingCell =>
    apply getCell_setCell_ne
    rintro ⟨rfl, rfl⟩
    exact h (by simpa using hpos)

theorem suggWrite_number (w : Word) (s : List Char) (g : Grid) (i : Nat) (r c : Nat) :
    (getCell (suggWrite w s g i) r c).map Cell.number = (getCell g r c).map Cell.number := by
  unfold suggWrite
  cases hx : getCell g (entryPos w i).1 (entryPos w i).2 with
  | none => rfl
  | some existingCell =>
    by_cases hrc : r = (entryPos w i).1 ∧ c = (entryPos w i).2
    · obtain ⟨rfl, rfl⟩ := hrc
      rw [getCell_setCell_self g _ _ _ (by rw [hx]; rfl), hx]
      rfl
    · rw [getCell_setCell_ne g _ _ _ r c hrc]

theorem applySuggestion_fold (w : Word) (s : List Char) :
    ∀ (l : List Nat) (g : Grid), (∀ i ∈ l, i < w.length) →
      (∀ r c, (r, c) ∉ entryPositions w →
        getCell (l.foldl (suggWrite w s) g) r c = getCell g r c) ∧
      (∀ r c, (getCell (l.foldl (suggWrite w s) g) r c).map Cell.number =
        (getCell g r c).map Cell.number) := by
  intro l
  induction l with
  | nil => exact fun g _ => ⟨fun _ _ _ => rfl, fun _ _ => rfl⟩
  | cons i l ih =>
    intro g hl
    have hi : i < w.length := hl i (List.mem_cons_self i l)
    have ih2 := ih (suggWrite w s g i) (fun j hj => hl j (List.mem_cons_of_mem i hj))
    refine ⟨fun r c hout => ?_, fun r c => ?_⟩
    · rw [List.foldl_cons, ih2.1 r c hout, suggWrite_frame w s g i hi r c hout]
    · rw [List.foldl_cons, ih2.2 r c, suggWrite_number w s g i r c]

/-- C10: applying a single-entry suggestion writes only the cells of the
selected entry — every cell outside the entry is unchanged — and every
cell keeps its previous display number field. -/
theorem c10_suggestion_frame (g : Grid) (w : Word) (s : List Char) :
    (∀ r c, (r, c) ∉ entryPositions w →
      getCell (applySuggestion g w s) r c = getCell g r c) ∧
    (∀ r c, (getCell (applySuggestion g w s) r c).map Cell.number =
      (getCell g r c).map Cell.number) := by
  unfold applySuggestion
  exact applySuggestion_fold w s (List.range (min s.length w.length)) g
    fun i hi => lt_of_lt_of_le (List.mem_range.mp hi) (min_le_right _ _)

/-- A 2-by-2 all-Empty grid. -/
def grid22 : Grid := createEmptyGrid 2 2

/-- C10 witness: the frame and number preservation evaluated on a 2-by-2
grid with the suggestion HI applied to the top across entry. -/
theorem c10_witness :
    getCell (applySuggestion grid22 ⟨1, Direction.across, 0, 0, 2⟩ ['H', 'I']) 1 0 =
        getCell grid22 1 0 ∧
    (getCell (applySuggestion grid22 ⟨1, Direction.across, 0, 0, 2⟩ ['H', 'I']) 0 0).map
        Cell.number = (getCell grid22 0 0).map Cell.number :=
  have h := c10_suggestion_frame grid22 ⟨1, Direction.across, 0, 0, 2⟩ ['H', 'I']
  ⟨h.1 1 0 (by decide), h.2 0 0⟩

/-! ## Claim C2: the checksum primitive -/

/-- C2 counterexample: masking after every byte, as the claim states it,
disagrees with cksum_region, which masks once at the end: from initial
state 0xFFFF over the bytes 0xFF, 0x00 the code yields 0x807F while the
per-byte-masked fold yields 0x7F. -/
theorem c2_counterexample :
    cksum_region [0xFF, 0] 2 0xFFFF ≠ cksumSpecPerByteMasked [0xFF, 0] 0xFFFF := by
  decide

theorem cksumLoop_eq_foldl (data : List Nat) :
    ∀ (l : List Nat) (i cksum : Nat), data.drop i = l →
      cksumLoop data l.length i cksum = l.foldl cksum_step cksum := by
  intro l
  induction l with
  | nil => intro i c _; rfl
  | cons x l ih =>
    intro i c hdrop
    have hx : data[i]? = some x := by
      have h0 : (data.drop i)[0]? = some x := by rw [hdrop]; simp
      rw [List.getElem?_drop] at h0
      simpa using h0
    have hgd : data.getD i 0 = x := by
      unfold List.getD
      rw [List.get?_eq_getElem?, hx]
      rfl
    have hdrop' : data.drop (i + 1) = l := by
      rw [← List.tail_drop, hdrop]
      rfl
    show cksumLoop data (l.length + 1) i c = _
    unfold cksumLoop
    rw [hgd]
    exact ih (i + 1) (cksum_step c x) hdrop'

/-- C2 as amended: cksum_region computes the claimed fold — per byte,
c = ((c and 1) ? (c shifted right) + 0x8000 : (c shifted right)) + byte —
with the 16-bit mask applied once to the final state, not after each
byte. -/
theorem c2_cksum_region_masked_at_end (data : List Nat) (cksum : Nat) :
    cksum_region data data.length cksum = cksumSpecMaskedAtEnd data cksum := by
  unfold cksum_region cksumSpecMaskedAtEnd
  rw [cksumLoop_eq_foldl data data 0 cksum (by simp)]
  have h := Nat.and_pow_two_sub_one_eq_mod (data.foldl cksum_step cksum) 16
  norm_num at h
  exact h

/-! ## The autofill solver (StatsPanel, generateAutofill and helpers)

The source solver is an async function whose only interaction with its
environment is an awaited progress callback that returns nothing; the
embedding threads an abstract sink state sigma through an arbitrary
progress function so that independence from it can be stated. -/

/-- A partial assignment: the currentSelections Map, entry key to word. -/
abbrev Selections := List (WordKey × List Char)

def hasKey (sel : Selections) (k : WordKey) : Bool :=
  sel.any fun p => p.1 = k

def lookupSel (sel : Selections) (k : WordKey) : Option (List Char) :=
  (sel.find? fun p => p.1 = k).map (·.2)

/-- The wordOptions Map: entry key to candidate list. -/
abbrev WordOptions := List (WordKey × List Suggestion)

def lookupOptions (os : WordOptions) (k : WordKey) : List Suggestion :=
  ((os.find? fun p => p.1 = k).map (·.2)).getD []

/-- The rating-descending comparator of generateAutofill: ranked words
by rating descending, ranked before unranked, unranked tied. -/
def ratingDescLe (a b : Suggestion) : Bool :=
  match a.rating, b.rating with
  | some ra, some rb => rb ≤ ra
  | some _, Option.none => true
  | Option.none, some _ => false
  | Option.none, Option.none => true

/-- The candidate list generateAutofill precomputes for one entry: the
dictionary words of the pattern length that match the pattern, sorted
rating-descending. The length-indexed cache of the source is the filter
by length, in dictionary order. -/
def wordCandidates (dict : List Suggestion) (g : Grid) (w : Word) : List Suggestion :=
  let pattern := patternOf g w
  sortBy ratingDescLe ((dict.filter fun item => item.word.length = pattern.length).filter
    fun item => matchesPattern item.word pattern)

/-- One position check of the hasConflict loop against one previously
selected word: a crossing in the other direction that disagrees on the
shared cell. -/
def crossingMismatch (wdir : Direction) (r c : Nat) (letter : Char)
    (p : WordKey × List Char) : Bool :=
  match p.1 with
  | (odir, orow, ocol) =>
    if odir = wdir then false
    else
      let isInOtherWord :=
        if odir = Direction.across then
          decide (orow = r ∧ ocol ≤ c ∧ c < ocol + p.2.length)
        else
          decide (ocol = c ∧ orow ≤ r ∧ r < orow + p.2.length)
      let otherPos := if odir = Direction.across then c - ocol else r - orow
      isInOtherWord && decide (otherPos < p.2.length) && decide (p.2.getD otherPos '_' ≠ letter)

/-- The body of the hasConflict loop at index i: conflict with a letter
already in the base grid, or with a previously selected crossing word. -/
def conflictAt (baseGrid : Grid) (currentRows currentCols : Nat) (w : Word)
    (selectedWord : List Char) (sel : Selections) (i : Nat) : Bool :=
  let letter := selectedWord.getD i '_'
  let r := (entryPos w i).1
  let c := (entryPos w i).2
  if r < currentRows ∧ c < currentCols then
    (let cell := getCellD baseGrid r c
     cell.type = CellType.letter && cell.letter.isSome && decide (cell.letter ≠ some letter))
      || sel.any (crossingMismatch w.direction r c letter)
  else false

/-- hasConflict: quick check of a tentative word against the base grid
letters and the current selections. -/
def hasConflict (baseGrid : Grid) (currentRows currentCols : Nat) (w : Word)
    (selectedWord : List Char) (sel : Selections) : Bool :=
  (List.range (min selectedWord.length w.length)).any
    (conflictAt baseGrid currentRows currentCols w selectedWord sel)

/-- One cell write of tryFillGrid: fill an Empty cell with the letter,
keep a matching Letter cell, abort on a mismatch. -/
def fillCell (w : Word) (sw : List Char) (currentRows currentCols : Nat) (i : Nat)
    (g : Grid) : Option Grid :=
  let letter := sw.getD i '_'
  let r := (entryPos w i).1
  let c := (entryPos w i).2
  if r < currentRows ∧ c < currentCols then
    let existingCell := getCellD g r c
    if existingCell.type = CellType.empty then
      some (setCell g r c
        { type := CellType.letter, letter := some letter, number := existingCell.number })
    else if existingCell.type = CellType.letter then
      if existingCell.letter ≠ some letter then Option.none else some g
    else some g
  else some g

/-- The per-word loop of tryFillGrid: look up the selection for the word
(a missing or empty selection aborts) and write its letters. -/
def fillWord (currentRows currentCols : Nat) (sel : Selections) (g : Grid) (w : Word) :
    Option Grid :=
  match lookupSel sel w.key with
  | Option.none => Option.none
  | some sw =>
    if sw.isEmpty then Option.none
    else
      (List.range (min sw.length w.length)).foldl
        (fun acc i => acc.bind (fillCell w sw currentRows currentCols i)) (some g)

/-- tryFillGrid: write every listed word's selection into a copy of the
base grid, aborting on any mismatch. -/
def tryFillGrid (g : Grid) (currentRows currentCols : Nat) (wordsFill : List Word)
    (sel : Selections) : Option Grid :=
  wordsFill.foldl (fun acc w => acc.bind fun g' => fillWord currentRows currentCols sel g' w)
    (some g)

/-- Rank used to order entry keys inside a solution fingerprint; the
source sorts the id strings, which orders across before down and then
the start coordinates. -/
def dirRank : Direction → Nat
  | Direction.across => 0
  | Direction.down => 1

/-- Fingerprint key order (a canonical total order on entry keys). -/
def selKeyLe (a b : WordKey × List Char) : Bool :=
  dirRank a.1.1 < dirRank b.1.1 ||
    (dirRank a.1.1 == dirRank b.1.1 &&
      (a.1.2.1 < b.1.2.1 || (a.1.2.1 == b.1.2.1 && a.1.2.2 ≤ b.1.2.2)))

/-- The combinationKey of the base case: the assignment pairs in key
order (the joined string of the source encodes exactly this list). -/
def fingerprintOf (sel : Selections) : Selections :=
  sortBy selKeyLe sel

/-- The most-constrained-variable scan: first unassigned word with
strictly fewest candidates. -/
def mrvPick (wordsFill : List Word) (wordOptions : WordOptions) (sel : Selections) :
    Option (Word × Nat) :=
  wordsFill.foldl
    (fun acc w =>
      if hasKey sel w.key then acc
      else
        let n := (lookupOptions wordOptions w.key).length
        match acc with
        | Option.none => some (w, n)
        | some q => if n < q.2 then some (w, n) else acc)
    Option.none

/-- The mutable state of the search: the variations array, the set of
seen fingerprints, the progress counter, and the sink state. -/
structure SearchState (σ : Type) where
  variations : List Grid
  seen : List Selections
  count : Nat
  ps : σ

/-- The batched progress call made before each recursive descent: bump
the counter and invoke the sink every 50 steps. -/
def bumpCount (σ : Type) (prog : σ → Nat → Nat → Nat → σ) (selLen total vars : Nat)
    (st : SearchState σ) : SearchState σ :=
  let count' := st.count + 1
  { st with
    count := count',
    ps := if count' % 50 = 0 then prog st.ps selLen total vars else st.ps }

/-- The base-case commit of backtrackFill: append the filled grid, bump
the counter, invoke the sink every 10 variations or at the cap, and
report whether enough variations were found. -/
def recordVariation (σ : Type) (prog : σ → Nat → Nat → Nat → σ)
    (selLen total maxVariations : Nat) (filledGrid : Grid) (st : SearchState σ) :
    SearchState σ × Bool :=
  let variations' := st.variations ++ [filledGrid]
  let count' := st.count + 1
  let ps' := if count' % 10 = 0 || maxVariations ≤ variations'.length then
      prog st.ps selLen total variations'.length
    else st.ps
  ({ variations := variations', seen := st.seen, count := count', ps := ps' },
    maxVariations ≤ variations'.length)

/-- The for-loop of backtrackFill over the candidates of the chosen
variable; recur is the recursive call at the extended assignment. -/
def tryOptionsLoop (σ : Type) (prog : σ → Nat → Nat → Nat → σ) (g : Grid)
    (currentRows currentCols : Nat) (wordsFill : List Word) (w : Word)
    (recur : Selections → SearchState σ → SearchState σ × Bool) (sel : Selections) :
    List Suggestion → SearchState σ → SearchState σ × Bool
  | [], st => (st, false)
  | option :: rest, st =>
    if hasConflict g currentRows currentCols w option.word sel then
      tryOptionsLoop σ prog g currentRows currentCols wordsFill w recur sel rest st
    else
      let testSel : Selections := (w.key, option.word) :: sel
      match tryFillGrid g currentRows currentCols
          (wordsFill.filter fun w' => hasKey testSel w'.key) testSel with
      | Option.none =>
          tryOptionsLoop σ prog g currentRows currentCols wordsFill w recur sel rest st
      | some _ =>
          let result := recur testSel
            (bumpCount σ prog testSel.length wordsFill.length st.variations.length st)
          if result.2 then (result.1, true)
          else tryOptionsLoop σ prog g currentRows currentCols wordsFill w recur sel rest
            result.1

/-- backtrackFill: the recursive search. The fuel argument counts the
remaining recursion depth; generateAutofill supplies one more than the
number of variables, which the recursion (one fresh assignment per
level) never exhausts. -/
def backtrackFill (σ : Type) (prog : σ → Nat → Nat → Nat → σ) (g : Grid)
    (currentRows currentCols : Nat) (wordsFill : List Word) (wordOptions : WordOptions)
    (maxVariations : Nat) : Nat → Selections → SearchState σ → SearchState σ × Bool
  | 0, _, st => (st, false)
  | fuel + 1, sel, st =>
    if sel.length = wordsFill.length then
      let fp := fingerprintOf sel
      if fp ∈ st.seen then (st, false)
      else
        let st1 := { st with seen := fp :: st.seen }
        match tryFillGrid g currentRows currentCols wordsFill sel with
        | some filledGrid =>
            recordVariation σ prog sel.length wordsFill.length maxVariations filledGrid st1
        | Option.none => (st1, false)
    else
      match mrvPick wordsFill wordOptions sel with
      | Option.none => (st, false)
      | some q =>
        if q.2 = 0 then (st, false)
        else
          tryOptionsLoop σ prog g currentRows currentCols wordsFill q.1
            (backtrackFill σ prog g currentRows currentCols wordsFill wordOptions
              maxVariations fuel)
            sel (lookupOptions wordOptions q.1.key) st

/-- The outcome of generateAutofill: no incomplete entry to fill, a
variable with zero candidates (the no-fill early return), or a finished
search. -/
inductive AutofillStatus where
  | noWork
  | noFill (w : Word)
  | done
deriving DecidableEq, Repr

structure AutofillResult where
  status : AutofillStatus
  grids : List Grid
deriving DecidableEq, Repr

/-- The variation cap of the source. -/
def MAX_VARIATIONS : Nat := 100

/-- generateAutofill: derive the word index, collect the incomplete
entries, precompute candidates (stopping at the first entry with none),
and run the backtracking search. -/
def generateAutofill (σ : Type) (prog : σ → Nat → Nat → Nat → σ) (ps : σ)
    (dict : List Suggestion) (g : Grid) (currentRows currentCols : Nat) : AutofillResult :=
  let currentWords := numberWords (detectWords g)
  let wtf := wordsToFill g currentWords
  if wtf.isEmpty then ⟨AutofillStatus.noWork, []⟩
  else
    match wtf.find? fun w => (wordCandidates dict g w).isEmpty with
    | some w => ⟨AutofillStatus.noFill w, []⟩
    | Option.none =>
      let wordOptions : WordOptions := wtf.map fun w => (w.key, wordCandidates dict g w)
      let result := backtrackFill σ prog g currentRows currentCols wtf wordOptions
        MAX_VARIATIONS (wtf.length + 1) [] ⟨[], [], 0, ps⟩
      ⟨AutofillStatus.done, result.1.variations⟩

/-! ## Claim C6: zero candidates mean a no-fill result, not an error -/

/-- C6: if at search entry some autofill variable has zero dictionary
candidates for its pattern, generateAutofill returns normally with the
NoFill status and an empty list of filled grids; the embedding has no
error channel here, matching the source, whose only exceptional path is
elsewhere (the codec). -/
theorem c6_zero_candidates_no_fill (σ : Type) (prog : σ → Nat → Nat → Nat → σ) (ps : σ)
    (dict : List Suggestion) (g : Grid) (currentRows currentCols : Nat)
    (h : ∃ w ∈ wordsToFill g (numberWords (detectWords g)), wordCandidates dict g w = []) :
    ∃ w, generateAutofill σ prog ps dict g currentRows currentCols =
      ⟨AutofillStatus.noFill w, []⟩ := by
  obtain ⟨w, hmem, hcand⟩ := h
  have hne : (wordsToFill g (numberWords (detectWords g))).isEmpty = false := by
    have : wordsToFill g (numberWords (detectWords g)) ≠ [] := by
      intro hnil
      rw [hnil] at hmem
      simp at hmem
    simp [List.isEmpty_iff, this]
  have hsome : ((wordsToFill g (numberWords (detectWords g))).find?
      fun w => (wordCandidates dict g w).isEmpty).isSome :=
    List.find?_isSome.mpr ⟨w, hmem, by simp [hcand]⟩
  obtain ⟨w', hw'⟩ := Option.isSome_iff_exists.mp hsome
  refine ⟨w', ?_⟩
  simp only [generateAutofill]
  rw [hne, hw']
  simp

/-- C6 witness: with an empty dictionary on the 1-by-1 empty grid, the
autofill reports no fill with an empty grid list. -/
theorem c6_witness :
    ∃ w, generateAutofill Unit (fun u _ _ _ => u) () [] grid11 1 1 =
      ⟨AutofillStatus.noFill w, []⟩ :=
  c6_zero_candidates_no_fill Unit (fun u _ _ _ => u) () [] grid11 1 1
    ⟨⟨1, Direction.across, 0, 0, 1⟩, by decide, by decide⟩

/-! ## Claim C4: determinism of the search -/

/-- Agreement of the sink-observable parts of two search states over
different sink types: same variations, seen set and counter. -/
def stateAgrees (σ₁ σ₂ : Type) (st₁ : SearchState σ₁) (st₂ : SearchState σ₂) : Prop :=
  st₁.variations = st₂.variations ∧ st₁.seen = st₂.seen ∧ st₁.count = st₂.count

theorem tryOptionsLoop_sink_independent (σ₁ σ₂ : Type)
    (prog₁ : σ₁ → Nat → Nat → Nat → σ₁) (prog₂ : σ₂ → Nat → Nat → Nat → σ₂)
    (g : Grid) (currentRows currentCols : Nat) (wordsFill : List Word) (w : Word)
    (recur₁ : Selections → SearchState σ₁ → SearchState σ₁ × Bool)
    (recur₂ : Selections → SearchState σ₂ → SearchState σ₂ × Bool)
    (hrec : ∀ sel st₁ st₂, stateAgrees σ₁ σ₂ st₁ st₂ →
      stateAgrees σ₁ σ₂ (recur₁ sel st₁).1 (recur₂ sel st₂).1 ∧
        (recur₁ sel st₁).2 = (recur₂ sel st₂).2) :
    ∀ (opts : List Suggestion) (sel : Selections) (st₁ : SearchState σ₁)
      (st₂ : SearchState σ₂), stateAgrees σ₁ σ₂ st₁ st₂ →
      stateAgrees σ₁ σ₂
          (tryOptionsLoop σ₁ prog₁ g currentRows currentCols wordsFill w recur₁ sel opts st₁).1
          (tryOptionsLoop σ₂ prog₂ g currentRows currentCols wordsFill w recur₂ sel opts st₂).1 ∧
        (tryOptionsLoop σ₁ prog₁ g currentRows currentCols wordsFill w recur₁ sel opts st₁).2 =
          (tryOptionsLoop σ₂ prog₂ g currentRows currentCols wordsFill w recur₂ sel opts st₂).2 := by
  intro opts
  induction opts with
  | nil => intro sel st₁ st₂ hst; exact ⟨hst, rfl⟩
  | cons option rest ih =>
    intro sel st₁ st₂ hst
    obtain ⟨hvar, hseen, hcount⟩ := hst
    unfold tryOptionsLoop
    by_cases hc : hasConflict g currentRows currentCols w option.word sel = true
    · rw [if_pos hc, if_pos hc]
      exact ih sel st₁ st₂ ⟨hvar, hseen, hcount⟩
    · rw [if_neg hc, if_neg hc]
      dsimp only
      cases htf : tryFillGrid g currentRows currentCols
          (wordsFill.filter fun w' => hasKey ((w.key, option.word) :: sel) w'.key)
          ((w.key, option.word) :: sel) with
      | none => exact ih sel st₁ st₂ ⟨hvar, hseen, hcount⟩
      | some tg =>
        have hbump : stateAgrees σ₁ σ₂
            (bumpCount σ₁ prog₁ ((w.key, option.word) :: sel).length wordsFill.length
              st₁.variations.length st₁)
            (bumpCount σ₂ prog₂ ((w.key, option.word) :: sel).length wordsFill.length
              st₂.variations.length st₂) := by
          unfold bumpCount
          exact ⟨hvar, hseen, by simp [hcount]⟩
        obtain ⟨hr, hflag⟩ := hrec ((w.key, option.word) :: sel) _ _ hbump
        by_cases hb : (recur₁ ((w.key, option.word) :: sel)
            (bumpCount σ₁ prog₁ ((w.key, option.word) :: sel).length wordsFill.length
              st₁.variations.length st₁)).2 = true
        · rw [if_pos hb, if_pos (hflag ▸ hb)]
          exact ⟨hr, rfl⟩
        · rw [if_neg hb, if_neg (fun hx => hb (hflag ▸ hx))]
          exact ih _ _ _ hr

theorem backtrackFill_sink_independent (σ₁ σ₂ : Type)
    (prog₁ : σ₁ → Nat → Nat → Nat → σ₁) (prog₂ : σ₂ → Nat → Nat → Nat → σ₂)
    (g : Grid) (currentRows currentCols : Nat) (wordsFill : List Word)
    (wordOptions : WordOptions) (maxVariations : Nat) :
    ∀ (fuel : Nat) (sel : Selections) (st₁ : SearchState σ₁) (st₂ : SearchState σ₂),
      stateAgrees σ₁ σ₂ st₁ st₂ →
      stateAgrees σ₁ σ₂
          (backtrackFill σ₁ prog₁ g currentRows currentCols wordsFill wordOptions
            maxVariations fuel sel st₁).1
          (backtrackFill σ₂ prog₂ g currentRows currentCols wordsFill wordOptions
            maxVariations fuel sel st₂).1 ∧
        (backtrackFill σ₁ prog₁ g currentRows currentCols wordsFill wordOptions
            maxVariations fuel sel st₁).2 =
          (backtrackFill σ₂ prog₂ g currentRows currentCols wordsFill wordOptions
            maxVariations fuel sel st₂).2 := by
  intro fuel
  induction fuel with
  | zero => intro sel st₁ st₂ hst; exact ⟨hst, rfl⟩
  | succ fuel ih =>
    intro sel st₁ st₂ hst
    obtain ⟨hvar, hseen, hcount⟩ := hst
    unfold backtrackFill
    by_cases hlen : sel.length = wordsFill.length
    · rw [if_pos hlen, if_pos hlen]
      dsimp only
      by_cases hfp : fingerprintOf sel ∈ st₁.seen
      · rw [if_pos hfp, if_pos (hseen ▸ hfp)]
        exact ⟨⟨hvar, hseen, hcount⟩, rfl⟩
      · rw [if_neg hfp, if_neg (fun hx => hfp (hseen ▸ hx))]
        cases htf : tryFillGrid g currentRows currentCols wordsFill sel with
        | none => exact ⟨⟨hvar, by rw [hseen], hcount⟩, rfl⟩
        | some fg =>
          unfold recordVariation
          dsimp only
          exact ⟨⟨by rw [hvar], by rw [hseen], by rw [hcount]⟩, by rw [hvar]⟩
    · rw [if_neg hlen, if_neg hlen]
      cases hm : mrvPick wordsFill wordOptions sel with
      | none => exact ⟨⟨hvar, hseen, hcount⟩, rfl⟩
      | some q =>
        dsimp only
        by_cases hq : q.2 = 0
        · rw [if_pos hq, if_pos hq]
          exact ⟨⟨hvar, hseen, hcount⟩, rfl⟩
        · rw [if_neg hq, if_neg hq]
          exact tryOptionsLoop_sink_independent σ₁ σ₂ prog₁ prog₂ g currentRows
            currentCols wordsFill q.1
            (backtrackFill σ₁ prog₁ g currentRows currentCols wordsFill wordOptions
              maxVariations fuel)
            (backtrackFill σ₂ prog₂ g currentRows currentCols wordsFill wordOptions
              maxVariations fuel)
            (fun sel' st₁' st₂' hst' => ih sel' st₁' st₂' hst')
            (lookupOptions wordOptions q.1.key) sel st₁ st₂ ⟨hvar, hseen, hcount⟩

/-- C4: the autofill search is deterministic: two runs on the same grid
with the same dictionary produce the same result — the same sequence of
filled grids in the same order — independently of the progress sink and
its state, the only environment the solver interacts with. -/
theorem c4_autofill_deterministic (σ₁ σ₂ : Type)
    (prog₁ : σ₁ → Nat → Nat → Nat → σ₁) (prog₂ : σ₂ → Nat → Nat → Nat → σ₂)
    (ps₁ : σ₁) (ps₂ : σ₂) (dict : List Suggestion) (g : Grid)
    (currentRows currentCols : Nat) :
    generateAutofill σ₁ prog₁ ps₁ dict g currentRows currentCols =
      generateAutofill σ₂ prog₂ ps₂ dict g currentRows currentCols := by
  unfold generateAutofill
  dsimp only
  by_cases hempty : (wordsToFill g (numberWords (detectWords g))).isEmpty = true
  · rw [if_pos hempty, if_pos hempty]
  · rw [if_neg hempty, if_neg hempty]
    cases hf : (wordsToFill g (numberWords (detectWords g))).find?
        (fun w => (wordCandidates dict g w).isEmpty) with
    | some w => rfl
    | none =>
      dsimp only
      have h := backtrackFill_sink_independent σ₁ σ₂ prog₁ prog₂ g currentRows
        currentCols (wordsToFill g (numberWords (detectWords g)))
        ((wordsToFill g (numberWords (detectWords g))).map fun w =>
          (w.key, wordCandidates dict g w))
        MAX_VARIATIONS ((wordsToFill g (numberWords (detectWords g))).length + 1) []
        ⟨[], [], 0, ps₁⟩ ⟨[], [], 0, ps₂⟩ ⟨rfl, rfl, rfl⟩
      rw [AutofillResult.mk.injEq]
      exact ⟨rfl, h.1.1⟩

/-! ## Permutation facts about sortBy -/

theorem orderedInsert_perm (le : α → α → Bool) (x : α) :
    ∀ l : List α, (orderedInsert le x l).Perm (x :: l) := by
  intro l
  induction l with
  | nil => simp [orderedInsert]
  | cons y ys ih =>
    unfold orderedInsert
    by_cases h : le x y = true
    · rw [if_pos h]
    · rw [if_neg h]
      exact (ih.cons y).trans (List.Perm.swap x y ys)

theorem sortBy_perm (le : α → α → Bool) : ∀ l : List α, (sortBy le l).Perm l := by
  intro l
  induction l with
  | nil => simp [sortBy]
  | cons x xs ih => exact (orderedInsert_perm le x (sortBy le xs)).trans (ih.cons x)

theorem mem_sortBy (le : α → α → Bool) (l : List α) (x : α) :
    x ∈ sortBy le l ↔ x ∈ l :=
  (sortBy_perm le l).mem_iff

theorem sortBy_nodup (le : α → α → Bool) (l : List α) (h : l.Nodup) :
    (sortBy le l).Nodup :=
  ((sortBy_perm le l).nodup_iff).mpr h

/-! ## Grid shape and blackness -/

/-- A grid with the given uniform dimensions. -/
def RectGrid (g : Grid) (rows cols : Nat) : Prop :=
  g.length = rows ∧ ∀ row ∈ g, row.length = cols

/-- The blackness of a cell, the only datum word detection looks at. -/
def cellBlack (cell : Cell) : Bool := cell.type == CellType.black

/-- Two grids of the same shape whose cells agree on being Black. -/
def blackEq (g₁ g₂ : Grid) : Prop :=
  g₁.length = g₂.length ∧
  (∀ r : Nat, (g₁[r]? : Option (List Cell)).map List.length =
    (g₂[r]? : Option (List Cell)).map List.length) ∧
  (∀ r c : Nat, Option.map cellBlack (getCell g₁ r c) = Option.map cellBlack (getCell g₂ r c))

theorem blackEq_refl (g : Grid) : blackEq g g := ⟨rfl, fun _ => rfl, fun _ _ => rfl⟩

theorem blackEq_trans {g₁ g₂ g₃ : Grid} (h₁ : blackEq g₁ g₂) (h₂ : blackEq g₂ g₃) :
    blackEq g₁ g₃ := by
  obtain ⟨a₁, b₁, c₁⟩ := h₁
  obtain ⟨a₂, b₂, c₂⟩ := h₂
  exact ⟨a₁.trans a₂, fun r => (b₁ r).trans (b₂ r), fun r c => (c₁ r c).trans (c₂ r c)⟩

theorem blackEq_getCellD {g₁ g₂ : Grid} (h : blackEq g₁ g₂) (r c : Nat) :
    cellBlack (getCellD g₁ r c) = cellBlack (getCellD g₂ r c) := by
  obtain ⟨_, _, h3⟩ := h
  have h3 := h3 r c
  unfold getCellD
  cases h1 : getCell g₁ r c with
  | none =>
    rw [h1] at h3
    cases h2 : getCell g₂ r c with
    | none => rfl
    | some cell => rw [h2] at h3; simp at h3
  | some cell =>
    rw [h1] at h3
    cases h2 : getCell g₂ r c with
    | none => rw [h2] at h3; simp at h3
    | some cell₂ =>
      rw [h2] at h3
      simpa using h3

/-- scanLine only inspects blackness: lines of equal length whose cells
agree on being Black scan to the same words. -/
theorem scanLine_congr (mk : Nat → Nat → Word) :
    ∀ (cells₁ cells₂ : List Cell) (pos : Nat) (ws : Option Nat) (len : Nat),
      cells₁.length = cells₂.length →
      (∀ i : Nat, Option.map cellBlack cells₁[i]? = Option.map cellBlack cells₂[i]?) →
      scanLine mk pos ws len cells₁ = scanLine mk pos ws len cells₂ := by
  intro cells₁
  induction cells₁ with
  | nil =>
    intro cells₂ pos ws len hlen _
    cases cells₂ with
    | nil => rfl
    | cons c cs => simp at hlen
  | cons c₁ rest₁ ih =>
    intro cells₂ pos ws len hlen hbl
    cases cells₂ with
    | nil => simp at hlen
    | cons c₂ rest₂ =>
      have hhead : cellBlack c₁ = cellBlack c₂ := by
        have h0 := hbl 0
        simpa using h0
      have hhead' : (c₁.type = CellType.black) ↔ (c₂.type = CellType.black) := by
        unfold cellBlack at hhead
        constructor
        · intro hb
          have : (c₂.type == CellType.black) = true := by rw [← hhead]; simp [hb]
          simpa using this
        · intro hb
          have : (c₁.type == CellType.black) = true := by rw [hhead]; simp [hb]
          simpa using this
      have htail : ∀ i : Nat, Option.map cellBlack rest₁[i]? =
          Option.map cellBlack rest₂[i]? := by
        intro i
        have := hbl (i + 1)
        simpa using this
      have hlen' : rest₁.length = rest₂.length := by simpa using hlen
      unfold scanLine
      by_cases hb : c₁.type = CellType.black
      · rw [if_pos hb, if_pos (hhead'.mp hb), ih rest₂ (pos + 1) none 0 hlen' htail]
      · rw [if_neg hb, if_neg (fun hx => hb (hhead'.mpr hx)),
          ih rest₂ (pos + 1) (some (ws.getD pos)) (len + 1) hlen' htail]

theorem rowCellsOf_getElem (g : Grid) (row c : Nat) :
    (rowCellsOf g row)[c]? = getCell g row c := by
  unfold rowCellsOf getCell
  cases h : g[row]? with
  | none => simp
  | some rowCells => simp

theorem rowCellsOf_length_eq {g₁ g₂ : Grid} (h : blackEq g₁ g₂) (row : Nat) :
    (rowCellsOf g₁ row).length = (rowCellsOf g₂ row).length := by
  obtain ⟨_, h2, _⟩ := h
  have h2 := h2 row
  unfold rowCellsOf
  cases h1 : g₁[row]? with
  | none =>
    rw [h1] at h2
    cases hb : g₂[row]? with
    | none => simp
    | some rcs => rw [hb] at h2; simp at h2
  | some rcs =>
    rw [h1] at h2
    cases hb : g₂[row]? with
    | none => rw [hb] at h2; simp at h2
    | some rcs₂ =>
      rw [hb] at h2
      simpa using h2

theorem colCells_getElem (g : Grid) (col r : Nat) :
    (colCells g col)[r]? = if r < g.length then some (getCellD g r col) else Option.none := by
  unfold colCells
  by_cases hr : r < g.length
  · rw [if_pos hr, List.getElem?_map]
    simp [List.getElem?_range hr]
  · rw [if_neg hr, List.getElem?_map]
    have : (List.range g.length)[r]? = Option.none := by
      rw [List.getElem?_eq_none]
      simpa using Nat.le_of_not_lt hr
    rw [this]
    rfl

theorem colCells_length (g : Grid) (col : Nat) : (colCells g col).length = g.length := by
  unfold colCells
  simp

/-- detectWords depends only on the shape and blackness of the grid. -/
theorem detectWords_congr {g₁ g₂ : Grid} (h : blackEq g₁ g₂) :
    detectWords g₁ = detectWords g₂ := by
  have hcopy := h
  obtain ⟨hlen, hrows, hcells⟩ := hcopy
  have hcols : (g₁.head?.map List.length).getD 0 = (g₂.head?.map List.length).getD 0 := by
    rw [List.head?_eq_getElem?, List.head?_eq_getElem?, hrows 0]
  have hacross : ∀ row pos ws len,
      scanLine (mkAcross row) pos ws len (rowCellsOf g₁ row) =
      scanLine (mkAcross row) pos ws len (rowCellsOf g₂ row) := by
    intro row pos ws len
    apply scanLine_congr _ _ _ _ _ _ (rowCellsOf_length_eq h row)
    intro i
    rw [rowCellsOf_getElem, rowCellsOf_getElem]
    exact hcells row i
  have hdown : ∀ col pos ws len,
      scanLine (mkDown col) pos ws len (colCells g₁ col) =
      scanLine (mkDown col) pos ws len (colCells g₂ col) := by
    intro col pos ws len
    apply scanLine_congr
    · rw [colCells_length, colCells_length, hlen]
    · intro i
      rw [colCells_getElem, colCells_getElem, ← hlen]
      by_cases hi : i < g₁.length
      · rw [if_pos hi, if_pos hi]
        simp only [Option.map_some']
        rw [blackEq_getCellD h]
      · rw [if_neg hi, if_neg hi]
  unfold detectWords
  dsimp only
  rw [hlen, hcols]
  have hA : (fun row => scanLine (mkAcross row) 0 none 0 (rowCellsOf g₁ row)) =
      fun row => scanLine (mkAcross row) 0 none 0 (rowCellsOf g₂ row) :=
    funext fun row => hacross row 0 none 0
  have hB : (fun col => scanLine (mkDown col) 0 none 0 (colCells g₁ col)) =
      fun col => scanLine (mkDown col) 0 none 0 (colCells g₂ col) :=
    funext fun col => hdown col 0 none 0
  rw [hA, hB]


/-! ## What scanLine produces: in-bounds, non-black, maximal-run words -/

/-- Soundness of the scan: every produced word lies inside the
scanned cells, has positive length and covers only non-black cells. -/
theorem scanLine_sound (mk : Nat → Nat → Word) (ln : List Cell) :
    ∀ (cells : List Cell) (pos : Nat) (ws : Option Nat) (len : Nat),
      pos + cells.length = ln.length →
      cells = ln.drop pos →
      (ws = Option.none → len = 0) →
      (∀ s, ws = some s → s + len = pos ∧
        ∀ j, s ≤ j → j < pos → ∃ cell, ln[j]? = some cell ∧ cell.type ≠ CellType.black) →
      ∀ w ∈ scanLine mk pos ws len cells,
        ∃ s l, w = mk s l ∧ 1 ≤ l ∧ s + l ≤ ln.length ∧
          ∀ j, s ≤ j → j < s + l →
            ∃ cell, ln[j]? = some cell ∧ cell.type ≠ CellType.black := by
  intro cells
  induction cells with
  | nil =>
    intro pos ws len hlen _hdrop _hnone hsome w hw
    cases ws with
    | none => simp [scanLine] at hw
    | some s =>
      simp only [scanLine] at hw
      by_cases h1 : len ≥ 1
      · rw [if_pos h1] at hw
        simp only [List.mem_singleton] at hw
        obtain ⟨hpos, hblack⟩ := hsome s rfl
        refine ⟨s, len, hw, h1, ?_, ?_⟩
        · omega
        · intro j hj1 hj2
          exact hblack j hj1 (by omega)
      · rw [if_neg h1] at hw
        simp at hw
  | cons cell rest ih =>
    intro pos ws len hlen hdrop hnone hsome w hw
    have hcell : ln[pos]? = some cell := by
      have h0 : (ln.drop pos)[0]? = some cell := by rw [← hdrop]; simp
      rw [List.getElem?_drop] at h0
      simpa using h0
    have hdrop' : rest = ln.drop (pos + 1) := by
      rw [← List.tail_drop, ← hdrop]
      rfl
    have hlen' : (pos + 1) + rest.length = ln.length := by
      simp only [List.length_cons] at hlen
      omega
    simp only [scanLine] at hw
    by_cases hb : cell.type = CellType.black
    · rw [if_pos hb] at hw
      rcases List.mem_append.mp hw with hflush | hrec
      · cases ws with
        | none => simp at hflush
        | some s =>
          dsimp only at hflush
          by_cases h1 : len ≥ 1
          · rw [if_pos h1] at hflush
            simp only [List.mem_singleton] at hflush
            obtain ⟨hpos, hblack⟩ := hsome s rfl
            refine ⟨s, len, hflush, h1, ?_, ?_⟩
            · omega
            · intro j hj1 hj2
              exact hblack j hj1 (by omega)
          · rw [if_neg h1] at hflush
            simp at hflush
      · exact ih (pos + 1) none 0 hlen' hdrop' (fun _ => rfl)
          (fun s hs => by simp at hs) w hrec
    · rw [if_neg hb] at hw
      refine ih (pos + 1) (some (ws.getD pos)) (len + 1) hlen' hdrop' (by simp) ?_ w hw
      intro s' hs'
      simp only [Option.some.injEq] at hs'
      cases ws with
      | none =>
        have hlen0 : len = 0 := hnone rfl
        simp only [Option.getD_none] at hs'
        subst hs'
        refine ⟨by omega, ?_⟩
        intro j hj1 hj2
        have : j = pos := by omega
        subst this
        exact ⟨cell, hcell, hb⟩
      | some s =>
        simp only [Option.getD_some] at hs'
        subst hs'
        obtain ⟨hpos, hblack⟩ := hsome s rfl
        refine ⟨by omega, ?_⟩
        intro j hj1 hj2
        by_cases hjp : j < pos
        · exact hblack j hj1 hjp
        · have : j = pos := by omega
          subst this
          exact ⟨cell, hcell, hb⟩

/-- The words of one ln scan have strictly increasing start offsets. -/
theorem scanLine_pairwise (mk : Nat → Nat → Word) (π : Word → Nat)
    (hπ : ∀ s l, π (mk s l) = s) :
    ∀ (cells : List Cell) (pos : Nat) (ws : Option Nat) (len : Nat),
      (∀ s, ws = some s → s ≤ pos) →
      List.Pairwise (fun a b => π a < π b) (scanLine mk pos ws len cells) ∧
      ∀ w ∈ scanLine mk pos ws len cells, ws.getD pos ≤ π w := by
  intro cells
  induction cells with
  | nil =>
    intro pos ws len _hle
    cases ws with
    | none => simp [scanLine]
    | some s =>
      simp only [scanLine]
      by_cases h1 : len ≥ 1
      · rw [if_pos h1]
        refine ⟨List.pairwise_singleton _ _, ?_⟩
        intro w hw
        simp only [List.mem_singleton] at hw
        subst hw
        simp [hπ]
      · rw [if_neg h1]
        simp
  | cons cell rest ih =>
    intro pos ws len hle
    simp only [scanLine]
    by_cases hb : cell.type = CellType.black
    · rw [if_pos hb]
      obtain ⟨ihp, ihb⟩ := ih (pos + 1) none 0 (fun s hs => by simp at hs)
      have hflush : ∀ w ∈ (match ws with
          | some s => if len ≥ 1 then [mk s len] else []
          | Option.none => ([] : List Word)), π w = ws.getD pos ∧ ws.getD pos ≤ pos := by
        intro w hw
        cases ws with
        | none => simp at hw
        | some s =>
          dsimp only at hw
          by_cases h1 : len ≥ 1
          · rw [if_pos h1] at hw
            simp only [List.mem_singleton] at hw
            subst hw
            exact ⟨by simp [hπ], by simpa using hle s rfl⟩
          · rw [if_neg h1] at hw
            simp at hw
      constructor
      · rw [List.pairwise_append]
        refine ⟨?_, ihp, ?_⟩
        · cases ws with
          | none => simp
          | some s =>
            dsimp only
            by_cases h1 : len ≥ 1
            · rw [if_pos h1]; exact List.pairwise_singleton _ _
            · rw [if_neg h1]; simp
        · intro a ha b hbk
          obtain ⟨hpa, hppos⟩ := hflush a ha
          have hbb := ihb b hbk
          simp only [Option.getD_none] at hbb
          omega
      · intro w hw
        rcases List.mem_append.mp hw with hfl | hrc
        · exact (hflush w hfl).1.ge
        · have := ihb w hrc
          simp only [Option.getD_none] at this
          have hpos : ws.getD pos ≤ pos := by
            cases ws with
            | none => simp
            | some s => simpa using hle s rfl
          omega
    · rw [if_neg hb]
      obtain ⟨ihp, ihb⟩ := ih (pos + 1) (some (ws.getD pos)) (len + 1)
        (fun s hs => by
          simp only [Option.some.injEq] at hs
          subst hs
          cases ws with
          | none => simp
          | some s' => have := hle s' rfl; simpa using Nat.le_succ_of_le this)
      refine ⟨ihp, ?_⟩
      intro w hw
      have := ihb w hw
      simpa using this


/-! ## The entries of a grid: bounds, non-blackness, key uniqueness -/

theorem rect_row_length {g : Grid} {rows cols : Nat} (hg : RectGrid g rows cols)
    {row : Nat} (hrow : row < rows) : (rowCellsOf g row).length = cols := by
  obtain ⟨hlen, hrows⟩ := hg
  unfold rowCellsOf
  cases h : g[row]? with
  | none =>
    rw [List.getElem?_eq_none_iff] at h
    omega
  | some rowCells =>
    have : rowCells ∈ g := List.getElem?_mem h
    simpa using hrows rowCells this

theorem rect_getCell_isSome {g : Grid} {rows cols : Nat} (hg : RectGrid g rows cols)
    {r c : Nat} (hr : r < rows) (hc : c < cols) : ∃ cell, getCell g r c = some cell := by
  obtain ⟨hlen, hrows⟩ := hg
  unfold getCell
  cases h : g[r]? with
  | none =>
    rw [List.getElem?_eq_none_iff] at h
    omega
  | some rowCells =>
    have hmem : rowCells ∈ g := List.getElem?_mem h
    have hlc : c < rowCells.length := by rw [hrows rowCells hmem]; exact hc
    cases hcc : rowCells[c]? with
    | none =>
      rw [List.getElem?_eq_none_iff] at hcc
      omega
    | some cell => exact ⟨cell, by simp [hcc]⟩

theorem mem_detectWords_across {g : Grid} {w : Word} (hmem : w ∈ detectWords g)
    (hdir : w.direction = Direction.across) :
    ∃ row < g.length, w ∈ scanLine (mkAcross row) 0 none 0 (rowCellsOf g row) := by
  unfold detectWords at hmem
  rcases List.mem_append.mp hmem with ha | hd
  · rcases List.mem_flatMap.mp ha with ⟨row, hrow, hw⟩
    exact ⟨row, by simpa using hrow, hw⟩
  · rcases List.mem_flatMap.mp hd with ⟨col, _, hw⟩
    rcases scanLine_sound (mkDown col) (colCells g col) (colCells g col) 0 none 0
      (by simp) (by simp) (fun _ => rfl) (fun s hs => by simp at hs) w hw with ⟨s, l, hwl, _⟩
    rw [hwl] at hdir
    simp [mkDown] at hdir

theorem mem_detectWords_down {g : Grid} {w : Word} (hmem : w ∈ detectWords g)
    (hdir : w.direction = Direction.down) :
    ∃ col < (g.head?.map List.length).getD 0,
      w ∈ scanLine (mkDown col) 0 none 0 (colCells g col) := by
  unfold detectWords at hmem
  rcases List.mem_append.mp hmem with ha | hd
  · rcases List.mem_flatMap.mp ha with ⟨row, _, hw⟩
    rcases scanLine_sound (mkAcross row) (rowCellsOf g row) (rowCellsOf g row) 0 none 0
      (by simp) (by simp) (fun _ => rfl) (fun s hs => by simp at hs) w hw with ⟨s, l, hwl, _⟩
    rw [hwl] at hdir
    simp [mkAcross] at hdir
  · rcases List.mem_flatMap.mp hd with ⟨col, hcol, hw⟩
    exact ⟨col, by simpa using hcol, hw⟩

/-- Watertight description of an entry: positive length, in bounds, and
covering only non-black cells. -/
def EntryOK (g : Grid) (rows cols : Nat) (w : Word) : Prop :=
  1 ≤ w.length ∧
  ∀ i, i < w.length → (entryPos w i).1 < rows ∧ (entryPos w i).2 < cols ∧
    ∃ cell, getCell g (entryPos w i).1 (entryPos w i).2 = some cell ∧
      cell.type ≠ CellType.black

theorem entryPos_mkAcross (row s l i : Nat) : entryPos (mkAcross row s l) i = (row, s + i) := by
  simp [entryPos, mkAcross]

theorem entryPos_mkDown (col s l i : Nat) : entryPos (mkDown col s l) i = (s + i, col) := by
  simp [entryPos, mkDown]

theorem detectWords_entryOK {g : Grid} {rows cols : Nat} (hg : RectGrid g rows cols) :
    ∀ w ∈ detectWords g, EntryOK g rows cols w := by
  intro w hmem
  cases hdir : w.direction with
  | across =>
    obtain ⟨row, hrow, hw⟩ := mem_detectWords_across hmem hdir
    have hrowlt : row < rows := by rw [← hg.1]; exact hrow
    obtain ⟨s, l, hwl, h1, hbound, hblack⟩ :=
      scanLine_sound (mkAcross row) (rowCellsOf g row) (rowCellsOf g row) 0 none 0
        (by simp) (by simp) (fun _ => rfl) (fun s hs => by simp at hs) w hw
    have hrl : (rowCellsOf g row).length = cols := rect_row_length hg hrowlt
    subst hwl
    refine ⟨h1, ?_⟩
    intro i hi
    rw [entryPos_mkAcross]
    have hil : i < l := by simpa [mkAcross] using hi
    obtain ⟨cell, hcell, hnb⟩ := hblack (s + i) (by omega) (by omega)
    rw [rowCellsOf_getElem] at hcell
    have hsi : s + i < cols := by omega
    exact ⟨hrowlt, hsi, cell, hcell, hnb⟩
  | down =>
    obtain ⟨col, hcol, hw⟩ := mem_detectWords_down hmem hdir
    have hcollt : col < cols := by
      cases hg' : g with
      | nil => rw [hg'] at hcol; simp at hcol
      | cons r0 rest =>
        have hr0 : r0 ∈ g := by rw [hg']; exact List.mem_cons_self r0 rest
        have := hg.2 r0 hr0
        rw [hg'] at hcol
        simp only [List.head?_cons, Option.map_some', Option.getD_some] at hcol
        omega
    obtain ⟨s, l, hwl, h1, hbound, hblack⟩ :=
      scanLine_sound (mkDown col) (colCells g col) (colCells g col) 0 none 0
        (by simp) (by simp) (fun _ => rfl) (fun s hs => by simp at hs) w hw
    have hcl : (colCells g col).length = g.length := colCells_length g col
    subst hwl
    refine ⟨h1, ?_⟩
    intro i hi
    rw [entryPos_mkDown]
    have hil : i < l := by simpa [mkDown] using hi
    have hsi : s + i < rows := by rw [← hg.1]; omega
    obtain ⟨cell, hcell⟩ := rect_getCell_isSome hg hsi hcollt
    obtain ⟨cell', hcell', hnb'⟩ := hblack (s + i) (by omega) (by omega)
    rw [colCells_getElem, if_pos (by rw [hg.1]; exact hsi)] at hcell'
    have hcd : getCellD g (s + i) col = cell := by
      unfold getCellD
      rw [hcell]
      rfl
    have hce : cell' = cell := by
      have := hcell'
      simp only [Option.some.injEq] at this
      rw [← this, hcd]
    refine ⟨hsi, hcollt, cell, hcell, ?_⟩
    rw [← hce]
    exact hnb'


/-- Two words of one line scan with the same start offset are the same
word. -/
theorem scanLine_start_inj (mk : Nat → Nat → Word) (π : Word → Nat)
    (hπ : ∀ s l, π (mk s l) = s) (cells : List Cell) :
    ∀ w₁ ∈ scanLine mk 0 none 0 cells, ∀ w₂ ∈ scanLine mk 0 none 0 cells,
      π w₁ = π w₂ → w₁ = w₂ := by
  have hp := (scanLine_pairwise mk π hπ cells 0 none 0 (fun s hs => by simp at hs)).1
  have hne : List.Pairwise (fun a b => π a ≠ π b) (scanLine mk 0 none 0 cells) :=
    hp.imp fun h => Nat.ne_of_lt h
  intro w₁ h₁ w₂ h₂ heq
  by_contra hne2
  have hsym : Symmetric fun a b : Word => π a ≠ π b := fun x y h he => h he.symm
  exact (hne.forall hsym h₁ h₂ hne2) heq

theorem scanLine_mkAcross_fields {g : Grid} {row : Nat} {w : Word}
    (hw : w ∈ scanLine (mkAcross row) 0 none 0 (rowCellsOf g row)) :
    w.startRow = row ∧ w.direction = Direction.across := by
  obtain ⟨s, l, hwl, -⟩ :=
    scanLine_sound (mkAcross row) (rowCellsOf g row) (rowCellsOf g row) 0 none 0
      (by simp) (by simp) (fun _ => rfl) (fun s hs => by simp at hs) w hw
  subst hwl
  exact ⟨rfl, rfl⟩

theorem scanLine_mkDown_fields {g : Grid} {col : Nat} {w : Word}
    (hw : w ∈ scanLine (mkDown col) 0 none 0 (colCells g col)) :
    w.startCol = col ∧ w.direction = Direction.down := by
  obtain ⟨s, l, hwl, -⟩ :=
    scanLine_sound (mkDown col) (colCells g col) (colCells g col) 0 none 0
      (by simp) (by simp) (fun _ => rfl) (fun s hs => by simp at hs) w hw
  subst hwl
  exact ⟨rfl, rfl⟩

/-- Distinct entries of a grid carry distinct identifying keys. -/
theorem detectWords_key_inj (g : Grid) :
    ∀ w₁ ∈ detectWords g, ∀ w₂ ∈ detectWords g, w₁.key = w₂.key → w₁ = w₂ := by
  intro w₁ h₁ w₂ h₂ hkey
  unfold Word.key at hkey
  have hdir : w₁.direction = w₂.direction := congrArg Prod.fst hkey
  have hsr : w₁.startRow = w₂.startRow := congrArg (fun k : WordKey => k.2.1) hkey
  have hsc : w₁.startCol = w₂.startCol := congrArg (fun k : WordKey => k.2.2) hkey
  cases hd1 : w₁.direction with
  | across =>
    obtain ⟨row₁, hrow₁, hw₁⟩ := mem_detectWords_across h₁ hd1
    obtain ⟨row₂, hrow₂, hw₂⟩ := mem_detectWords_across h₂ (hdir ▸ hd1)
    have hf₁ := scanLine_mkAcross_fields hw₁
    have hf₂ := scanLine_mkAcross_fields hw₂
    have hrr : row₁ = row₂ := by rw [← hf₁.1, ← hf₂.1, hsr]
    subst hrr
    exact scanLine_start_inj (mkAcross row₁) Word.startCol (fun _ _ => rfl)
      (rowCellsOf g row₁) w₁ hw₁ w₂ hw₂ hsc
  | down =>
    obtain ⟨col₁, hcol₁, hw₁⟩ := mem_detectWords_down h₁ hd1
    obtain ⟨col₂, hcol₂, hw₂⟩ := mem_detectWords_down h₂ (hdir ▸ hd1)
    have hf₁ := scanLine_mkDown_fields hw₁
    have hf₂ := scanLine_mkDown_fields hw₂
    have hcc : col₁ = col₂ := by rw [← hf₁.1, ← hf₂.1, hsc]
    subst hcc
    exact scanLine_start_inj (mkDown col₁) Word.startRow (fun _ _ => rfl)
      (colCells g col₁) w₁ hw₁ w₂ hw₂ hsr

/-! ## Key uniqueness survives numbering -/

theorem insertPos_fold_nodup : ∀ (xs : List (Nat × Nat)) (acc : List (Nat × Nat)),
    acc.Nodup → (xs.foldl insertPos acc).Nodup := by
  intro xs
  induction xs with
  | nil => exact fun acc h => h
  | cons x rest ih =>
    intro acc hacc
    apply ih
    unfold insertPos
    by_cases hx : x ∈ acc
    · rw [if_pos hx]; exact hacc
    · rw [if_neg hx]
      rw [List.nodup_append]
      exact ⟨hacc, List.nodup_singleton x, by simpa using hx⟩

/-- Every member of numberWords is a member of the input with its number
replaced. -/
theorem mem_numberWords {ws : List Word} {w : Word} (hw : w ∈ numberWords ws) :
    ∃ w₀ ∈ ws, w = { w₀ with number := w.number } := by
  unfold numberWords at hw
  rw [mem_sortBy] at hw
  rcases List.mem_flatMap.mp hw with ⟨p, hp, hwp⟩
  rcases List.mem_map.mp hwp with ⟨w₀, hw₀, hren⟩
  refine ⟨w₀, ?_, ?_⟩
  · rw [← mem_sortBy posLe ws]
    exact List.mem_of_mem_filter hw₀
  · rw [← hren]

theorem numberWords_key_inj {ws : List Word}
    (hinj : ∀ w₁ ∈ ws, ∀ w₂ ∈ ws, w₁.key = w₂.key → w₁ = w₂) :
    ∀ w₁ ∈ numberWords ws, ∀ w₂ ∈ numberWords ws, w₁.key = w₂.key → w₁ = w₂ := by
  intro w₁ h₁ w₂ h₂ hkey
  unfold numberWords at h₁ h₂
  rw [mem_sortBy] at h₁ h₂
  rcases List.mem_flatMap.mp h₁ with ⟨p₁, hp₁, hwp₁⟩
  rcases List.mem_flatMap.mp h₂ with ⟨p₂, hp₂, hwp₂⟩
  rcases List.mem_map.mp hwp₁ with ⟨u₁, hu₁, hren₁⟩
  rcases List.mem_map.mp hwp₂ with ⟨u₂, hu₂, hren₂⟩
  have hu₁m : u₁ ∈ ws := by
    rw [← mem_sortBy posLe ws]; exact List.mem_of_mem_filter hu₁
  have hu₂m : u₂ ∈ ws := by
    rw [← mem_sortBy posLe ws]; exact List.mem_of_mem_filter hu₂
  have hkey₁ : w₁.key = u₁.key := by rw [← hren₁]; rfl
  have hkey₂ : w₂.key = u₂.key := by rw [← hren₂]; rfl
  have huu : u₁ = u₂ := hinj u₁ hu₁m u₂ hu₂m (by rw [← hkey₁, ← hkey₂, hkey])
  have hpos₁ : wordPos u₁ = p₁.2 := by
    have := List.of_mem_filter hu₁
    simpa using this
  have hpos₂ : wordPos u₂ = p₂.2 := by
    have := List.of_mem_filter hu₂
    simpa using this
  have hpp : p₁.2 = p₂.2 := by rw [← hpos₁, ← hpos₂, huu]
  have hnodup : (sortBy posPairLe (((sortBy posLe ws).map wordPos).foldl insertPos [])).Nodup :=
    sortBy_nodup _ _ (insertPos_fold_nodup _ [] (List.nodup_nil))
  have hidx : p₁.1 = p₂.1 := by
    obtain ⟨i₁, q₁⟩ := p₁
    obtain ⟨i₂, q₂⟩ := p₂
    simp only at hpp
    subst hpp
    rw [List.mk_mem_enum_iff_getElem?] at hp₁ hp₂
    have hlt : i₁ < (sortBy posPairLe (((sortBy posLe ws).map wordPos).foldl
        insertPos [])).length := (List.getElem?_eq_some.mp hp₁).choose
    exact List.getElem?_inj hlt hnodup (hp₁.trans hp₂.symm)
  rw [← hren₁, ← hren₂, huu, hidx]


/-! ## What tryFillGrid does to a grid -/

/-- Letter cells survive, with their full content, from g₁ to g₂. -/
def letterFixed (g₁ g₂ : Grid) : Prop :=
  ∀ r c cell, getCell g₁ r c = some cell → cell.type = CellType.letter →
    getCell g₂ r c = some cell

theorem letterFixed_refl (g : Grid) : letterFixed g g := fun _ _ _ h _ => h

theorem letterFixed_trans {g₁ g₂ g₃ : Grid} (h₁ : letterFixed g₁ g₂)
    (h₂ : letterFixed g₂ g₃) : letterFixed g₁ g₃ :=
  fun r c cell hc hl => h₂ r c cell (h₁ r c cell hc hl) hl

theorem setCell_getElem_row (g : Grid) (r c : Nat) (cell : Cell) (r' : Nat) :
    (setCell g r c cell)[r']? =
      (g[r']?).map fun row => if r' = r then row.set c cell else row := by
  unfold setCell
  rw [List.getElem?_map, List.getElem?_enum]
  cases g[r']? <;> simp

theorem setCell_blackEq {g : Grid} {r c : Nat} {cell newCell : Cell}
    (h : getCell g r c = some cell) (hb : cellBlack newCell = cellBlack cell) :
    blackEq g (setCell g r c newCell) := by
  refine ⟨?_, ?_, ?_⟩
  · unfold setCell
    simp
  · intro r'
    rw [setCell_getElem_row]
    cases hg : g[r']? with
    | none => rfl
    | some row => simp [apply_ite List.length]
  · intro r' c'
    by_cases hrc : r' = r ∧ c' = c
    · obtain ⟨rfl, rfl⟩ := hrc
      rw [getCell_setCell_self g r' c' newCell (by rw [h]; rfl), h]
      simp [hb]
    · rw [getCell_setCell_ne g r c newCell r' c' hrc]

/-- A fold threaded through Option.bind that starts at none stays none. -/
theorem foldl_bind_none {α β : Type} (f : β → α → Option β) :
    ∀ l : List α, l.foldl (fun acc x => acc.bind fun b => f b x) Option.none = Option.none := by
  intro l
  induction l with
  | nil => rfl
  | cons x rest ih => simpa using ih

/-- Writing out of the grid changes nothing. -/
theorem setCell_oob {g : Grid} {r c : Nat} (h : getCell g r c = Option.none) (cell : Cell) :
    setCell g r c cell = g := by
  apply List.ext_getElem?
  intro r'
  rw [setCell_getElem_row]
  cases hg : g[r']? with
  | none => rfl
  | some row =>
    simp only [Option.map_some']
    by_cases hr : r' = r
    · subst hr
      unfold getCell at h
      rw [hg] at h
      simp only [Option.some_bind] at h
      rw [List.getElem?_eq_none_iff] at h
      rw [if_pos rfl, List.set_eq_of_length_le h]
    · rw [if_neg hr]

/-- One successful fillCell write preserves letters and blackness, and
establishes the letter at its own position when the target position is
in bounds and non-black. -/
theorem fillCell_spec {w : Word} {sw : List Char} {rows cols i : Nat} {g g' : Grid}
    (h : fillCell w sw rows cols i g = some g') :
    letterFixed g g' ∧ blackEq g g' ∧
    ((entryPos w i).1 < rows → (entryPos w i).2 < cols →
      (∃ cell, getCell g (entryPos w i).1 (entryPos w i).2 = some cell ∧
        cell.type ≠ CellType.black) →
      ∃ cell, getCell g' (entryPos w i).1 (entryPos w i).2 = some cell ∧
        cell.type = CellType.letter ∧ cell.letter = some (sw.getD i '_')) := by
  unfold fillCell at h
  dsimp only at h
  by_cases hbd : (entryPos w i).1 < rows ∧ (entryPos w i).2 < cols
  · rw [if_pos hbd] at h
    by_cases he : (getCellD g (entryPos w i).1 (entryPos w i).2).type = CellType.empty
    · rw [if_pos he] at h
      have hg' : g' = setCell g (entryPos w i).1 (entryPos w i).2
          { type := CellType.letter, letter := some (sw.getD i '_'),
            number := (getCellD g (entryPos w i).1 (entryPos w i).2).number } :=
        (Option.some.inj h).symm
      rw [hg']
      refine ⟨?_, ?_, ?_⟩
      · intro r c cell hc hl
        by_cases hrc : r = (entryPos w i).1 ∧ c = (entryPos w i).2
        · exfalso
          obtain ⟨hr1, hc1⟩ := hrc
          rw [hr1, hc1] at hc
          have hcd : getCellD g (entryPos w i).1 (entryPos w i).2 = cell := by
            unfold getCellD; rw [hc]; rfl
          rw [hcd, hl] at he
          exact CellType.noConfusion he
        · rw [getCell_setCell_ne g _ _ _ r c hrc]
          exact hc
      · cases hc : getCell g (entryPos w i).1 (entryPos w i).2 with
        | none => rw [setCell_oob hc]; exact blackEq_refl g
        | some cell =>
          apply setCell_blackEq hc
          have hcd : getCellD g (entryPos w i).1 (entryPos w i).2 = cell := by
            unfold getCellD; rw [hc]; rfl
          rw [hcd] at he
          simp [cellBlack, he]
      · intro _h1 _h2 hex
        obtain ⟨cell, hc, _⟩ := hex
        exact ⟨_, getCell_setCell_self g _ _ _ (by rw [hc]; rfl), rfl, rfl⟩
    · rw [if_neg he] at h
      by_cases hl : (getCellD g (entryPos w i).1 (entryPos w i).2).type = CellType.letter
      · rw [if_pos hl] at h
        by_cases hm : (getCellD g (entryPos w i).1 (entryPos w i).2).letter ≠
            some (sw.getD i '_')
        · rw [if_pos hm] at h
          exact Option.noConfusion h
        · rw [if_neg hm] at h
          have hg' : g' = g := (Option.some.inj h).symm
          rw [hg']
          refine ⟨letterFixed_refl g, blackEq_refl g, ?_⟩
          intro _h1 _h2 hex
          obtain ⟨cell, hc, _⟩ := hex
          have hcd : getCellD g (entryPos w i).1 (entryPos w i).2 = cell := by
            unfold getCellD; rw [hc]; rfl
          rw [hcd] at hl hm
          push_neg at hm
          exact ⟨cell, hc, hl, hm⟩
      · rw [if_neg hl] at h
        have hg' : g' = g := (Option.some.inj h).symm
        rw [hg']
        refine ⟨letterFixed_refl g, blackEq_refl g, ?_⟩
        intro _h1 _h2 hex
        obtain ⟨cell, hc, hnb⟩ := hex
        exfalso
        have hcd : getCellD g (entryPos w i).1 (entryPos w i).2 = cell := by
          unfold getCellD; rw [hc]; rfl
        rw [hcd] at he hl
        cases hct : cell.type with
        | black => exact hnb hct
        | empty => exact he hct
        | letter => exact hl hct
  · rw [if_neg hbd] at h
    have hg' : g' = g := (Option.some.inj h).symm
    rw [hg']
    refine ⟨letterFixed_refl g, blackEq_refl g, ?_⟩
    intro h1 h2 _
    exact absurd ⟨h1, h2⟩ hbd


/-- The triple of facts about the i-th cell of an entry that the fill
needs: in bounds and non-black. -/
def cellOKAt (g : Grid) (rows cols : Nat) (w : Word) (i : Nat) : Prop :=
  (entryPos w i).1 < rows ∧ (entryPos w i).2 < cols ∧
  ∃ cell, getCell g (entryPos w i).1 (entryPos w i).2 = some cell ∧
    cell.type ≠ CellType.black

/-- The i-th cell of the entry holds the i-th letter of the word. -/
def spelledAt (g : Grid) (w : Word) (sw : List Char) (i : Nat) : Prop :=
  ∃ cell, getCell g (entryPos w i).1 (entryPos w i).2 = some cell ∧
    cell.type = CellType.letter ∧ cell.letter = some (sw.getD i '_')

theorem spelled_transport {g₁ g₂ : Grid} {w : Word} {sw : List Char} {i : Nat}
    (hlf : letterFixed g₁ g₂) (h : spelledAt g₁ w sw i) : spelledAt g₂ w sw i := by
  obtain ⟨cell, hc, hty, hl⟩ := h
  exact ⟨cell, hlf _ _ cell hc hty, hty, hl⟩

theorem cellBlack_false_iff (cell : Cell) :
    cellBlack cell = false ↔ cell.type ≠ CellType.black := by
  unfold cellBlack
  simp

theorem blackEq_nonblack {g₁ g₂ : Grid} (h : blackEq g₁ g₂) {r c : Nat} {cell : Cell}
    (hc : getCell g₁ r c = some cell) (hnb : cell.type ≠ CellType.black) :
    ∃ cell₂, getCell g₂ r c = some cell₂ ∧ cell₂.type ≠ CellType.black := by
  obtain ⟨-, -, h3⟩ := h
  have h3 := h3 r c
  rw [hc] at h3
  cases hc₂ : getCell g₂ r c with
  | none => rw [hc₂] at h3; simp at h3
  | some cell₂ =>
    rw [hc₂] at h3
    simp only [Option.map_some', Option.some.injEq] at h3
    refine ⟨cell₂, rfl, ?_⟩
    rw [← cellBlack_false_iff] at hnb ⊢
    rw [← h3, hnb]

theorem cellOKAt_transport {gBase g : Grid} {rows cols : Nat} {w : Word} {i : Nat}
    (hbe : blackEq gBase g) (h : cellOKAt gBase rows cols w i) :
    cellOKAt g rows cols w i := by
  obtain ⟨h1, h2, cell, hc, hnb⟩ := h
  obtain ⟨cell₂, hc₂, hnb₂⟩ := blackEq_nonblack hbe hc hnb
  exact ⟨h1, h2, cell₂, hc₂, hnb₂⟩

theorem foldl_none {α β : Type} (step : Option β → α → Option β)
    (hstep : ∀ x, step Option.none x = Option.none) :
    ∀ l : List α, l.foldl step Option.none = Option.none := by
  intro l
  induction l with
  | nil => rfl
  | cons x rest ih => rw [List.foldl_cons, hstep x, ih]

theorem fillWord_fold_spec (w : Word) (sw : List Char) (rows cols : Nat) (gBase : Grid) :
    ∀ (l : List Nat) (g₀ gf : Grid),
      l.foldl (fun acc i => acc.bind (fillCell w sw rows cols i)) (some g₀) = some gf →
      blackEq gBase g₀ →
      (∀ i ∈ l, cellOKAt gBase rows cols w i) →
      letterFixed g₀ gf ∧ blackEq g₀ gf ∧ ∀ i ∈ l, spelledAt gf w sw i := by
  intro l
  induction l with
  | nil =>
    intro g₀ gf h _ _
    simp only [List.foldl_nil] at h
    have hgf : gf = g₀ := (Option.some.inj h).symm
    rw [hgf]
    exact ⟨letterFixed_refl _, blackEq_refl _, by simp⟩
  | cons i rest ih =>
    intro g₀ gf h hbe hok
    rw [List.foldl_cons] at h
    simp only [Option.some_bind] at h
    cases hfc : fillCell w sw rows cols i g₀ with
    | none =>
      rw [hfc, foldl_none _ (fun x => rfl) rest] at h
      exact Option.noConfusion h
    | some g₁ =>
      rw [hfc] at h
      obtain ⟨hlf, hbe₁, hsp⟩ := fillCell_spec hfc
      obtain ⟨hlf2, hbe2, hsp2⟩ := ih g₁ gf h (blackEq_trans hbe hbe₁)
        (fun j hj => hok j (List.mem_cons_of_mem i hj))
      refine ⟨letterFixed_trans hlf hlf2, blackEq_trans hbe₁ hbe2, ?_⟩
      intro j hj
      rcases List.mem_cons.mp hj with rfl | hjr
      · obtain ⟨h1, h2, cell₀, hc₀, hnb₀⟩ := hok j (List.mem_cons_self j rest)
        obtain ⟨cell₁, hc₁, hnb₁⟩ := blackEq_nonblack hbe hc₀ hnb₀
        obtain ⟨cell, hc, hty, hlet⟩ := hsp h1 h2 ⟨cell₁, hc₁, hnb₁⟩
        exact spelled_transport hlf2 ⟨cell, hc, hty, hlet⟩
      · exact hsp2 j hjr

theorem fillWord_spec {rows cols : Nat} {sel : Selections} {g g' : Grid} {w : Word}
    (gBase : Grid) (h : fillWord rows cols sel g w = some g') (hbe : blackEq gBase g)
    (hok : ∀ i, i < w.length → cellOKAt gBase rows cols w i) :
    letterFixed g g' ∧ blackEq g g' ∧
    ∃ sw, lookupSel sel w.key = some sw ∧ sw ≠ [] ∧
      ∀ i, i < min sw.length w.length → spelledAt g' w sw i := by
  unfold fillWord at h
  cases hl : lookupSel sel w.key with
  | none => rw [hl] at h; exact Option.noConfusion h
  | some sw =>
    rw [hl] at h
    dsimp only at h
    by_cases hemp : sw.isEmpty
    · rw [if_pos hemp] at h
      exact Option.noConfusion h
    · rw [if_neg hemp] at h
      obtain ⟨hlf, hbe2, hsp⟩ := fillWord_fold_spec w sw rows cols gBase
        (List.range (min sw.length w.length)) g g' h hbe
        (fun i hi => hok i (lt_of_lt_of_le (List.mem_range.mp hi) (min_le_right _ _)))
      refine ⟨hlf, hbe2, sw, rfl, ?_, fun i hi => hsp i (List.mem_range.mpr hi)⟩
      simpa [List.isEmpty_iff] using hemp

theorem tryFill_fold_spec (rows cols : Nat) (sel : Selections) (gBase : Grid) :
    ∀ (ws : List Word) (g₀ gf : Grid),
      ws.foldl (fun acc w => acc.bind fun gg => fillWord rows cols sel gg w)
        (some g₀) = some gf →
      blackEq gBase g₀ →
      (∀ w ∈ ws, ∀ i, i < w.length → cellOKAt gBase rows cols w i) →
      letterFixed g₀ gf ∧ blackEq g₀ gf ∧
      ∀ w ∈ ws, ∃ sw, lookupSel sel w.key = some sw ∧ sw ≠ [] ∧
        ∀ i, i < min sw.length w.length → spelledAt gf w sw i := by
  intro ws
  induction ws with
  | nil =>
    intro g₀ gf h _ _
    simp only [List.foldl_nil] at h
    have hgf : gf = g₀ := (Option.some.inj h).symm
    rw [hgf]
    exact ⟨letterFixed_refl _, blackEq_refl _, by simp⟩
  | cons w rest ih =>
    intro g₀ gf h hbe hok
    rw [List.foldl_cons] at h
    simp only [Option.some_bind] at h
    cases hfw : fillWord rows cols sel g₀ w with
    | none =>
      rw [hfw, foldl_none _ (fun x => rfl) rest] at h
      exact Option.noConfusion h
    | some g₁ =>
      rw [hfw] at h
      obtain ⟨hlf, hbe₁, sw, hlook, hne, hsp⟩ :=
        fillWord_spec gBase hfw hbe (hok w (List.mem_cons_self w rest))
      obtain ⟨hlf2, hbe2, hsp2⟩ := ih g₁ gf h (blackEq_trans hbe hbe₁)
        (fun w' hw' => hok w' (List.mem_cons_of_mem w hw'))
      refine ⟨letterFixed_trans hlf hlf2, blackEq_trans hbe₁ hbe2, ?_⟩
      intro w' hw'
      rcases List.mem_cons.mp hw' with rfl | hwr
      · exact ⟨sw, hlook, hne, fun i hi => spelled_transport hlf2 (hsp i hi)⟩
      · exact hsp2 w' hwr

/-- The facts tryFillGrid guarantees about a successful fill: letters of
the base grid survive untouched, blackness and shape are preserved, and
every listed word is spelled out by its selection. -/
theorem tryFillGrid_spec {g : Grid} {rows cols : Nat} {wordsFill : List Word}
    {sel : Selections} {gf : Grid}
    (h : tryFillGrid g rows cols wordsFill sel = some gf)
    (hok : ∀ w ∈ wordsFill, ∀ i, i < w.length → cellOKAt g rows cols w i) :
    letterFixed g gf ∧ blackEq g gf ∧
    ∀ w ∈ wordsFill, ∃ sw, lookupSel sel w.key = some sw ∧ sw ≠ [] ∧
      ∀ i, i < min sw.length w.length → spelledAt gf w sw i := by
  unfold tryFillGrid at h
  exact tryFill_fold_spec rows cols sel g wordsFill g gf h (blackEq_refl g) hok


/-! ## Entry letters, completeness, and candidate lookup -/

/-- The letters an entry spells in a grid. -/
def entryLetters (g : Grid) (w : Word) : List Char :=
  (getWordCells g w).map fun c => c.letter.getD '_'

/-- An entry all of whose cells are letter cells carrying a letter. -/
def entryComplete (g : Grid) (w : Word) : Bool :=
  (getWordCells g w).all fun c => c.type = CellType.letter && c.letter.isSome

theorem getWordCells_getElem (g : Grid) (w : Word) {i : Nat} (hi : i < w.length) :
    (getWordCells g w)[i]? = some (getCellD g (entryPos w i).1 (entryPos w i).2) := by
  unfold getWordCells entryPos
  rw [List.getElem?_map, List.getElem?_range hi]
  by_cases hd : w.direction = Direction.across <;> simp [hd]

theorem getWordCells_length (g : Grid) (w : Word) :
    (getWordCells g w).length = w.length := by
  unfold getWordCells
  simp

theorem patternOf_length (g : Grid) (w : Word) : (patternOf g w).length = w.length := by
  unfold patternOf
  rw [List.length_map, getWordCells_length]

theorem mem_wordCandidates {dict : List Suggestion} {g : Grid} {w : Word}
    {item : Suggestion} (h : item ∈ wordCandidates dict g w) :
    item ∈ dict ∧ item.word.length = w.length ∧
      matchesPattern item.word (patternOf g w) = true := by
  unfold wordCandidates at h
  rw [mem_sortBy] at h
  obtain ⟨h1, h2⟩ := List.mem_filter.mp h
  obtain ⟨h3, h4⟩ := List.mem_filter.mp h1
  refine ⟨h3, ?_, h2⟩
  rw [← patternOf_length g w]
  simpa using h4

theorem lookupSel_mem {sel : Selections} {k : WordKey} {sw : List Char}
    (h : lookupSel sel k = some sw) : (k, sw) ∈ sel := by
  unfold lookupSel at h
  cases hf : sel.find? fun p => p.1 = k with
  | none => rw [hf] at h; exact Option.noConfusion h
  | some p =>
    rw [hf] at h
    have hk : p.1 = k := by
      have := List.find?_some hf
      simpa using this
    have hv : p.2 = sw := by simpa using h
    have : p = (k, sw) := by
      obtain ⟨a, b⟩ := p
      simp only at hk hv
      rw [hk, hv]
    rw [← this]
    exact List.mem_of_find?_eq_some hf

theorem lookupOptions_map {w : Word} (f : Word → List Suggestion) :
    ∀ wtf : List Word, w ∈ wtf →
      (∀ w₂ ∈ wtf, w₂.key = w.key → w₂ = w) →
      lookupOptions (wtf.map fun u => (u.key, f u)) w.key = f w := by
  intro wtf
  induction wtf with
  | nil => intro h; simp at h
  | cons u rest ih =>
    intro hw hinj
    unfold lookupOptions
    rw [List.map_cons]
    by_cases hu : u.key = w.key
    · have hueq : u = w := hinj u (List.mem_cons_self u rest) hu
      rw [List.find?_cons_of_pos _ (by simpa using hu)]
      rw [hueq]
      rfl
    · rw [List.find?_cons_of_neg _ (by simpa using hu)]
      have hwrest : w ∈ rest := by
        rcases List.mem_cons.mp hw with rfl | h
        · exact absurd rfl hu
        · exact h
      have := ih hwrest fun w₂ h₂ => hinj w₂ (List.mem_cons_of_mem u h₂)
      unfold lookupOptions at this
      exact this

/-! ## Every variation comes from a successful tryFillGrid at a
selection drawn from the candidate pools -/

/-- Every selection pair was drawn from the candidate pool of its key. -/
def SelOK (wordOptions : WordOptions) (sel : Selections) : Prop :=
  ∀ p ∈ sel, ∃ item ∈ lookupOptions wordOptions p.1, item.word = p.2

/-- Every grid of the list is the successful full fill of the base grid
at a selection drawn from the candidate pools. -/
def GridsOK (g : Grid) (rows cols : Nat) (wordsFill : List Word)
    (wordOptions : WordOptions) (gs : List Grid) : Prop :=
  ∀ g' ∈ gs, ∃ sel, SelOK wordOptions sel ∧
    tryFillGrid g rows cols wordsFill sel = some g'

theorem tryOptionsLoop_grids_invariant (σ : Type) (prog : σ → Nat → Nat → Nat → σ)
    (g : Grid) (currentRows currentCols : Nat) (wordsFill : List Word)
    (wordOptions : WordOptions) (w : Word)
    (recur : Selections → SearchState σ → SearchState σ × Bool)
    (hrec : ∀ sel' st', SelOK wordOptions sel' →
      GridsOK g currentRows currentCols wordsFill wordOptions st'.variations →
      GridsOK g currentRows currentCols wordsFill wordOptions (recur sel' st').1.variations)
    (sel : Selections) (hsel : SelOK wordOptions sel) :
    ∀ (opts : List Suggestion) (st : SearchState σ),
      (∀ o ∈ opts, o ∈ lookupOptions wordOptions w.key) →
      GridsOK g currentRows currentCols wordsFill wordOptions st.variations →
      GridsOK g currentRows currentCols wordsFill wordOptions
        (tryOptionsLoop σ prog g currentRows currentCols wordsFill w recur
          sel opts st).1.variations := by
  intro opts
  induction opts with
  | nil => intro st _ hst; exact hst
  | cons option rest ih =>
    intro st hopts hst
    unfold tryOptionsLoop
    by_cases hc : hasConflict g currentRows currentCols w option.word sel = true
    · rw [if_pos hc]
      exact ih st (fun o ho => hopts o (List.mem_cons_of_mem option ho)) hst
    · rw [if_neg hc]
      dsimp only
      cases htf : tryFillGrid g currentRows currentCols
          (wordsFill.filter fun w' => hasKey ((w.key, option.word) :: sel) w'.key)
          ((w.key, option.word) :: sel) with
      | none => exact ih st (fun o ho => hopts o (List.mem_cons_of_mem option ho)) hst
      | some tg =>
        have hts : SelOK wordOptions ((w.key, option.word) :: sel) := by
          intro p hp
          rcases List.mem_cons.mp hp with rfl | hp'
          · exact ⟨option, hopts option (List.mem_cons_self option rest), rfl⟩
          · exact hsel p hp'
        have hbumpvar : (bumpCount σ prog ((w.key, option.word) :: sel).length
            wordsFill.length st.variations.length st).variations = st.variations := rfl
        have hr := hrec ((w.key, option.word) :: sel)
          (bumpCount σ prog ((w.key, option.word) :: sel).length wordsFill.length
            st.variations.length st) hts (by rw [hbumpvar]; exact hst)
        by_cases hb : (recur ((w.key, option.word) :: sel)
            (bumpCount σ prog ((w.key, option.word) :: sel).length wordsFill.length
              st.variations.length st)).2 = true
        · rw [if_pos hb]
          exact hr
        · rw [if_neg hb]
          exact ih _ (fun o ho => hopts o (List.mem_cons_of_mem option ho)) hr

theorem backtrackFill_grids_invariant (σ : Type) (prog : σ → Nat → Nat → Nat → σ)
    (g : Grid) (currentRows currentCols : Nat) (wordsFill : List Word)
    (wordOptions : WordOptions) (maxVariations : Nat) :
    ∀ (fuel : Nat) (sel : Selections) (st : SearchState σ),
      SelOK wordOptions sel →
      GridsOK g currentRows currentCols wordsFill wordOptions st.variations →
      GridsOK g currentRows currentCols wordsFill wordOptions
        (backtrackFill σ prog g currentRows currentCols wordsFill wordOptions
          maxVariations fuel sel st).1.variations := by
  intro fuel
  induction fuel with
  | zero => intro sel st _ hst; exact hst
  | succ fuel ih =>
    intro sel st hsel hst
    unfold backtrackFill
    by_cases hlen : sel.length = wordsFill.length
    · rw [if_pos hlen]
      dsimp only
      by_cases hfp : fingerprintOf sel ∈ st.seen
      · rw [if_pos hfp]
        exact hst
      · rw [if_neg hfp]
        cases htf : tryFillGrid g currentRows currentCols wordsFill sel with
        | none => exact hst
        | some fg =>
          unfold recordVariation
          dsimp only
          intro g' hg'
          rcases List.mem_append.mp hg' with h | h
          · exact hst g' h
          · have hgf : g' = fg := by simpa using h
            rw [hgf]
            exact ⟨sel, hsel, htf⟩
    · rw [if_neg hlen]
      cases hm : mrvPick wordsFill wordOptions sel with
      | none => exact hst
      | some q =>
        dsimp only
        by_cases hq : q.2 = 0
        · rw [if_pos hq]
          exact hst
        · rw [if_neg hq]
          exact tryOptionsLoop_grids_invariant σ prog g currentRows currentCols
            wordsFill wordOptions q.1
            (backtrackFill σ prog g currentRows currentCols wordsFill wordOptions
              maxVariations fuel)
            (fun sel' st' hsel' hst' => ih sel' st' hsel' hst')
            sel hsel (lookupOptions wordOptions q.1.key) st (fun o ho => ho) hst


theorem getWordCells_body (g : Grid) (w : Word) (i : Nat) :
    (if w.direction = Direction.across then getCellD g w.startRow (w.startCol + i)
      else getCellD g (w.startRow + i) w.startCol) =
    getCellD g (entryPos w i).1 (entryPos w i).2 := by
  unfold entryPos
  by_cases hd : w.direction = Direction.across <;> simp [hd]

theorem entryLetters_eq_of_spelled {g : Grid} {w : Word} {sw : List Char}
    (hlen : sw.length = w.length)
    (hsp : ∀ i, i < w.length → spelledAt g w sw i) :
    entryLetters g w = sw := by
  apply List.ext_getElem?
  intro i
  by_cases hi : i < w.length
  · obtain ⟨cell, hc, hty, hl⟩ := hsp i hi
    have hcd : getCellD g (entryPos w i).1 (entryPos w i).2 = cell := by
      unfold getCellD
      rw [hc]
      rfl
    unfold entryLetters
    rw [List.getElem?_map, getWordCells_getElem g w hi, hcd]
    simp only [Option.map_some']
    rw [hl]
    have hisw : i < sw.length := by omega
    rw [List.getElem?_eq_getElem hisw]
    simp [List.getD_eq_getElem?_getD, List.getElem?_eq_getElem hisw]
  · have h1 : (entryLetters g w)[i]? = Option.none := by
      rw [List.getElem?_eq_none]
      unfold entryLetters
      rw [List.length_map, getWordCells_length]
      omega
    have h2 : sw[i]? = Option.none := by
      rw [List.getElem?_eq_none]
      omega
    rw [h1, h2]


theorem complete_entry_cells {g : Grid} {rows cols : Nat} {w : Word}
    (hE : EntryOK g rows cols w)
    (hnof : (getWordCells g w).any cellNeedsFill = false) :
    ∀ i, i < w.length → ∃ cell,
      getCell g (entryPos w i).1 (entryPos w i).2 = some cell ∧
      cell.type = CellType.letter ∧ cell.letter.isSome := by
  intro i hi
  obtain ⟨h1, h2, cell, hc, hnb⟩ := hE.2 i hi
  have hcd : getCellD g (entryPos w i).1 (entryPos w i).2 = cell := by
    unfold getCellD
    rw [hc]
    rfl
  have hmem : cell ∈ getWordCells g w := by
    have hge := getWordCells_getElem g w hi
    rw [hcd] at hge
    exact List.getElem?_mem hge
  have hnf : cellNeedsFill cell = false := by
    rw [List.any_eq_false] at hnof
    simpa using hnof cell hmem
  unfold cellNeedsFill at hnf
  cases hty : cell.type with
  | black => exact absurd hty hnb
  | empty => rw [hty] at hnf; simp at hnf
  | letter =>
    refine ⟨cell, hc, hty, ?_⟩
    cases hl : cell.letter with
    | none =>
      exfalso
      rw [hty, hl] at hnf
      simp at hnf
    | some ch => simp

theorem complete_entry_preserved {g g' : Grid} {rows cols : Nat} {w : Word}
    (hlf : letterFixed g g')
    (hE : EntryOK g rows cols w)
    (hnof : (getWordCells g w).any cellNeedsFill = false) :
    entryComplete g w = true ∧ entryLetters g' w = entryLetters g w := by
  have hcells := complete_entry_cells hE hnof
  constructor
  · unfold entryComplete
    rw [List.all_eq_true]
    intro cell hmem
    unfold getWordCells at hmem
    rcases List.mem_map.mp hmem with ⟨i, hir, hcell⟩
    have hi : i < w.length := List.mem_range.mp hir
    obtain ⟨cell', hc', hty', hsome'⟩ := hcells i hi
    have hcd : getCellD g (entryPos w i).1 (entryPos w i).2 = cell' := by
      unfold getCellD
      rw [hc']
      rfl
    have hcc : cell = cell' := by
      rw [← hcell, getWordCells_body, hcd]
    rw [hcc]
    simp [hty', hsome']
  · have hgw : getWordCells g' w = getWordCells g w := by
      apply List.ext_getElem?
      intro i
      by_cases hi : i < w.length
      · rw [getWordCells_getElem g' w hi, getWordCells_getElem g w hi]
        obtain ⟨cell, hc, hty, -⟩ := hcells i hi
        have h1 : getCellD g (entryPos w i).1 (entryPos w i).2 = cell := by
          unfold getCellD
          rw [hc]
          rfl
        have hc' := hlf _ _ cell hc hty
        have h2 : getCellD g' (entryPos w i).1 (entryPos w i).2 = cell := by
          unfold getCellD
          rw [hc']
          rfl
        rw [h1, h2]
      · have h1 : (getWordCells g' w)[i]? = Option.none := by
          rw [List.getElem?_eq_none]
          rw [getWordCells_length]
          omega
        have h2 : (getWordCells g w)[i]? = Option.none := by
          rw [List.getElem?_eq_none]
          rw [getWordCells_length]
          omega
        rw [h1, h2]
    unfold entryLetters
    rw [hgw]


theorem entryOK_of_mem_numberWords {g : Grid} {rows cols : Nat}
    (hrect : RectGrid g rows cols) :
    ∀ w ∈ numberWords (detectWords g), EntryOK g rows cols w := by
  intro w hw
  obtain ⟨w₀, hw₀, hweq⟩ := mem_numberWords hw
  have h0 := detectWords_entryOK hrect w₀ hw₀
  rw [hweq]
  exact h0

/-! ## Claim C3: autofill consistency -/

/-- C3: for every grid in the list returned by generateAutofill, every
letter cell of the input grid survives with its full content, and every
entry of the returned grid either spells a word of the dictionary or was
already complete in the input grid, in which case its letters are
unchanged. -/
theorem c3_autofill_consistency (σ : Type) (prog : σ → Nat → Nat → Nat → σ) (ps : σ)
    (dict : List Suggestion) (g : Grid) (currentRows currentCols : Nat)
    (hrect : RectGrid g currentRows currentCols) :
    ∀ g' ∈ (generateAutofill σ prog ps dict g currentRows currentCols).grids,
      (∀ r c : Nat, ∀ cell : Cell, getCell g r c = some cell →
        cell.type = CellType.letter → getCell g' r c = some cell) ∧
      ∀ w ∈ numberWords (detectWords g'),
        (∃ item ∈ dict, entryLetters g' w = item.word) ∨
        (entryComplete g w = true ∧ entryLetters g' w = entryLetters g w) := by
  intro g' hg'
  unfold generateAutofill at hg'
  dsimp only at hg'
  by_cases hempty : (wordsToFill g (numberWords (detectWords g))).isEmpty = true
  · rw [if_pos hempty] at hg'
    simp at hg'
  · rw [if_neg hempty] at hg'
    cases hf : (wordsToFill g (numberWords (detectWords g))).find?
        (fun w => (wordCandidates dict g w).isEmpty) with
    | some w0 =>
      rw [hf] at hg'
      simp at hg'
    | none =>
      rw [hf] at hg'
      dsimp only at hg'
      have hGOK := backtrackFill_grids_invariant σ prog g currentRows currentCols
        (wordsToFill g (numberWords (detectWords g)))
        ((wordsToFill g (numberWords (detectWords g))).map fun w =>
          (w.key, wordCandidates dict g w))
        MAX_VARIATIONS ((wordsToFill g (numberWords (detectWords g))).length + 1) []
        ⟨[], [], 0, ps⟩
        (fun p hp => absurd hp (List.not_mem_nil p))
        (fun gx hx => absurd hx (List.not_mem_nil gx))
      obtain ⟨sel, hselok, htf⟩ := hGOK g' hg'
      have hkinj := numberWords_key_inj (detectWords_key_inj g)
      have hEOK := entryOK_of_mem_numberWords hrect
      have hok : ∀ w ∈ wordsToFill g (numberWords (detectWords g)), ∀ i, i < w.length →
          cellOKAt g currentRows currentCols w i := by
        intro w hw i hi
        exact (hEOK w (List.mem_of_mem_filter hw)).2 i hi
      obtain ⟨hlf, hbe, hspel⟩ := tryFillGrid_spec htf hok
      have hdw : detectWords g = detectWords g' := detectWords_congr hbe
      refine ⟨fun r c cell hc hl => hlf r c cell hc hl, ?_⟩
      intro w hw
      rw [← hdw] at hw
      by_cases hwtf : w ∈ wordsToFill g (numberWords (detectWords g))
      · obtain ⟨sw, hlook, hne, hsp⟩ := hspel w hwtf
        obtain ⟨item, hitem, hword0⟩ := hselok (w.key, sw) (lookupSel_mem hlook)
        have hword : item.word = sw := hword0
        have hitem' : item ∈ lookupOptions
            ((wordsToFill g (numberWords (detectWords g))).map fun u =>
              (u.key, wordCandidates dict g u)) w.key := hitem
        have hloeq : lookupOptions ((wordsToFill g (numberWords (detectWords g))).map
            fun u => (u.key, wordCandidates dict g u)) w.key =
            wordCandidates dict g w :=
          lookupOptions_map (fun u => wordCandidates dict g u)
            (wordsToFill g (numberWords (detectWords g))) hwtf
            (fun w₂ h₂ hk => hkinj w₂ (List.mem_of_mem_filter h₂) w
              (List.mem_of_mem_filter hwtf) hk)
        rw [hloeq] at hitem'
        obtain ⟨hdict, hlenw, -⟩ := mem_wordCandidates hitem'
        left
        refine ⟨item, hdict, ?_⟩
        have hswlen : sw.length = w.length := by
          rw [← hword]
          exact hlenw
        have hel : entryLetters g' w = sw := by
          apply entryLetters_eq_of_spelled hswlen
          intro i hi
          apply hsp
          rw [hswlen, Nat.min_self]
          exact hi
        rw [hel, ← hword]
      · right
        cases hb : (getWordCells g w).any cellNeedsFill with
        | true =>
          exfalso
          apply hwtf
          exact List.mem_filter.mpr ⟨hw, hb⟩
        | false =>
          exact complete_entry_preserved hlf (hEOK w hw) hb

/-- The 1-by-2 empty grid of the C3 witness. -/
def gridC3W : Grid := createEmptyGrid 1 2

/-- A three-word dictionary covering the across entry and the two
one-letter down entries of the 1-by-2 grid. -/
def dictC3W : List Suggestion :=
  [⟨['A', 'B'], Option.none⟩, ⟨['A'], Option.none⟩, ⟨['B'], Option.none⟩]

/-- C3 witness: the consistency statement applied at the 1-by-2 empty
grid and a three-word dictionary. -/
theorem c3_witness :
    RectGrid gridC3W 1 2 ∧
    ∀ g' ∈ (generateAutofill Unit (fun u _ _ _ => u) () dictC3W gridC3W 1 2).grids,
      (∀ r c : Nat, ∀ cell : Cell, getCell gridC3W r c = some cell →
        cell.type = CellType.letter → getCell g' r c = some cell) ∧
      ∀ w ∈ numberWords (detectWords g'),
        (∃ item ∈ dictC3W, entryLetters g' w = item.word) ∨
        (entryComplete gridC3W w = true ∧ entryLetters g' w = entryLetters gridC3W w) :=
  ⟨⟨by decide, by decide⟩,
    c3_autofill_consistency Unit (fun u _ _ _ => u) () dictC3W gridC3W 1 2
      ⟨by decide, by decide⟩⟩


/-! ## The word index has no duplicates, and (number, direction)
identifies an entry -/

theorem scanLine_nodup (mk : Nat → Nat → Word) (π : Word → Nat)
    (hπ : ∀ s l, π (mk s l) = s) (cells : List Cell) :
    (scanLine mk 0 none 0 cells).Nodup := by
  have hp := (scanLine_pairwise mk π hπ cells 0 none 0 (fun s hs => by simp at hs)).1
  exact hp.imp fun h heq => absurd (heq ▸ h) (Nat.lt_irrefl _)

theorem detectWords_nodup (g : Grid) : (detectWords g).Nodup := by
  unfold detectWords
  dsimp only
  rw [List.nodup_append]
  refine ⟨?_, ?_, ?_⟩
  · rw [List.nodup_flatMap]
    constructor
    · intro row _
      exact scanLine_nodup (mkAcross row) Word.startCol (fun s l => rfl) _
    · have hlt : (List.range g.length).Pairwise (· < ·) := List.pairwise_lt_range _
      refine hlt.imp ?_
      intro r₁ r₂ hlt12 w hw₁ hw₂
      have h1 := (scanLine_mkAcross_fields hw₁).1
      have h2 := (scanLine_mkAcross_fields hw₂).1
      omega
  · rw [List.nodup_flatMap]
    constructor
    · intro col _
      exact scanLine_nodup (mkDown col) Word.startRow (fun s l => rfl) _
    · have hlt : (List.range ((g.head?.map List.length).getD 0)).Pairwise (· < ·) :=
        List.pairwise_lt_range _
      refine hlt.imp ?_
      intro c₁ c₂ hlt12 w hw₁ hw₂
      have h1 := (scanLine_mkDown_fields hw₁).1
      have h2 := (scanLine_mkDown_fields hw₂).1
      omega
  · intro w hw₁ hw₂
    rcases List.mem_flatMap.mp hw₁ with ⟨row, -, hw₁a⟩
    rcases List.mem_flatMap.mp hw₂ with ⟨col, -, hw₂d⟩
    have h1 := (scanLine_mkAcross_fields hw₁a).2
    have h2 := (scanLine_mkDown_fields hw₂d).2
    rw [h1] at h2
    exact Direction.noConfusion h2

theorem numberWords_nodup {ws : List Word} (hnd : ws.Nodup)
    (hinj : ∀ w₁ ∈ ws, ∀ w₂ ∈ ws, w₁.key = w₂.key → w₁ = w₂) :
    (numberWords ws).Nodup := by
  unfold numberWords
  dsimp only
  apply sortBy_nodup
  rw [List.nodup_flatMap]
  constructor
  · intro p hp
    apply List.Nodup.map_on
    · intro w₁ hw₁ w₂ hw₂ heq
      have h₁m : w₁ ∈ ws := by
        rw [← mem_sortBy posLe ws]
        exact List.mem_of_mem_filter hw₁
      have h₂m : w₂ ∈ ws := by
        rw [← mem_sortBy posLe ws]
        exact List.mem_of_mem_filter hw₂
      apply hinj w₁ h₁m w₂ h₂m
      have hk : ({ w₁ with number := p.1 + 1 } : Word).key =
          ({ w₂ with number := p.1 + 1 } : Word).key := by rw [heq]
      exact hk
    · exact List.Nodup.filter _ (sortBy_nodup posLe ws hnd)
  · have hfst : (List.map Prod.fst (sortBy posPairLe
        (((sortBy posLe ws).map wordPos).foldl insertPos [])).enum).Pairwise (· < ·) := by
      rw [List.enum_map_fst]
      exact List.pairwise_lt_range _
    rw [List.pairwise_map] at hfst
    refine hfst.imp ?_
    intro p₁ p₂ hlt w hw₁ hw₂
    rcases List.mem_map.mp hw₁ with ⟨u₁, -, hren₁⟩
    rcases List.mem_map.mp hw₂ with ⟨u₂, -, hren₂⟩
    have e₁ : w.number = p₁.1 + 1 := by rw [← hren₁]
    have e₂ : w.number = p₂.1 + 1 := by rw [← hren₂]
    omega

theorem numberWords_numdir_inj {ws : List Word}
    (hinj : ∀ w₁ ∈ ws, ∀ w₂ ∈ ws, w₁.key = w₂.key → w₁ = w₂) :
    ∀ w₁ ∈ numberWords ws, ∀ w₂ ∈ numberWords ws,
      w₁.number = w₂.number → w₁.direction = w₂.direction → w₁ = w₂ := by
  intro w₁ h₁ w₂ h₂ hnum hdir
  unfold numberWords at h₁ h₂
  rw [mem_sortBy] at h₁ h₂
  rcases List.mem_flatMap.mp h₁ with ⟨p₁, hp₁, hwp₁⟩
  rcases List.mem_flatMap.mp h₂ with ⟨p₂, hp₂, hwp₂⟩
  rcases List.mem_map.mp hwp₁ with ⟨u₁, hu₁, hren₁⟩
  rcases List.mem_map.mp hwp₂ with ⟨u₂, hu₂, hren₂⟩
  have hu₁m : u₁ ∈ ws := by
    rw [← mem_sortBy posLe ws]
    exact List.mem_of_mem_filter hu₁
  have hu₂m : u₂ ∈ ws := by
    rw [← mem_sortBy posLe ws]
    exact List.mem_of_mem_filter hu₂
  have e₁ : w₁.number = p₁.1 + 1 := by rw [← hren₁]
  have e₂ : w₂.number = p₂.1 + 1 := by rw [← hren₂]
  have hidx : p₁.1 = p₂.1 := by omega
  have hpp : p₁.2 = p₂.2 := by
    obtain ⟨i₁, q₁⟩ := p₁
    obtain ⟨i₂, q₂⟩ := p₂
    simp only at hidx
    subst hidx
    rw [List.mk_mem_enum_iff_getElem?] at hp₁ hp₂
    simpa using hp₁.symm.trans hp₂
  have hpos₁ : wordPos u₁ = p₁.2 := by
    have := List.of_mem_filter hu₁
    simpa using this
  have hpos₂ : wordPos u₂ = p₂.2 := by
    have := List.of_mem_filter hu₂
    simpa using this
  have hposeq : wordPos u₁ = wordPos u₂ := by rw [hpos₁, hpos₂, hpp]
  have hdir' : u₁.direction = u₂.direction := by
    have d₁ : w₁.direction = u₁.direction := by rw [← hren₁]
    have d₂ : w₂.direction = u₂.direction := by rw [← hren₂]
    rw [← d₁, ← d₂]
    exact hdir
  have huu : u₁ = u₂ := by
    apply hinj u₁ hu₁m u₂ hu₂m
    unfold Word.key
    unfold wordPos at hposeq
    rw [hdir']
    rw [Prod.mk.injEq] at hposeq
    rw [hposeq.1, hposeq.2]
  rw [← hren₁, ← hren₂, huu, hidx]


/-! ## The clue sequence of the .puz export (src/lib/puzExport.ts) -/

/-- The clue texts of the puzzle, keyed by entry id (the clues Map). -/
abbrev ClueMap := List (WordKey × List Char)

def lookupClue (clues : ClueMap) (k : WordKey) : Option (List Char) :=
  (clues.find? fun p => p.1 = k).map (·.2)

/-- clues.get(word.id) || two-quotes: the stored text, or the empty
string when absent; an empty stored string is falsy and also yields the
empty string, which equals the stored value. -/
def clueTextOf (clues : ClueMap) (w : Word) : List Char :=
  (lookupClue clues w.key).getD []

/-- Map.set guarded by Map.has, in insertion order: the first-wins
collection of acrossCluesByNumber and downCluesByNumber. -/
def mapSetIfAbsent (m : List (Nat × List Char)) (k : Nat) (v : List Char) :
    List (Nat × List Char) :=
  if m.any fun p => p.1 = k then m else m ++ [(k, v)]

def mapHas (m : List (Nat × List Char)) (k : Nat) : Bool :=
  m.any fun p => p.1 = k

def mapGet (m : List (Nat × List Char)) (k : Nat) : List Char :=
  ((m.find? fun p => p.1 = k).map (·.2)).getD []

/-- The per-direction clue collection loop of exportToPuz. -/
def cluesByNumber (clues : ClueMap) (dir : Direction) (ws : List Word) :
    List (Nat × List Char) :=
  ws.foldl (fun m w =>
    if w.direction = dir then mapSetIfAbsent m w.number (clueTextOf clues w) else m) []

/-- Set.add in insertion order. -/
def insertNew (l : List Nat) (n : Nat) : List Nat :=
  if n ∈ l then l else l ++ [n]

/-- allClueNumbers: the distinct entry numbers, in first-seen order. -/
def allClueNumbers (ws : List Word) : List Nat :=
  ws.foldl (fun acc w => insertNew acc w.number) []

def numAscLe (a b : Nat) : Bool := a ≤ b

/-- sortedClueNumbers: the distinct entry numbers sorted ascending. -/
def sortedClueNumbers (ws : List Word) : List Nat :=
  sortBy numAscLe (allClueNumbers ws)

/-- allClues: for each number in ascending order, the across clue and
then the down clue, whenever the grid has an entry of that number and
direction. -/
def allClues (clues : ClueMap) (ws : List Word) : List (List Char) :=
  let acrossM := cluesByNumber clues Direction.across ws
  let downM := cluesByNumber clues Direction.down ws
  (sortedClueNumbers ws).flatMap fun num =>
    (if mapHas acrossM num then [mapGet acrossM num] else []) ++
    (if mapHas downM num then [mapGet downM num] else [])

/-- The number-of-clues field of the .puz header. -/
def numClues (clues : ClueMap) (g : Grid) : Nat :=
  (allClues clues (numberWords (detectWords g))).length

theorem mapSetIfAbsent_preserves (m : List (Nat × List Char)) (k' : Nat) (v : List Char)
    (k : Nat) (h : mapHas m k = true) :
    mapHas (mapSetIfAbsent m k' v) k = true ∧
    mapGet (mapSetIfAbsent m k' v) k = mapGet m k := by
  unfold mapSetIfAbsent
  by_cases hk : (m.any fun p => p.1 = k') = true
  · rw [if_pos hk]
    exact ⟨h, rfl⟩
  · rw [if_neg hk]
    constructor
    · unfold mapHas at h ⊢
      rw [List.any_append, h]
      rfl
    · unfold mapGet
      have hs : (m.find? fun p => p.1 = k).isSome := by
        unfold mapHas at h
        rw [List.any_eq_true] at h
        obtain ⟨p, hp, hpk⟩ := h
        exact List.find?_isSome.mpr ⟨p, hp, hpk⟩
      obtain ⟨p, hp⟩ := Option.isSome_iff_exists.mp hs
      rw [List.find?_append, hp]
      rfl

theorem mapSetIfAbsent_new (m : List (Nat × List Char)) (k : Nat) (v : List Char)
    (h : mapHas m k = false) :
    mapHas (mapSetIfAbsent m k v) k = true ∧ mapGet (mapSetIfAbsent m k v) k = v := by
  unfold mapHas at h
  unfold mapSetIfAbsent
  rw [if_neg (by rw [h]; exact Bool.false_ne_true)]
  constructor
  · unfold mapHas
    rw [List.any_append]
    simp
  · unfold mapGet
    have hn : (m.find? fun p => p.1 = k) = Option.none := by
      rw [List.find?_eq_none]
      intro p hp
      rw [List.any_eq_false] at h
      exact fun hx => h p hp (by simpa using hx)
    rw [List.find?_append, hn]
    simp

theorem mapSetIfAbsent_other (m : List (Nat × List Char)) (k' : Nat) (v : List Char)
    (k : Nat) (hne : k ≠ k') :
    mapHas (mapSetIfAbsent m k' v) k = mapHas m k := by
  unfold mapSetIfAbsent
  by_cases hk : (m.any fun p => p.1 = k') = true
  · rw [if_pos hk]
  · rw [if_neg hk]
    unfold mapHas
    rw [List.any_append]
    have : ([(k', v)].any fun p => p.1 = k) = false := by simp [Ne.symm hne]
    rw [this, Bool.or_false]

theorem cluesFold_preserves (clues : ClueMap) (dir : Direction) :
    ∀ (ws : List Word) (m : List (Nat × List Char)) (k : Nat),
      mapHas m k = true →
      mapHas (ws.foldl (fun m w => if w.direction = dir then
        mapSetIfAbsent m w.number (clueTextOf clues w) else m) m) k = true ∧
      mapGet (ws.foldl (fun m w => if w.direction = dir then
        mapSetIfAbsent m w.number (clueTextOf clues w) else m) m) k = mapGet m k := by
  intro ws
  induction ws with
  | nil => intro m k h; exact ⟨h, rfl⟩
  | cons u rest ih =>
    intro m k h
    rw [List.foldl_cons]
    by_cases hd : u.direction = dir
    · rw [if_pos hd]
      obtain ⟨h1, h2⟩ := mapSetIfAbsent_preserves m u.number (clueTextOf clues u) k h
      obtain ⟨h3, h4⟩ := ih (mapSetIfAbsent m u.number (clueTextOf clues u)) k h1
      exact ⟨h3, by rw [h4, h2]⟩
    · rw [if_neg hd]
      exact ih m k h

theorem cluesByNumber_get_aux (clues : ClueMap) (dir : Direction) :
    ∀ (ws : List Word) (m : List (Nat × List Char)) (w : Word),
      w ∈ ws → w.direction = dir →
      (∀ w' ∈ ws, w'.number = w.number → w'.direction = dir → w' = w) →
      mapHas m w.number = false →
      mapHas (ws.foldl (fun m u => if u.direction = dir then
        mapSetIfAbsent m u.number (clueTextOf clues u) else m) m) w.number = true ∧
      mapGet (ws.foldl (fun m u => if u.direction = dir then
        mapSetIfAbsent m u.number (clueTextOf clues u) else m) m) w.number =
        clueTextOf clues w := by
  intro ws
  induction ws with
  | nil => intro m w hw; exact absurd hw (List.not_mem_nil w)
  | cons u rest ih =>
    intro m w hw hwd huniq hm
    rw [List.foldl_cons]
    by_cases hu : u = w
    · rw [hu, if_pos hwd]
      obtain ⟨h1, h2⟩ := mapSetIfAbsent_new m w.number (clueTextOf clues w) hm
      obtain ⟨h3, h4⟩ := cluesFold_preserves clues dir rest
        (mapSetIfAbsent m w.number (clueTextOf clues w)) w.number h1
      exact ⟨h3, by rw [h4, h2]⟩
    · have hwrest : w ∈ rest := by
        rcases List.mem_cons.mp hw with heq | h
        · exact absurd heq.symm hu
        · exact h
      have hnum : u.direction = dir → u.number ≠ w.number := by
        intro hud hun
        exact hu (huniq u (List.mem_cons_self u rest) hun hud)
      by_cases hd : u.direction = dir
      · rw [if_pos hd]
        have hm' : mapHas (mapSetIfAbsent m u.number (clueTextOf clues u)) w.number = false := by
          rw [mapSetIfAbsent_other m u.number (clueTextOf clues u) w.number
            (fun he => hnum hd he.symm)]
          exact hm
        exact ih (mapSetIfAbsent m u.number (clueTextOf clues u)) w hwrest hwd
          (fun w' h' => huniq w' (List.mem_cons_of_mem u h')) hm'
      · rw [if_neg hd]
        exact ih m w hwrest hwd (fun w' h' => huniq w' (List.mem_cons_of_mem u h')) hm

theorem cluesByNumber_has_aux (clues : ClueMap) (dir : Direction) :
    ∀ (ws : List Word) (m : List (Nat × List Char)) (n : Nat),
      mapHas (ws.foldl (fun m u => if u.direction = dir then
        mapSetIfAbsent m u.number (clueTextOf clues u) else m) m) n =
      (mapHas m n || ws.any fun w => w.direction = dir && w.number = n) := by
  intro ws
  induction ws with
  | nil => intro m n; simp
  | cons u rest ih =>
    intro m n
    rw [List.foldl_cons, List.any_cons]
    by_cases hd : u.direction = dir
    · rw [if_pos hd]
      by_cases hn : u.number = n
      · have hself : mapHas (mapSetIfAbsent m u.number (clueTextOf clues u)) n = true := by
          by_cases hm : mapHas m n = true
          · exact (mapSetIfAbsent_preserves m u.number (clueTextOf clues u) n hm).1
          · rw [← hn]
            exact (mapSetIfAbsent_new m u.number (clueTextOf clues u)
              (by rw [hn]; exact Bool.eq_false_iff.mpr hm)).1
        rw [ih, hself]
        simp [hd, hn]
      · rw [ih, mapSetIfAbsent_other m u.number (clueTextOf clues u) n
          (fun he => hn he.symm)]
        simp [hn]
    · rw [if_neg hd]
      rw [ih]
      have : (u.direction = dir && u.number = n) = false := by
        simp [hd]
      rw [this, Bool.false_or]

theorem mem_allClueNumbers_aux :
    ∀ (ws : List Word) (acc : List Nat) (x : Nat),
      x ∈ ws.foldl (fun acc w => insertNew acc w.number) acc ↔
      x ∈ acc ∨ ∃ w ∈ ws, w.number = x := by
  intro ws
  induction ws with
  | nil => intro acc x; simp
  | cons u rest ih =>
    intro acc x
    rw [List.foldl_cons, ih]
    have hins : x ∈ insertNew acc u.number ↔ x ∈ acc ∨ u.number = x := by
      unfold insertNew
      by_cases hn : u.number ∈ acc
      · rw [if_pos hn]
        constructor
        · exact fun h => Or.inl h
        · rintro (h | h)
          · exact h
          · rw [← h]; exact hn
      · rw [if_neg hn]
        simp [List.mem_append, eq_comm]
    rw [hins]
    simp only [List.mem_cons]
    constructor
    · rintro ((h | h) | ⟨w, hw, hwx⟩)
      · exact Or.inl h
      · exact Or.inr ⟨u, Or.inl rfl, h⟩
      · exact Or.inr ⟨w, Or.inr hw, hwx⟩
    · rintro (h | ⟨w, (rfl | hw), hwx⟩)
      · exact Or.inl (Or.inl h)
      · exact Or.inl (Or.inr hwx)
      · exact Or.inr ⟨w, hw, hwx⟩

theorem insertNew_nodup (acc : List Nat) (n : Nat) (h : acc.Nodup) :
    (insertNew acc n).Nodup := by
  unfold insertNew
  by_cases hn : n ∈ acc
  · rw [if_pos hn]
    exact h
  · rw [if_neg hn]
    rw [List.nodup_append]
    exact ⟨h, List.nodup_singleton n, by simpa using hn⟩

theorem allClueNumbers_nodup_aux :
    ∀ (ws : List Word) (acc : List Nat), acc.Nodup →
      (ws.foldl (fun acc w => insertNew acc w.number) acc).Nodup := by
  intro ws
  induction ws with
  | nil => intro acc h; exact h
  | cons u rest ih =>
    intro acc h
    rw [List.foldl_cons]
    exact ih (insertNew acc u.number) (insertNew_nodup acc u.number h)

theorem sortedClueNumbers_nodup (ws : List Word) : (sortedClueNumbers ws).Nodup :=
  sortBy_nodup numAscLe (allClueNumbers ws)
    (allClueNumbers_nodup_aux ws [] List.nodup_nil)

theorem mem_sortedClueNumbers {ws : List Word} {w : Word} (hw : w ∈ ws) :
    w.number ∈ sortedClueNumbers ws := by
  unfold sortedClueNumbers
  rw [mem_sortBy]
  unfold allClueNumbers
  rw [mem_allClueNumbers_aux]
  exact Or.inr ⟨w, hw, rfl⟩


theorem length_filter_split {α : Type} (l : List α) (p q : α → Bool) :
    (l.filter p).length =
      (l.filter fun x => p x && q x).length +
      (l.filter fun x => p x && !q x).length := by
  induction l with
  | nil => rfl
  | cons x xs ih =>
    by_cases hp : p x = true
    · by_cases hq : q x = true
      · simp only [List.filter_cons, hp, hq]
        simp only [Bool.and_true, Bool.not_true, Bool.and_false]
        simp [hp]
        omega
      · have hq' : q x = false := Bool.eq_false_iff.mpr hq
        simp only [List.filter_cons, hp, hq']
        simp only [Bool.and_false, Bool.not_false, Bool.and_true]
        simp [hp]
        omega
    · have hp' : p x = false := Bool.eq_false_iff.mpr hp
      simp only [List.filter_cons, hp']
      simp only [Bool.false_and]
      simp
      omega

theorem nodup_all_eq_length_le_one {α : Type} {l : List α} (h : l.Nodup)
    (hall : ∀ x ∈ l, ∀ y ∈ l, x = y) : l.length ≤ 1 := by
  cases l with
  | nil => simp
  | cons x rest =>
    cases rest with
    | nil => simp
    | cons y rest' =>
      exfalso
      have hxy : x = y := hall x (by simp) y (by simp)
      rw [List.nodup_cons] at h
      exact h.1 (by rw [hxy]; simp)

theorem length_eq_sum_filter {α : Type} (f : α → Nat) :
    ∀ ns : List Nat, ns.Nodup → ∀ l : List α, (∀ x ∈ l, f x ∈ ns) →
      (ns.map fun n => (l.filter fun x => f x = n).length).sum = l.length := by
  intro ns
  induction ns with
  | nil =>
    intro _ l hcov
    cases l with
    | nil => rfl
    | cons x xs => exact absurd (hcov x (by simp)) (by simp)
  | cons n₀ ns' ih =>
    intro hnd l hcov
    rw [List.nodup_cons] at hnd
    rw [List.map_cons, List.sum_cons]
    have hmapeq : (ns'.map fun n => (l.filter fun x => f x = n).length) =
        ns'.map fun n =>
          ((l.filter fun x => !(f x = n₀ : Bool)).filter fun x => f x = n).length := by
      apply List.map_congr_left
      intro n hn
      rw [List.filter_filter]
      congr 1
      apply List.filter_congr
      intro x _
      by_cases hfx : f x = n
      · have hnn : n ≠ n₀ := fun he => hnd.1 (he ▸ hn)
        have hne : f x ≠ n₀ := by
          rw [hfx]
          exact hnn
        simp [hfx, hne, hnn]
      · simp [hfx]
    rw [hmapeq]
    rw [ih hnd.2 (l.filter fun x => !(f x = n₀ : Bool)) ?_]
    · have hperm := (List.filter_append_perm (fun x => (f x = n₀ : Bool)) l).length_eq
      rw [List.length_append] at hperm
      exact hperm
    · intro x hx
      rw [List.mem_filter] at hx
      rcases List.mem_cons.mp (hcov x hx.1) with h | h
      · exfalso
        have := hx.2
        simp only [Bool.not_eq_true', decide_eq_false_iff_not] at this
        exact this h
      · exact h

theorem allClues_length (clues : ClueMap) {ws : List Word}
    (hnd : ws.Nodup)
    (huniq : ∀ w₁ ∈ ws, ∀ w₂ ∈ ws, w₁.number = w₂.number →
      w₁.direction = w₂.direction → w₁ = w₂) :
    (allClues clues ws).length = ws.length := by
  unfold allClues
  dsimp only
  rw [List.length_flatMap]
  have hblock : ∀ n ∈ sortedClueNumbers ws,
      (List.length ∘ fun num =>
        (if mapHas (cluesByNumber clues Direction.across ws) num then
          [mapGet (cluesByNumber clues Direction.across ws) num] else []) ++
        (if mapHas (cluesByNumber clues Direction.down ws) num then
          [mapGet (cluesByNumber clues Direction.down ws) num] else [])) n =
      (ws.filter fun w => w.number = n).length := by
    intro n _
    have hdircount : ∀ dir : Direction,
        (ws.filter fun w => w.direction = dir && w.number = n).length =
        if mapHas (cluesByNumber clues dir ws) n then 1 else 0 := by
      intro dir
      have hhas : mapHas (cluesByNumber clues dir ws) n =
          ws.any fun w => w.direction = dir && w.number = n := by
        unfold cluesByNumber
        rw [cluesByNumber_has_aux]
        rfl
      by_cases hh : mapHas (cluesByNumber clues dir ws) n = true
      · rw [if_pos hh]
        rw [hhas, List.any_eq_true] at hh
        obtain ⟨w, hw, hwp⟩ := hh
        have hmem : w ∈ ws.filter fun w => w.direction = dir && w.number = n :=
          List.mem_filter.mpr ⟨hw, hwp⟩
        have hle : (ws.filter fun w => w.direction = dir && w.number = n).length ≤ 1 := by
          apply nodup_all_eq_length_le_one (List.Nodup.filter _ hnd)
          intro x hx y hy
          obtain ⟨hx1, hx2⟩ := List.mem_filter.mp hx
          obtain ⟨hy1, hy2⟩ := List.mem_filter.mp hy
          simp only [Bool.and_eq_true, decide_eq_true_eq] at hx2 hy2
          exact huniq x hx1 y hy1 (hx2.2.trans hy2.2.symm) (hx2.1.trans hy2.1.symm)
        have hge : 1 ≤ (ws.filter fun w => w.direction = dir && w.number = n).length :=
          List.length_pos_of_mem hmem
        omega
      · rw [if_neg hh]
        have hfe : (ws.filter fun w => w.direction = dir && w.number = n) = [] := by
          rw [List.filter_eq_nil_iff]
          intro w hw hwp
          apply hh
          rw [hhas, List.any_eq_true]
          exact ⟨w, hw, hwp⟩
        rw [hfe]
        rfl
    have hsplit := length_filter_split ws (fun w => (w.number = n : Bool))
      (fun w => (w.direction = Direction.across : Bool))
    have hA : (ws.filter fun w => (w.number = n : Bool) &&
        (w.direction = Direction.across : Bool)) =
        ws.filter fun w => w.direction = Direction.across && w.number = n := by
      apply List.filter_congr
      intro w _
      rw [Bool.and_comm]
    have hD : (ws.filter fun w => (w.number = n : Bool) &&
        !(w.direction = Direction.across : Bool)) =
        ws.filter fun w => w.direction = Direction.down && w.number = n := by
      apply List.filter_congr
      intro w _
      cases hd : w.direction <;> simp [hd]
    rw [hA, hD] at hsplit
    simp only [Function.comp]
    rw [List.length_append]
    rw [hsplit, hdircount Direction.across, hdircount Direction.down]
    by_cases h1 : mapHas (cluesByNumber clues Direction.across ws) n = true <;>
      by_cases h2 : mapHas (cluesByNumber clues Direction.down ws) n = true <;>
        simp [h1, h2]
  rw [List.map_congr_left hblock]
  have hcov : ∀ w ∈ ws, w.number ∈ sortedClueNumbers ws := fun w hw =>
    mem_sortedClueNumbers hw
  exact length_eq_sum_filter Word.number (sortedClueNumbers ws)
    (sortedClueNumbers_nodup ws) ws hcov


/-! ## Claim C9: the number-of-clues field -/

/-- C9 counterexample: on the 1-by-1 empty grid with an empty clue map,
the number-of-clues field is 2 — the word index has one across and one
down entry, and both contribute although neither has associated clue
text — while the count of entries with associated clue text is 0. -/
theorem c9_counterexample :
    numClues [] grid11 = 2 ∧
    ((numberWords (detectWords grid11)).filter fun w =>
      (lookupClue [] w.key).isSome).length = 0 := by decide

/-- C9 (amended): the number-of-clues field equals the total number of
entries of the derived word index — every entry contributes one clue
string, whether or not it has associated clue text. The string emitted
for an entry is exactly its looked-up clue text, and it appears in the
emitted clue sequence; an entry without clue text hence contributes the
empty string. -/
theorem c9_clue_count_all_entries (clues : ClueMap) (g : Grid) :
    numClues clues g = (numberWords (detectWords g)).length ∧
    ∀ w ∈ numberWords (detectWords g),
      mapHas (cluesByNumber clues w.direction (numberWords (detectWords g)))
        w.number = true ∧
      mapGet (cluesByNumber clues w.direction (numberWords (detectWords g)))
        w.number = clueTextOf clues w ∧
      mapGet (cluesByNumber clues w.direction (numberWords (detectWords g)))
        w.number ∈ allClues clues (numberWords (detectWords g)) ∧
      (lookupClue clues w.key = Option.none → clueTextOf clues w = []) := by
  have hkinj := detectWords_key_inj g
  have hnd := numberWords_nodup (detectWords_nodup g) hkinj
  have huniq := numberWords_numdir_inj hkinj
  constructor
  · exact allClues_length clues hnd huniq
  · intro w hw
    obtain ⟨hhas, hgeteq⟩ := cluesByNumber_get_aux clues w.direction
      (numberWords (detectWords g)) [] w hw rfl
      (fun w' h' hn hd => huniq w' h' w hw hn hd) rfl
    refine ⟨hhas, hgeteq, ?_, ?_⟩
    · unfold allClues
      dsimp only
      rw [List.mem_flatMap]
      refine ⟨w.number, mem_sortedClueNumbers hw, ?_⟩
      rw [List.mem_append]
      cases hd : w.direction with
      | across =>
        left
        rw [hd] at hhas hgeteq
        have hhas' : mapHas (cluesByNumber clues Direction.across
            (numberWords (detectWords g))) w.number = true := hhas
        rw [if_pos hhas']
        simp
      | down =>
        right
        rw [hd] at hhas hgeteq
        have hhas' : mapHas (cluesByNumber clues Direction.down
            (numberWords (detectWords g))) w.number = true := hhas
        rw [if_pos hhas']
        simp
    · intro hnone
      unfold clueTextOf
      rw [hnone]
      rfl


/-! ## The .puz codec: exportToPuz (src/lib/puzExport.ts) and
importFromPuz (src/lib/puzImport.ts) -/

/-- charCodeAt truncated to a byte by setUint8. -/
def charByte (c : Char) : Nat := c.toNat % 256

def strBytes (s : List Char) : List Nat := s.map charByte

/-- A 16-bit little-endian store (setUint16 with littleEndian). -/
def le16 (n : Nat) : List Nat := [n % 256, n / 256 % 256]

/-- The character a cell contributes to the solution string and to the
grid state string (the two loops of exportToPuz are identical). -/
def solutionChar (cell : Cell) : Char :=
  if cell.type = CellType.black then '.'
  else if cell.type = CellType.letter ∧ cell.letter.isSome then
    ((cell.letter.getD ' ').toUpper)
  else '-'

/-- The solution string: reading order over the declared dimensions. -/
def solutionStringOf (g : Grid) (rows cols : Nat) : List Char :=
  (List.range rows).flatMap fun row =>
    (List.range cols).map fun col => solutionChar (getCellD g row col)

/-- puzzleTitle or the fallback: an empty string is falsy. -/
def orDefault (s d : List Char) : List Char := if s.isEmpty then d else s

/-- The fallback title. -/
def untitledT : List Char := 'U' :: 'n' :: 't' :: 'i' :: 't' :: 'l' :: 'e' :: 'd' ::
  ' ' :: 'P' :: 'u' :: 'z' :: 'z' :: 'l' :: 'e' :: []

/-- (puzzleTitle || fallback).substring(0, 50). -/
def titleOf (puzzleTitle : List Char) : List Char := (orDefault puzzleTitle untitledT).take 50

/-- The text sections after the two boards: title, author, copyright,
the clue strings, the final null, and the notes, each null-terminated. -/
def puzTextSection (title authorStr copyrightStr notesStr : List Char)
    (clueList : List (List Char)) : List Nat :=
  strBytes title ++ [0] ++
  strBytes authorStr ++ [0] ++
  strBytes copyrightStr ++ [0] ++
  (clueList.flatMap fun clue => strBytes clue ++ [0]) ++ [0] ++
  strBytes notesStr ++ [0]

/-- cksum_string: checksum of the char codes of a string. -/
def cksum_string (s : List Char) (cksum : Nat) : Nat :=
  cksum_region (strBytes s) s.length cksum

/-- The partial-checksum accumulation over the text sections: each
nonempty string contributes, the title, author, copyright and notes with
their null terminator, the clues without. -/
def textChecksum (title authorStr copyrightStr notesStr : List Char)
    (clueList : List (List Char)) (start : Nat) : Nat :=
  let p1 := if title.length > 0 then cksum_string (title ++ [Char.ofNat 0]) start else start
  let p2 := if authorStr.length > 0 then
    cksum_string (authorStr ++ [Char.ofNat 0]) p1 else p1
  let p3 := if copyrightStr.length > 0 then
    cksum_string (copyrightStr ++ [Char.ofNat 0]) p2 else p2
  let p4 := clueList.foldl (fun c clue =>
    if clue.length > 0 then cksum_string clue c else c) p3
  if notesStr.length > 0 then cksum_string (notesStr ++ [Char.ofNat 0]) p4 else p4

/-- The 52-byte header, with the five checksum values as parameters:
the overall checksum, the CIB checksum, the solution and grid-state
checksums (used in the masked fields) and the text partial checksum.
The reserved regions are zero because a fresh ArrayBuffer is
zero-initialized. -/
def puzHeader (c_overall c_cib c_sol c_grid c_part rows cols nClues : Nat) : List Nat :=
  le16 c_overall ++
  [65, 67, 82, 79, 83, 83, 38, 68, 79, 87, 78, 0] ++
  le16 c_cib ++
  [0x49 ^^^ c_cib % 256, 0x43 ^^^ c_sol % 256, 0x48 ^^^ c_grid % 256, 0x45 ^^^ c_part % 256] ++
  [0x41 ^^^ (c_cib &&& 0xFF00) / 256, 0x54 ^^^ (c_sol &&& 0xFF00) / 256,
   0x45 ^^^ (c_grid &&& 0xFF00) / 256, 0x44 ^^^ (c_part &&& 0xFF00) / 256] ++
  [49, 46, 51, 0] ++
  [0, 0] ++
  [0, 0] ++
  [0, 0, 0, 0, 0, 0, 0, 0, 0, 0, 0, 0] ++
  [cols % 256, rows % 256] ++
  le16 nClues ++
  [0, 0] ++
  [0, 0]

/-- The clue sequence of a puzzle. -/
def cluesOf (clues : ClueMap) (g : Grid) : List (List Char) :=
  allClues clues (numberWords (detectWords g))

/-- The bytes of the solution board (the grid-state board of this
exporter is built by an identical loop and has the same bytes). -/
def solBytesOf (g : Grid) (rows cols : Nat) : List Nat :=
  strBytes (solutionStringOf g rows cols)

/-- The CIB checksum: over the 8 header bytes starting at the width. -/
def cibOf (g : Grid) (rows cols : Nat) (clues : ClueMap) : Nat :=
  cksum_region [cols % 256, rows % 256, (cluesOf clues g).length % 256,
    (cluesOf clues g).length / 256 % 256, 0, 0, 0, 0] 8 0

/-- The solution checksum (the grid-state checksum equals it since the
two boards carry the same bytes). -/
def solCkOf (g : Grid) (rows cols : Nat) : Nat :=
  cksum_region (solBytesOf g rows cols) (solBytesOf g rows cols).length 0

/-- The text partial checksum c_part. -/
def partOf (g : Grid) (rows cols : Nat) (clues : ClueMap)
    (puzzleTitle author copyright notes : List Char) : Nat :=
  textChecksum (titleOf puzzleTitle) (author.take 50) (copyright.take 200)
    (notes.take 2000) (cluesOf clues g) 0

/-- The overall file checksum: seeded with the CIB checksum, folded over
both boards and then the text sections. -/
def overallOf (g : Grid) (rows cols : Nat) (clues : ClueMap)
    (puzzleTitle author copyright notes : List Char) : Nat :=
  textChecksum (titleOf puzzleTitle) (author.take 50) (copyright.take 200)
    (notes.take 2000) (cluesOf clues g)
    (cksum_region (solBytesOf g rows cols) (solBytesOf g rows cols).length
      (cksum_region (solBytesOf g rows cols) (solBytesOf g rows cols).length
        (cibOf g rows cols clues)))

/-- exportToPuz: the emitted byte sequence. -/
def exportToPuz (g : Grid) (rows cols : Nat) (clues : ClueMap)
    (puzzleTitle author copyright notes : List Char) : List Nat :=
  puzHeader (overallOf g rows cols clues puzzleTitle author copyright notes)
    (cibOf g rows cols clues) (solCkOf g rows cols) (solCkOf g rows cols)
    (partOf g rows cols clues puzzleTitle author copyright notes)
    rows cols (cluesOf clues g).length ++
  (solBytesOf g rows cols ++
  (solBytesOf g rows cols ++
  puzTextSection (titleOf puzzleTitle) (author.take 50) (copyright.take 200)
    (notes.take 2000) (cluesOf clues g)))

/-- readNullTerminatedString, walking the bytes from an offset. -/
def readNTSAux : List Nat → Nat → List Char × Nat
  | [], offset => ([], offset)
  | b :: rest, offset =>
    if b = 0 then ([], offset + 1)
    else
      let r := readNTSAux rest (offset + 1)
      (Char.ofNat b :: r.1, r.2)

def readNullTerminatedString (data : List Nat) (offset : Nat) : List Char × Nat :=
  readNTSAux (data.drop offset) offset

/-- The clue-reading loop of importFromPuz: read strings until enough
clues are collected or the data ends, skipping empty strings, and stop
after consuming a double null. The fuel only bounds the iteration count;
every iteration advances the offset, so data.length + 1 is enough. -/
def clueLoop (data : List Nat) (nClues : Nat) :
    Nat → Nat → List (List Char) → List (List Char) × Nat
  | 0, offset, acc => (acc, offset)
  | fuel + 1, offset, acc =>
    if acc.length < nClues ∧ offset < data.length then
      let r := readNullTerminatedString data offset
      let acc' := if r.1.isEmpty then acc else acc ++ [r.1]
      if r.2 < data.length ∧ data.getD r.2 0 = 0 then
        (acc', r.2 + 1)
      else
        clueLoop data nClues fuel r.2 acc'
    else (acc, offset)

/-- The cell importFromPuz builds from one solution character. -/
def cellOfChar (ch : Char) : Cell :=
  if ch = '.' then { type := CellType.black }
  else if ch = '-' ∨ ch = Char.ofNat 0 then { type := CellType.empty }
  else { type := CellType.letter, letter := some ch.toUpper }

/-- The last across or down entry with a given number: the grouping loop
of importFromPuz overwrites the per-number slot on every match. -/
def lastWith (ws : List Word) (dir : Direction) (n : Nat) : Option Word :=
  (ws.filter fun w => w.direction = dir && w.number = n).getLast?

/-- One number of the clue-assignment loop of importFromPuz: give the
next clue string to the across entry, then to the down entry. -/
def assignStep (ws : List Word) (cs : List (List Char)) (st : ClueMap × Nat) (n : Nat) :
    ClueMap × Nat :=
  let st₁ := match lastWith ws Direction.across n with
    | some w => if st.2 < cs.length then (st.1 ++ [(w.key, cs.getD st.2 [])], st.2 + 1) else st
    | Option.none => st
  match lastWith ws Direction.down n with
    | some w => if st₁.2 < cs.length then (st₁.1 ++ [(w.key, cs.getD st₁.2 [])], st₁.2 + 1)
      else st₁
    | Option.none => st₁

/-- The result record of importFromPuz. -/
structure PuzOut where
  grid : Grid
  rows : Nat
  cols : Nat
  clues : ClueMap
  puzzleTitle : List Char
  author : List Char
  copyright : List Char
  notes : List Char
deriving DecidableEq, Repr

/-- importFromPuz. Out-of-range DataView reads throw a RangeError in the
source; the embedding performs the corresponding length checks before
the fixed-offset reads that could exceed the buffer. -/
def importFromPuz (data : List Nat) : Except String PuzOut :=
  if data.length < 14 then Except.error "RangeError"
  else if ¬ (((data.drop 2).take 11).map (fun b => Char.ofNat b) =
      ('A' :: 'C' :: 'R' :: 'O' :: 'S' :: 'S' :: '&' :: 'D' :: 'O' :: 'W' :: 'N' :: [])) then
    Except.error "Invalid .puz file: missing magic string"
  else if data.length < 52 then Except.error "RangeError"
  else
    let cols := data.getD 44 0
    let rows := data.getD 45 0
    let nClues := data.getD 46 0 + 256 * data.getD 47 0
    if data.length < 52 + rows * cols + rows * cols then Except.error "RangeError"
    else
      let solutionChars := ((data.drop 52).take (rows * cols)).map fun b => Char.ofNat b
      let titleR := readNullTerminatedString data (52 + rows * cols + rows * cols)
      let authorR := readNullTerminatedString data titleR.2
      let copyR := readNullTerminatedString data authorR.2
      let cluesR := clueLoop data nClues (data.length + 1) copyR.2 []
      let notes := if cluesR.2 < data.length then
        (readNullTerminatedString data cluesR.2).1 else []
      let grid : Grid := (List.range rows).map fun row =>
        (List.range cols).map fun col =>
          cellOfChar (solutionChars.getD (row * cols + col) (Char.ofNat 0))
      let words := numberWords (detectWords grid)
      let clueMap := ((sortedClueNumbers words).foldl (assignStep words cluesR.1) ([], 0)).1
      Except.ok ⟨grid, rows, cols, clueMap, titleR.1, authorR.1, copyR.1, notes⟩


/-! ## Byte-level access into the emitted .puz layout -/

theorem puzHeader_drop52 (ov cb cs cg cp r co n : Nat) (X : List Nat) :
    (puzHeader ov cb cs cg cp r co n ++ X).drop 52 = X := rfl

theorem puzHeader_getD44 (ov cb cs cg cp r co n : Nat) (X : List Nat) :
    (puzHeader ov cb cs cg cp r co n ++ X).getD 44 0 = co % 256 := rfl

theorem puzHeader_getD45 (ov cb cs cg cp r co n : Nat) (X : List Nat) :
    (puzHeader ov cb cs cg cp r co n ++ X).getD 45 0 = r % 256 := rfl

theorem puzHeader_getD46 (ov cb cs cg cp r co n : Nat) (X : List Nat) :
    (puzHeader ov cb cs cg cp r co n ++ X).getD 46 0 = n % 256 := rfl

theorem puzHeader_getD47 (ov cb cs cg cp r co n : Nat) (X : List Nat) :
    (puzHeader ov cb cs cg cp r co n ++ X).getD 47 0 = n / 256 % 256 := rfl

theorem puzHeader_magic (ov cb cs cg cp r co n : Nat) (X : List Nat) :
    (((puzHeader ov cb cs cg cp r co n ++ X).drop 2).take 11).map (fun b => Char.ofNat b) =
    ('A' :: 'C' :: 'R' :: 'O' :: 'S' :: 'S' :: '&' :: 'D' :: 'O' :: 'W' :: 'N' :: []) := rfl

theorem puzHeader_append_length (ov cb cs cg cp r co n : Nat) (X : List Nat) :
    (puzHeader ov cb cs cg cp r co n ++ X).length = 52 + X.length := by
  rw [List.length_append]
  rfl

theorem solutionStringOf_length (g : Grid) (rows cols : Nat) :
    (solutionStringOf g rows cols).length = rows * cols := by
  unfold solutionStringOf
  rw [List.length_flatMap]
  have : List.map (List.length ∘ fun row =>
      (List.range cols).map fun col => solutionChar (getCellD g row col)) (List.range rows) =
      List.map (fun _ => cols) (List.range rows) := by
    apply List.map_congr_left
    intro row _
    simp [Function.comp]
  rw [this]
  simp [mul_comm]

theorem solBytesOf_length (g : Grid) (rows cols : Nat) :
    (solBytesOf g rows cols).length = rows * cols := by
  unfold solBytesOf strBytes
  rw [List.length_map, solutionStringOf_length]

theorem drop_shift {α : Type} {data pre rest : List α} {offset : Nat}
    (hd : data.drop offset = pre ++ rest) :
    data.drop (offset + pre.length) = rest := by
  have h := congrArg (List.drop pre.length) hd
  rw [List.drop_drop] at h
  rw [h, List.drop_left]

theorem getD_of_drop {α : Type} {data rest : List α} {offset : Nat} {b d : α}
    (hd : data.drop offset = b :: rest) :
    data.getD offset d = b ∧ offset < data.length := by
  have h0 : (data.drop offset)[0]? = some b := by rw [hd]; simp
  rw [List.getElem?_drop, Nat.add_zero] at h0
  constructor
  · rw [List.getD_eq_getElem?_getD, h0]
    rfl
  · exact (List.getElem?_eq_some.mp h0).choose

/-- A string of bytes in 1..255 followed by a null terminator reads back
as exactly that string. -/
theorem readNTSAux_spec (s : List Char) (hs : ∀ c ∈ s, 1 ≤ c.toNat ∧ c.toNat ≤ 255) :
    ∀ (rest : List Nat) (offset : Nat),
      readNTSAux (strBytes s ++ 0 :: rest) offset = (s, offset + s.length + 1) := by
  induction s with
  | nil => intro rest offset; rfl
  | cons c s' ih =>
    intro rest offset
    have hc := hs c (List.mem_cons_self c s')
    have hb : charByte c ≠ 0 := by
      unfold charByte
      rw [Nat.mod_eq_of_lt (by omega)]
      omega
    have hrec := ih (fun x hx => hs x (List.mem_cons_of_mem c hx)) rest (offset + 1)
    show readNTSAux (charByte c :: (strBytes s' ++ 0 :: rest)) offset = _
    unfold readNTSAux
    rw [if_neg hb]
    dsimp only
    rw [hrec]
    have hchar : Char.ofNat (charByte c) = c := by
      unfold charByte
      rw [Nat.mod_eq_of_lt (by omega)]
      exact Char.ofNat_toNat c
    rw [hchar]
    refine Prod.ext rfl ?_
    simp
    omega

theorem readNTS_of_drop {data rest : List Nat} {offset : Nat} {s : List Char}
    (hd : data.drop offset = strBytes s ++ 0 :: rest)
    (hs : ∀ c ∈ s, 1 ≤ c.toNat ∧ c.toNat ≤ 255) :
    readNullTerminatedString data offset = (s, offset + s.length + 1) := by
  unfold readNullTerminatedString
  rw [hd]
  exact readNTSAux_spec s hs rest offset

theorem flat_length {α : Type} (cols : Nat) (f : Nat → Nat → α) (rows : Nat) :
    ((List.range rows).flatMap fun row => (List.range cols).map fun col => f row col).length
      = rows * cols := by
  rw [List.length_flatMap]
  have : List.map (List.length ∘ fun row => (List.range cols).map fun col => f row col)
      (List.range rows) = List.map (fun _ => cols) (List.range rows) := by
    apply List.map_congr_left
    intro row _
    simp [Function.comp]
  rw [this]
  simp [mul_comm]

theorem flat_getElem {α : Type} (cols : Nat) (f : Nat → Nat → α) :
    ∀ (rows r c : Nat), r < rows → c < cols →
      ((List.range rows).flatMap fun row =>
        (List.range cols).map fun col => f row col)[r * cols + c]? = some (f r c) := by
  intro rows
  induction rows with
  | zero => intro r c hr; omega
  | succ n ih =>
    intro r c hr hc
    rw [List.range_succ, List.flatMap_append]
    by_cases hrn : r < n
    · rw [List.getElem?_append_left]
      · exact ih r c hrn hc
      · rw [flat_length]
        have h1 : r + 1 ≤ n := hrn
        calc r * cols + c < r * cols + cols := by omega
          _ = (r + 1) * cols := by ring
          _ ≤ n * cols := Nat.mul_le_mul_right cols h1
    · have hreq : r = n := by omega
      subst hreq
      rw [List.getElem?_append_right]
      · rw [flat_length]
        have hsub : r * cols + c - r * cols = c := by omega
        rw [hsub]
        simp only [List.flatMap_cons, List.flatMap_nil, List.append_nil]
        rw [List.getElem?_map, List.getElem?_range hc]
        rfl
      · rw [flat_length]
        omega

theorem char_upper_fixed {c : Char} (h2 : c.toNat ≤ 90) : c.toUpper = c := by
  unfold Char.toUpper
  dsimp only
  rw [if_neg]
  omega

theorem char_byte_id {c : Char} (h1 : 1 ≤ c.toNat) (h2 : c.toNat ≤ 255) :
    Char.ofNat (charByte c) = c := by
  unfold charByte
  rw [Nat.mod_eq_of_lt (by omega)]
  exact Char.ofNat_toNat c


theorem puzTextSection_eq (title authorStr copyrightStr notesStr : List Char)
    (clueList : List (List Char)) :
    puzTextSection title authorStr copyrightStr notesStr clueList =
    strBytes title ++ (0 :: (strBytes authorStr ++ (0 :: (strBytes copyrightStr ++ (0 ::
    ((clueList.flatMap fun clue => strBytes clue ++ [0]) ++
      (0 :: (strBytes notesStr ++ [0])))))))) := by
  unfold puzTextSection
  simp [List.append_assoc]

/-- The clue loop reads back exactly the emitted clue strings and stops
just after the final null, provided every clue is nonempty with byte
chars and the clue count matches. -/
theorem clueLoop_spec (data : List Nat) (total : Nat) :
    ∀ (cs : List (List Char)) (fuel : Nat) (offset : Nat) (rest : List Nat)
      (acc : List (List Char)),
      cs ≠ [] →
      (∀ s ∈ cs, s ≠ [] ∧ ∀ c ∈ s, 1 ≤ c.toNat ∧ c.toNat ≤ 255) →
      data.drop offset = (cs.flatMap fun s => strBytes s ++ [0]) ++ 0 :: rest →
      acc.length + cs.length = total →
      cs.length ≤ fuel →
      clueLoop data total fuel offset acc =
        (acc ++ cs, offset + ((cs.flatMap fun s => strBytes s ++ [0]).length + 1)) := by
  intro cs
  induction cs with
  | nil => intro fuel offset rest acc hne; exact absurd rfl hne
  | cons c cs' ih =>
    intro fuel offset rest acc _ hok hd hlen hfuel
    obtain ⟨hcne, hcchars⟩ := hok c (List.mem_cons_self c cs')
    cases fuel with
    | zero => simp at hfuel
    | succ fuel' =>
      have hd1 : data.drop offset = strBytes c ++ (0 ::
          ((cs'.flatMap fun s => strBytes s ++ [0]) ++ 0 :: rest)) := by
        rw [hd, List.flatMap_cons]
        simp [List.append_assoc]
      have hread := readNTS_of_drop hd1 hcchars
      have hoffdata : offset < data.length := by
        have hne2 : data.drop offset ≠ [] := by
          rw [hd1]
          cases hc : c with
          | nil => exact absurd hc hcne
          | cons ch ctl => simp [strBytes, hc]
        rw [ne_eq, List.drop_eq_nil_iff] at hne2
        omega
      have hguard : acc.length < total ∧ offset < data.length := by
        constructor
        · have hl2 := hlen
          simp at hl2
          omega
        · exact hoffdata
      have hdrop2 : data.drop (offset + (c.length + 1)) =
          (cs'.flatMap fun s => strBytes s ++ [0]) ++ 0 :: rest := by
        have hpre : data.drop offset = (strBytes c ++ [0]) ++
            ((cs'.flatMap fun s => strBytes s ++ [0]) ++ 0 :: rest) := by
          rw [hd1]
          simp [List.append_assoc]
        have h2 := drop_shift hpre
        rw [List.length_append] at h2
        simp only [strBytes, List.length_map, List.length_cons, List.length_nil] at h2
        exact h2
      unfold clueLoop
      rw [if_pos hguard]
      dsimp only
      rw [hread]
      dsimp only
      have hskip : (if c.isEmpty then acc else acc ++ [c]) = acc ++ [c] := by
        rw [if_neg]
        simp [List.isEmpty_iff, hcne]
      rw [hskip]
      cases cs' with
      | nil =>
        have hd3 : data.drop (offset + c.length + 1) = 0 :: rest := by
          rw [Nat.add_assoc]
          simpa using hdrop2
        obtain ⟨hg0, hglt⟩ := getD_of_drop hd3
        rw [if_pos ⟨hglt, hg0⟩]
        refine Prod.ext rfl ?_
        simp only [List.flatMap_cons, List.flatMap_nil, List.append_nil, List.length_append]
        simp [strBytes]
        omega
      | cons c2 cs2 =>
        obtain ⟨hc2ne, hc2chars⟩ := hok c2 (List.mem_cons_of_mem c (List.mem_cons_self c2 cs2))
        cases c2 with
        | nil => exact absurd rfl hc2ne
        | cons ch2 ctl2 =>
          have hd3 : data.drop (offset + c.length + 1) =
              charByte ch2 :: ((strBytes ctl2 ++ [0]) ++
                ((cs2.flatMap fun s => strBytes s ++ [0]) ++ 0 :: rest)) := by
            rw [Nat.add_assoc, hdrop2, List.flatMap_cons]
            simp [strBytes, List.append_assoc]
          obtain ⟨hg0, -⟩ := getD_of_drop hd3
          have hbne : charByte ch2 ≠ 0 := by
            have hh := hc2chars ch2 (by simp)
            unfold charByte
            rw [Nat.mod_eq_of_lt (by omega)]
            omega
          rw [if_neg (by
            rintro ⟨-, hz⟩
            rw [hg0] at hz
            exact hbne hz)]
          have hrec := ih fuel' (offset + c.length + 1) rest (acc ++ [c])
            (by simp)
            (fun s hs => hok s (List.mem_cons_of_mem c hs))
            (by rw [Nat.add_assoc]; exact hdrop2)
            (by
              have hl2 := hlen
              simp at hl2 ⊢
              omega)
            (by
              have hf2 := hfuel
              simp at hf2 ⊢
              omega)
          rw [hrec]
          refine Prod.ext ?_ ?_
          · simp
          · simp only [List.flatMap_cons, List.length_append]
            simp [strBytes]
            omega


/-! ## The clue-assignment loop of the import inverts the clue emission
of the export -/

/-- The clue strings the export emits for one number. -/
def blockOf (clues : ClueMap) (ws : List Word) (n : Nat) : List (List Char) :=
  (if mapHas (cluesByNumber clues Direction.across ws) n then
    [mapGet (cluesByNumber clues Direction.across ws) n] else []) ++
  (if mapHas (cluesByNumber clues Direction.down ws) n then
    [mapGet (cluesByNumber clues Direction.down ws) n] else [])

/-- The key-to-clue pairs the import assigns for one number. -/
def pairsOf (clues : ClueMap) (ws : List Word) (n : Nat) : ClueMap :=
  (match lastWith ws Direction.across n with
   | some w => [(w.key, mapGet (cluesByNumber clues Direction.across ws) n)]
   | Option.none => []) ++
  (match lastWith ws Direction.down n with
   | some w => [(w.key, mapGet (cluesByNumber clues Direction.down ws) n)]
   | Option.none => [])

theorem allClues_eq_flatMap (clues : ClueMap) (ws : List Word) :
    allClues clues ws = (sortedClueNumbers ws).flatMap (blockOf clues ws) := rfl

theorem cluesByNumber_has (clues : ClueMap) (dir : Direction) (ws : List Word) (n : Nat) :
    mapHas (cluesByNumber clues dir ws) n =
      ws.any fun w => w.direction = dir && w.number = n := by
  unfold cluesByNumber
  rw [cluesByNumber_has_aux]
  rfl

theorem lastWith_isSome (ws : List Word) (dir : Direction) (n : Nat) :
    (lastWith ws dir n).isSome = ws.any fun w => w.direction = dir && w.number = n := by
  unfold lastWith
  cases hf : ws.filter fun w => w.direction = dir && w.number = n with
  | nil =>
    have h2 : (ws.any fun w => w.direction = dir && w.number = n) = false := by
      rw [List.any_eq_false]
      intro w hw
      exact List.filter_eq_nil_iff.mp hf w hw
    rw [h2]
    rfl
  | cons x xs =>
    have hx : x ∈ ws.filter fun w => w.direction = dir && w.number = n := by
      rw [hf]
      exact List.mem_cons_self x xs
    obtain ⟨hx1, hx2⟩ := List.mem_filter.mp hx
    have h2 : (ws.any fun w => w.direction = dir && w.number = n) = true :=
      List.any_eq_true.mpr ⟨x, hx1, hx2⟩
    rw [h2]
    rw [List.getLast?_isSome]
    simp

theorem lastWith_mem {ws : List Word} {dir : Direction} {n : Nat} {w : Word}
    (h : lastWith ws dir n = some w) :
    w ∈ ws ∧ w.direction = dir ∧ w.number = n := by
  unfold lastWith at h
  have hm := List.mem_of_mem_getLast? h
  obtain ⟨h1, h2⟩ := List.mem_filter.mp hm
  simp only [Bool.and_eq_true, decide_eq_true_eq] at h2
  exact ⟨h1, h2⟩

theorem lastWith_self {ws : List Word} (hnd : ws.Nodup)
    (huniq : ∀ w₁ ∈ ws, ∀ w₂ ∈ ws, w₁.number = w₂.number →
      w₁.direction = w₂.direction → w₁ = w₂)
    {w : Word} (hw : w ∈ ws) :
    lastWith ws w.direction w.number = some w := by
  unfold lastWith
  have hfm : w ∈ ws.filter fun x => x.direction = w.direction && x.number = w.number :=
    List.mem_filter.mpr ⟨hw, by simp⟩
  have hall : ∀ x ∈ ws.filter fun x => x.direction = w.direction && x.number = w.number,
      x = w := by
    intro x hx
    obtain ⟨h1, h2⟩ := List.mem_filter.mp hx
    simp only [Bool.and_eq_true, decide_eq_true_eq] at h2
    exact huniq x h1 w hw h2.2 h2.1
  have hle := nodup_all_eq_length_le_one (List.Nodup.filter _ hnd)
    (fun x hx y hy => (hall x hx).trans (hall y hy).symm)
  cases hf : ws.filter fun x => x.direction = w.direction && x.number = w.number with
  | nil =>
    rw [hf] at hfm
    exact absurd hfm (List.not_mem_nil w)
  | cons x xs =>
    cases xs with
    | nil =>
      have hx : x = w := hall x (by rw [hf]; exact List.mem_cons_self x [])
      rw [hx]
      rfl
    | cons y ys =>
      rw [hf] at hle
      simp at hle

theorem assignFold_spec (clues : ClueMap) (ws : List Word) (cs : List (List Char)) :
    ∀ (nums : List Nat) (acc : ClueMap) (idx : Nat),
      cs.drop idx = nums.flatMap (blockOf clues ws) →
      idx + (nums.flatMap (blockOf clues ws)).length = cs.length →
      (nums.foldl (assignStep ws cs) (acc, idx)).1 =
        acc ++ nums.flatMap (pairsOf clues ws) := by
  intro nums
  induction nums with
  | nil => intro acc idx _ _; simp
  | cons n nums' ih =>
    intro acc idx hdrop hlen
    rw [List.flatMap_cons] at hdrop hlen
    rw [List.foldl_cons, List.flatMap_cons]
    have hAiff : mapHas (cluesByNumber clues Direction.across ws) n =
        (lastWith ws Direction.across n).isSome := by
      rw [cluesByNumber_has, lastWith_isSome]
    have hDiff : mapHas (cluesByNumber clues Direction.down ws) n =
        (lastWith ws Direction.down n).isSome := by
      rw [cluesByNumber_has, lastWith_isSome]
    cases hA : lastWith ws Direction.across n with
    | none =>
      have hhA : mapHas (cluesByNumber clues Direction.across ws) n = false := by
        rw [hAiff, hA]
        rfl
      cases hD : lastWith ws Direction.down n with
      | none =>
        have hhD : mapHas (cluesByNumber clues Direction.down ws) n = false := by
          rw [hDiff, hD]
          rfl
        have hblock : blockOf clues ws n = [] := by
          unfold blockOf
          rw [hhA, hhD]
          rfl
        have hpairs : pairsOf clues ws n = [] := by
          unfold pairsOf
          rw [hA, hD]
          rfl
        have hstep : assignStep ws cs (acc, idx) n = (acc, idx) := by
          unfold assignStep
          rw [hA, hD]
        rw [hstep, hpairs, List.nil_append]
        rw [hblock, List.nil_append] at hdrop hlen
        exact ih acc idx hdrop hlen
      | some wD =>
        have hhD : mapHas (cluesByNumber clues Direction.down ws) n = true := by
          rw [hDiff, hD]
          rfl
        have hblock : blockOf clues ws n =
            [mapGet (cluesByNumber clues Direction.down ws) n] := by
          unfold blockOf
          rw [hhA, hhD]
          rfl
        rw [hblock] at hdrop hlen
        have hdrop' : cs.drop idx = mapGet (cluesByNumber clues Direction.down ws) n ::
            nums'.flatMap (blockOf clues ws) := by
          rw [hdrop]
          rfl
        obtain ⟨hgd, hlt⟩ := getD_of_drop hdrop'
        have hpairs : pairsOf clues ws n =
            [(wD.key, mapGet (cluesByNumber clues Direction.down ws) n)] := by
          unfold pairsOf
          rw [hA, hD]
          rfl
        have hstep : assignStep ws cs (acc, idx) n =
            (acc ++ [(wD.key, mapGet (cluesByNumber clues Direction.down ws) n)], idx + 1) := by
          unfold assignStep
          rw [hA, hD]
          dsimp only
          rw [if_pos hlt, hgd]
        rw [hstep, hpairs]
        have hdrop2 : cs.drop (idx + 1) = nums'.flatMap (blockOf clues ws) := by
          have h0 : cs.drop idx = [mapGet (cluesByNumber clues Direction.down ws) n] ++
              nums'.flatMap (blockOf clues ws) := by
            rw [hdrop']
            rfl
          have h1 := drop_shift h0
          simpa using h1
        have hlen2 : idx + 1 + (nums'.flatMap (blockOf clues ws)).length = cs.length := by
          rw [List.length_append] at hlen
          simp only [List.length_cons, List.length_nil] at hlen
          omega
        rw [ih (acc ++ [(wD.key, mapGet (cluesByNumber clues Direction.down ws) n)])
          (idx + 1) hdrop2 hlen2]
        simp
    | some wA =>
      have hhA : mapHas (cluesByNumber clues Direction.across ws) n = true := by
        rw [hAiff, hA]
        rfl
      cases hD : lastWith ws Direction.down n with
      | none =>
        have hhD : mapHas (cluesByNumber clues Direction.down ws) n = false := by
          rw [hDiff, hD]
          rfl
        have hblock : blockOf clues ws n =
            [mapGet (cluesByNumber clues Direction.across ws) n] := by
          unfold blockOf
          rw [hhA, hhD]
          rfl
        rw [hblock] at hdrop hlen
        have hdrop' : cs.drop idx = mapGet (cluesByNumber clues Direction.across ws) n ::
            nums'.flatMap (blockOf clues ws) := by
          rw [hdrop]
          rfl
        obtain ⟨hgd, hlt⟩ := getD_of_drop hdrop'
        have hpairs : pairsOf clues ws n =
            [(wA.key, mapGet (cluesByNumber clues Direction.across ws) n)] := by
          unfold pairsOf
          rw [hA, hD]
          rfl
        have hstep : assignStep ws cs (acc, idx) n =
            (acc ++ [(wA.key, mapGet (cluesByNumber clues Direction.across ws) n)],
              idx + 1) := by
          unfold assignStep
          rw [hA, hD]
          dsimp only
          rw [if_pos hlt, hgd]
        rw [hstep, hpairs]
        have hdrop2 : cs.drop (idx + 1) = nums'.flatMap (blockOf clues ws) := by
          have h0 : cs.drop idx = [mapGet (cluesByNumber clues Direction.across ws) n] ++
              nums'.flatMap (blockOf clues ws) := by
            rw [hdrop']
            rfl
          have h1 := drop_shift h0
          simpa using h1
        have hlen2 : idx + 1 + (nums'.flatMap (blockOf clues ws)).length = cs.length := by
          rw [List.length_append] at hlen
          simp only [List.length_cons, List.length_nil] at hlen
          omega
        rw [ih (acc ++ [(wA.key, mapGet (cluesByNumber clues Direction.across ws) n)])
          (idx + 1) hdrop2 hlen2]
        simp
      | some wD =>
        have hhD : mapHas (cluesByNumber clues Direction.down ws) n = true := by
          rw [hDiff, hD]
          rfl
        have hblock : blockOf clues ws n =
            [mapGet (cluesByNumber clues Direction.across ws) n,
             mapGet (cluesByNumber clues Direction.down ws) n] := by
          unfold blockOf
          rw [hhA, hhD]
          rfl
        rw [hblock] at hdrop hlen
        have hdrop' : cs.drop idx = mapGet (cluesByNumber clues Direction.across ws) n ::
            mapGet (cluesByNumber clues Direction.down ws) n ::
            nums'.flatMap (blockOf clues ws) := by
          rw [hdrop]
          rfl
        obtain ⟨hgd1, hlt1⟩ := getD_of_drop hdrop'
        have hdropm : cs.drop (idx + 1) =
            mapGet (cluesByNumber clues Direction.down ws) n ::
            nums'.flatMap (blockOf clues ws) := by
          have h0 : cs.drop idx = [mapGet (cluesByNumber clues Direction.across ws) n] ++
              (mapGet (cluesByNumber clues Direction.down ws) n ::
                nums'.flatMap (blockOf clues ws)) := by
            rw [hdrop']
            rfl
          have h1 := drop_shift h0
          simpa using h1
        obtain ⟨hgd2, hlt2⟩ := getD_of_drop hdropm
        have hpairs : pairsOf clues ws n =
            [(wA.key, mapGet (cluesByNumber clues Direction.across ws) n),
             (wD.key, mapGet (cluesByNumber clues Direction.down ws) n)] := by
          unfold pairsOf
          rw [hA, hD]
          rfl
        have hstep : assignStep ws cs (acc, idx) n =
            (acc ++ [(wA.key, mapGet (cluesByNumber clues Direction.across ws) n)] ++
              [(wD.key, mapGet (cluesByNumber clues Direction.down ws) n)], idx + 1 + 1) := by
          unfold assignStep
          rw [hA, hD]
          dsimp only
          rw [if_pos hlt1, hgd1]
          dsimp only
          rw [if_pos hlt2, hgd2]
        rw [hstep, hpairs]
        have hdrop2 : cs.drop (idx + 1 + 1) = nums'.flatMap (blockOf clues ws) := by
          have h0 : cs.drop (idx + 1) = [mapGet (cluesByNumber clues Direction.down ws) n] ++
              nums'.flatMap (blockOf clues ws) := by
            rw [hdropm]
            rfl
          have h1 := drop_shift h0
          simpa [Nat.add_assoc] using h1
        have hlen2 : idx + 1 + 1 + (nums'.flatMap (blockOf clues ws)).length = cs.length := by
          rw [List.length_append] at hlen
          simp only [List.length_cons, List.length_nil] at hlen
          omega
        rw [ih (acc ++ [(wA.key, mapGet (cluesByNumber clues Direction.across ws) n)] ++
          [(wD.key, mapGet (cluesByNumber clues Direction.down ws) n)]) (idx + 1 + 1)
          hdrop2 hlen2]
        simp


theorem lookup_unique {m : ClueMap} {k : WordKey} {v : List Char}
    (h : (k, v) ∈ m) (huni : ∀ p ∈ m, p.1 = k → p = (k, v)) :
    lookupClue m k = some v := by
  induction m with
  | nil => exact absurd h (List.not_mem_nil _)
  | cons p m' ih =>
    unfold lookupClue
    by_cases hp : p.1 = k
    · have hpe := huni p (List.mem_cons_self p m') hp
      rw [hpe]
      rw [List.find?_cons_of_pos _ (by simp)]
      rfl
    · rw [List.find?_cons_of_neg _ (by simpa using hp)]
      have hh : (k, v) ∈ m' := by
        rcases List.mem_cons.mp h with he | hm
        · exact absurd (by rw [← he]) hp
        · exact hm
      have hres := ih hh (fun q hq hqk => huni q (List.mem_cons_of_mem p hq) hqk)
      unfold lookupClue at hres
      exact hres

theorem mem_pairsOf_flatMap {clues : ClueMap} {ws : List Word} {nums : List Nat}
    {p : WordKey × List Char} (h : p ∈ nums.flatMap (pairsOf clues ws)) :
    ∃ w' dir n, n ∈ nums ∧ lastWith ws dir n = some w' ∧
      p = (w'.key, mapGet (cluesByNumber clues dir ws) n) := by
  rcases List.mem_flatMap.mp h with ⟨n, hn, hp⟩
  unfold pairsOf at hp
  rcases List.mem_append.mp hp with h1 | h2
  · cases hA : lastWith ws Direction.across n with
    | none =>
      rw [hA] at h1
      exact absurd h1 (List.not_mem_nil p)
    | some w' =>
      rw [hA] at h1
      have := List.mem_singleton.mp h1
      exact ⟨w', Direction.across, n, hn, hA, this⟩
  · cases hD : lastWith ws Direction.down n with
    | none =>
      rw [hD] at h2
      exact absurd h2 (List.not_mem_nil p)
    | some w' =>
      rw [hD] at h2
      have := List.mem_singleton.mp h2
      exact ⟨w', Direction.down, n, hn, hD, this⟩

theorem assign_lookup (clues : ClueMap) {ws : List Word}
    (hnd : ws.Nodup)
    (hkinj : ∀ w₁ ∈ ws, ∀ w₂ ∈ ws, w₁.key = w₂.key → w₁ = w₂)
    (huniq : ∀ w₁ ∈ ws, ∀ w₂ ∈ ws, w₁.number = w₂.number →
      w₁.direction = w₂.direction → w₁ = w₂)
    {w : Word} (hw : w ∈ ws) :
    lookupClue ((sortedClueNumbers ws).flatMap (pairsOf clues ws)) w.key =
      some (mapGet (cluesByNumber clues w.direction ws) w.number) := by
  apply lookup_unique
  · rw [List.mem_flatMap]
    refine ⟨w.number, mem_sortedClueNumbers hw, ?_⟩
    unfold pairsOf
    rw [List.mem_append]
    have hlast := lastWith_self hnd huniq hw
    cases hdir : w.direction with
    | across =>
      left
      rw [hdir] at hlast
      rw [hlast]
      simp
    | down =>
      right
      rw [hdir] at hlast
      rw [hlast]
      simp
  · intro p hp hpk
    obtain ⟨w', dir, n, hn, hlast, hpe⟩ := mem_pairsOf_flatMap hp
    obtain ⟨hw'm, hw'dir, hw'num⟩ := lastWith_mem hlast
    have hkey : w'.key = w.key := by
      rw [← hpk, hpe]
    have hww : w' = w := hkinj w' hw'm w hw hkey
    rw [hww] at hw'dir hw'num
    rw [hpe, hww, hw'dir, hw'num]


/-! ## The decoded grid against the encoded grid -/

/-- The letter content of a cell, none for non-letter cells. -/
def cellLetter (cell : Cell) : Option Char :=
  if cell.type = CellType.letter then cell.letter else Option.none

theorem solutionChar_bounds (cell : Cell)
    (hupper : ∀ ch, cell.letter = some ch → cell.type = CellType.letter →
      65 ≤ ch.toNat ∧ ch.toNat ≤ 90) :
    1 ≤ (solutionChar cell).toNat ∧ (solutionChar cell).toNat ≤ 255 := by
  unfold solutionChar
  by_cases hb : cell.type = CellType.black
  · rw [if_pos hb]
    decide
  · rw [if_neg hb]
    by_cases hl : cell.type = CellType.letter ∧ cell.letter.isSome = true
    · rw [if_pos hl]
      obtain ⟨ch, hch⟩ := Option.isSome_iff_exists.mp hl.2
      have hb := hupper ch hch hl.1
      rw [hch]
      simp only [Option.getD_some]
      rw [char_upper_fixed (by omega)]
      omega
    · rw [if_neg hl]
      decide

theorem cell_roundtrip (cell : Cell)
    (hupper : ∀ ch, cell.letter = some ch → cell.type = CellType.letter →
      65 ≤ ch.toNat ∧ ch.toNat ≤ 90) :
    cellBlack (cellOfChar (solutionChar cell)) = cellBlack cell ∧
    cellLetter (cellOfChar (solutionChar cell)) = cellLetter cell := by
  obtain ⟨ty, lt, num⟩ := cell
  cases ty with
  | black =>
    have h1 : solutionChar ⟨CellType.black, lt, num⟩ = '.' := by
      unfold solutionChar
      rw [if_pos rfl]
    have h2 : cellOfChar '.' = { type := CellType.black } := by
      unfold cellOfChar
      rw [if_pos rfl]
    rw [h1, h2]
    constructor
    · rfl
    · rfl
  | empty =>
    have h1 : solutionChar ⟨CellType.empty, lt, num⟩ = '-' := by
      unfold solutionChar
      rw [if_neg (by simp), if_neg (by simp)]
    have h2 : cellOfChar '-' = { type := CellType.empty } := by
      unfold cellOfChar
      rw [if_neg (by decide), if_pos (Or.inl rfl)]
    rw [h1, h2]
    constructor
    · rfl
    · rfl
  | letter =>
    cases lt with
    | none =>
      have h1 : solutionChar ⟨CellType.letter, Option.none, num⟩ = '-' := by
        unfold solutionChar
        rw [if_neg (by simp), if_neg (by simp)]
      have h2 : cellOfChar '-' = { type := CellType.empty } := by
        unfold cellOfChar
        rw [if_neg (by decide), if_pos (Or.inl rfl)]
      rw [h1, h2]
      constructor
      · rfl
      · rfl
    | some ch =>
      have hbd := hupper ch rfl rfl
      have hupfix : ch.toUpper = ch := char_upper_fixed (by omega)
      have h1 : solutionChar ⟨CellType.letter, some ch, num⟩ = ch := by
        unfold solutionChar
        rw [if_neg (by simp), if_pos (by simp)]
        simp only [Option.getD_some]
        exact hupfix
      have hne1 : ch ≠ '.' := by
        intro he
        rw [he] at hbd
        revert hbd
        decide
      have hne2 : ¬ (ch = '-' ∨ ch = Char.ofNat 0) := by
        rintro (he | he) <;> rw [he] at hbd <;> revert hbd <;> decide
      have h2 : cellOfChar ch = { type := CellType.letter, letter := some ch.toUpper } := by
        unfold cellOfChar
        rw [if_neg hne1, if_neg hne2]
      rw [h1, h2, hupfix]
      constructor
      · rfl
      · rfl


theorem mapgrid_getCell (rows cols : Nat) (f : Nat → Nat → Cell) {r c : Nat}
    (hr : r < rows) (hc : c < cols) :
    getCell ((List.range rows).map fun row => (List.range cols).map fun col => f row col)
      r c = some (f r c) := by
  unfold getCell
  rw [List.getElem?_map, List.getElem?_range hr]
  simp only [Option.map_some', Option.some_bind]
  rw [List.getElem?_map, List.getElem?_range hc]
  rfl

theorem mapgrid_getCell_none_row (rows cols : Nat) (f : Nat → Nat → Cell) {r : Nat}
    (hr : rows ≤ r) (c : Nat) :
    getCell ((List.range rows).map fun row => (List.range cols).map fun col => f row col)
      r c = Option.none := by
  unfold getCell
  have : ((List.range rows).map fun row => (List.range cols).map fun col =>
      f row col)[r]? = Option.none := by
    rw [List.getElem?_eq_none]
    simpa using hr
  rw [this]
  rfl

theorem mapgrid_getCell_none_col (rows cols : Nat) (f : Nat → Nat → Cell) (r : Nat) {c : Nat}
    (hc : cols ≤ c) :
    getCell ((List.range rows).map fun row => (List.range cols).map fun col => f row col)
      r c = Option.none := by
  unfold getCell
  by_cases hr : r < rows
  · rw [List.getElem?_map, List.getElem?_range hr]
    simp only [Option.map_some', Option.some_bind]
    rw [List.getElem?_eq_none]
    simpa using hc
  · have : ((List.range rows).map fun row => (List.range cols).map fun col =>
        f row col)[r]? = Option.none := by
      rw [List.getElem?_eq_none]
      simp
      omega
    rw [this]
    rfl

theorem rect_getCell_none_row {g : Grid} {rows cols : Nat} (hg : RectGrid g rows cols)
    {r : Nat} (hr : rows ≤ r) (c : Nat) : getCell g r c = Option.none := by
  unfold getCell
  have hnone : (g[r]? : Option (List Cell)) = Option.none := by
    rw [List.getElem?_eq_none]
    rw [hg.1]
    exact hr
  rw [hnone]
  rfl

theorem rect_getCell_none_col {g : Grid} {rows cols : Nat} (hg : RectGrid g rows cols)
    (r : Nat) {c : Nat} (hc : cols ≤ c) : getCell g r c = Option.none := by
  unfold getCell
  cases hrow : (g[r]? : Option (List Cell)) with
  | none => rfl
  | some row =>
    simp only [Option.some_bind]
    rw [List.getElem?_eq_none]
    rw [hg.2 row (List.getElem?_mem hrow)]
    exact hc


theorem hupper_of_list {g : Grid}
    (hupperL : ∀ row ∈ g, ∀ cell ∈ row, ∀ ch, cell.letter = some ch →
      cell.type = CellType.letter → 65 ≤ ch.toNat ∧ ch.toNat ≤ 90)
    {r c : Nat} {cell : Cell} (hc : getCell g r c = some cell) :
    ∀ ch, cell.letter = some ch → cell.type = CellType.letter →
      65 ≤ ch.toNat ∧ ch.toNat ≤ 90 := by
  unfold getCell at hc
  cases hrow : (g[r]? : Option (List Cell)) with
  | none => rw [hrow] at hc; exact Option.noConfusion hc
  | some row =>
    rw [hrow] at hc
    simp only [Option.some_bind] at hc
    exact hupperL row (List.getElem?_mem hrow) cell (List.getElem?_mem hc)

theorem decoded_grid_spec {g : Grid} {rows cols : Nat} (hrect : RectGrid g rows cols)
    (hupperL : ∀ row ∈ g, ∀ cell ∈ row, ∀ ch, cell.letter = some ch →
      cell.type = CellType.letter → 65 ≤ ch.toNat ∧ ch.toNat ≤ 90) :
    blackEq g ((List.range rows).map fun row => (List.range cols).map fun col =>
      cellOfChar (solutionChar (getCellD g row col))) ∧
    ∀ r c : Nat,
      Option.map cellLetter (getCell ((List.range rows).map fun row =>
        (List.range cols).map fun col => cellOfChar (solutionChar (getCellD g row col))) r c) =
      Option.map cellLetter (getCell g r c) := by
  have hcellfacts : ∀ r c : Nat, r < rows → c < cols →
      ∃ cell, getCell g r c = some cell ∧ getCellD g r c = cell ∧
        cellBlack (cellOfChar (solutionChar cell)) = cellBlack cell ∧
        cellLetter (cellOfChar (solutionChar cell)) = cellLetter cell := by
    intro r c hr hc
    obtain ⟨cell, hcell⟩ := rect_getCell_isSome hrect hr hc
    have hcd : getCellD g r c = cell := by
      unfold getCellD
      rw [hcell]
      rfl
    obtain ⟨h1, h2⟩ := cell_roundtrip cell (hupper_of_list hupperL hcell)
    exact ⟨cell, hcell, hcd, h1, h2⟩
  constructor
  · refine ⟨?_, ?_, ?_⟩
    · rw [hrect.1]
      simp
    · intro r
      by_cases hr : r < rows
      · have hg1 : (g[r]? : Option (List Cell)).map List.length = some cols := by
          have hlt : r < g.length := by rw [hrect.1]; exact hr
          rw [List.getElem?_eq_getElem hlt]
          simp only [Option.map_some', Option.some.injEq]
          exact hrect.2 g[r] (List.getElem_mem hlt)
        have hg2 : (((List.range rows).map fun row => (List.range cols).map fun col =>
            cellOfChar (solutionChar (getCellD g row col)))[r]? :
              Option (List Cell)).map List.length = some cols := by
          rw [List.getElem?_map, List.getElem?_range hr]
          simp
        rw [hg1, hg2]
      · have hg1 : (g[r]? : Option (List Cell)) = Option.none := by
          rw [List.getElem?_eq_none]
          rw [hrect.1]
          omega
        have hg2 : (((List.range rows).map fun row => (List.range cols).map fun col =>
            cellOfChar (solutionChar (getCellD g row col)))[r]? :
              Option (List Cell)) = Option.none := by
          rw [List.getElem?_eq_none]
          simp
          omega
        rw [hg1, hg2]
    · intro r c
      by_cases hr : r < rows
      · by_cases hc : c < cols
        · obtain ⟨cell, hcell, hcd, h1, -⟩ := hcellfacts r c hr hc
          rw [hcell, mapgrid_getCell rows cols _ hr hc, hcd]
          simp only [Option.map_some', Option.some.injEq]
          exact h1.symm
        · rw [rect_getCell_none_col hrect r (by omega),
            mapgrid_getCell_none_col rows cols _ r (by omega)]
      · rw [rect_getCell_none_row hrect (by omega) c,
          mapgrid_getCell_none_row rows cols _ (by omega) c]
  · intro r c
    by_cases hr : r < rows
    · by_cases hc : c < cols
      · obtain ⟨cell, hcell, hcd, -, h2⟩ := hcellfacts r c hr hc
        rw [hcell, mapgrid_getCell rows cols _ hr hc, hcd]
        simp only [Option.map_some', Option.some.injEq]
        exact h2
      · rw [rect_getCell_none_col hrect r (by omega),
          mapgrid_getCell_none_col rows cols _ r (by omega)]
    · rw [rect_getCell_none_row hrect (by omega) c,
        mapgrid_getCell_none_row rows cols _ (by omega) c]


theorem titleOf_id {t : List Char} (h1 : t ≠ []) (h2 : t.length ≤ 50) : titleOf t = t := by
  unfold titleOf orDefault
  rw [if_neg (by simpa [List.isEmpty_iff] using h1)]
  exact List.take_of_length_le h2

theorem flatMap_clue_len_ge (cs : List (List Char)) :
    cs.length ≤ (cs.flatMap fun s => strBytes s ++ [0]).length := by
  induction cs with
  | nil => simp
  | cons s cs' ih =>
    rw [List.flatMap_cons, List.length_append, List.length_cons]
    simp only [List.length_append, List.length_cons, List.length_nil]
    omega

theorem mem_allClues {clues : ClueMap} {ws : List Word}
    (huniq : ∀ w₁ ∈ ws, ∀ w₂ ∈ ws, w₁.number = w₂.number →
      w₁.direction = w₂.direction → w₁ = w₂)
    {s : List Char} (hs : s ∈ allClues clues ws) :
    ∃ w ∈ ws, s = clueTextOf clues w := by
  rw [allClues_eq_flatMap] at hs
  rcases List.mem_flatMap.mp hs with ⟨n, hn, hb⟩
  unfold blockOf at hb
  rcases List.mem_append.mp hb with h1 | h1
  case inl =>
    by_cases hh : mapHas (cluesByNumber clues Direction.across ws) n = true
    · rw [if_pos hh] at h1
      have hs1 := List.mem_singleton.mp h1
      rw [cluesByNumber_has, List.any_eq_true] at hh
      obtain ⟨w, hw, hwp⟩ := hh
      simp only [Bool.and_eq_true, decide_eq_true_eq] at hwp
      obtain ⟨-, hget⟩ := cluesByNumber_get_aux clues Direction.across ws [] w hw hwp.1
        (fun w' h' hn' hd' => huniq w' h' w hw hn' (hd'.trans hwp.1.symm)) rfl
      refine ⟨w, hw, ?_⟩
      rw [hs1, ← hwp.2]
      exact hget
    · rw [if_neg hh] at h1
      exact absurd h1 (List.not_mem_nil s)
  case inr =>
    by_cases hh : mapHas (cluesByNumber clues Direction.down ws) n = true
    · rw [if_pos hh] at h1
      have hs1 := List.mem_singleton.mp h1
      rw [cluesByNumber_has, List.any_eq_true] at hh
      obtain ⟨w, hw, hwp⟩ := hh
      simp only [Bool.and_eq_true, decide_eq_true_eq] at hwp
      obtain ⟨-, hget⟩ := cluesByNumber_get_aux clues Direction.down ws [] w hw hwp.1
        (fun w' h' hn' hd' => huniq w' h' w hw hn' (hd'.trans hwp.1.symm)) rfl
      refine ⟨w, hw, ?_⟩
      rw [hs1, ← hwp.2]
      exact hget
    · rw [if_neg hh] at h1
      exact absurd h1 (List.not_mem_nil s)


theorem readNTS_step {data : List Nat} {offset : Nat} {s : List Char} {R : List Nat}
    (hd : data.drop offset = strBytes s ++ (0 :: R))
    (hs : ∀ c ∈ s, 1 ≤ c.toNat ∧ c.toNat ≤ 255) :
    readNullTerminatedString data offset = (s, offset + s.length + 1) ∧
    data.drop (offset + s.length + 1) = R := by
  refine ⟨readNTS_of_drop hd hs, ?_⟩
  have hd2 : data.drop offset = (strBytes s ++ [0]) ++ R := by
    rw [hd]
    simp
  have h3 := drop_shift hd2
  have hl : (strBytes s ++ [0]).length = s.length + 1 := by
    simp [strBytes]
  rw [hl, ← Nat.add_assoc] at h3
  exact h3


/-- The 1-by-1 grid of the C1 counterexample and witness. -/
def gridC1X : Grid := [[{ type := CellType.letter, letter := some 'A' }]]

/-- Clue texts for both entries of the 1-by-1 grid. -/
def cluesC1X : ClueMap :=
  [((Direction.across, 0, 0), ['h']), ((Direction.down, 0, 0), ['v'])]

/-- C1 counterexample: with an empty title — which honours the length
caps — the decoded title is the fallback 'Untitled Puzzle', not the
encoded empty string, so the round trip is not the identity on the
title field. -/
theorem c1_counterexample :
    importFromPuz (exportToPuz gridC1X 1 1 cluesC1X [] [] [] []) =
      Except.ok ⟨[[{ type := CellType.letter, letter := some 'A' }]], 1, 1,
        [((Direction.across, 0, 0), ['h']), ((Direction.down, 0, 0), ['v'])],
        ['U', 'n', 't', 'i', 't', 'l', 'e', 'd', ' ', 'P', 'u', 'z', 'z', 'l', 'e'],
        [], [], []⟩ ∧
    ['U', 'n', 't', 'i', 't', 'l', 'e', 'd', ' ', 'P', 'u', 'z', 'z', 'l', 'e'] ≠
      ([] : List Char) := by
  constructor
  · rfl
  · decide

set_option maxHeartbeats 1000000 in
/-- C1 (amended): the .puz round trip. For a rectangular grid whose
dimensions fit one byte, with uppercase letters, a nonempty title within
its cap, author, copyright and notes within their caps, all string
characters single bytes, at least one and fewer than 65536 entries, and
a nonempty clue text for every entry, decoding the encoded bytes
succeeds and returns the dimensions, the title, author, copyright and
notes, a grid equal to the input on shape, blackness and letter
content, and the clue text of every entry of the word index. -/
theorem c1_roundtrip (g : Grid) (rows cols : Nat) (clues : ClueMap)
    (title author copyr notes : List Char)
    (hrect : RectGrid g rows cols)
    (hrows : 1 ≤ rows ∧ rows ≤ 255) (hcols : 1 ≤ cols ∧ cols ≤ 255)
    (htitle : title ≠ [] ∧ title.length ≤ 50 ∧ ∀ ch ∈ title, 1 ≤ ch.toNat ∧ ch.toNat ≤ 255)
    (hauthor : author.length ≤ 50 ∧ ∀ ch ∈ author, 1 ≤ ch.toNat ∧ ch.toNat ≤ 255)
    (hcopyr : copyr.length ≤ 200 ∧ ∀ ch ∈ copyr, 1 ≤ ch.toNat ∧ ch.toNat ≤ 255)
    (hnotes : notes.length ≤ 2000 ∧ ∀ ch ∈ notes, 1 ≤ ch.toNat ∧ ch.toNat ≤ 255)
    (hupperL : ∀ row ∈ g, ∀ cell ∈ row, ∀ ch, cell.letter = some ch →
      cell.type = CellType.letter → 65 ≤ ch.toNat ∧ ch.toNat ≤ 90)
    (hwcount : 1 ≤ (numberWords (detectWords g)).length ∧
      (numberWords (detectWords g)).length < 65536)
    (hclues : ∀ w ∈ numberWords (detectWords g), clueTextOf clues w ≠ [] ∧
      ∀ ch ∈ clueTextOf clues w, 1 ≤ ch.toNat ∧ ch.toNat ≤ 255) :
    ∃ res, importFromPuz (exportToPuz g rows cols clues title author copyr notes) =
      Except.ok res ∧
      res.rows = rows ∧ res.cols = cols ∧
      res.puzzleTitle = title ∧ res.author = author ∧
      res.copyright = copyr ∧ res.notes = notes ∧
      blackEq g res.grid ∧
      (∀ r c : Nat, Option.map cellLetter (getCell res.grid r c) =
        Option.map cellLetter (getCell g r c)) ∧
      ∀ w ∈ numberWords (detectWords g),
        lookupClue res.clues w.key = some (clueTextOf clues w) := by
  have hkinjD := detectWords_key_inj g
  have hkinj := numberWords_key_inj hkinjD
  have hnd := numberWords_nodup (detectWords_nodup g) hkinjD
  have huniq := numberWords_numdir_inj hkinjD
  have htid : titleOf title = title := titleOf_id htitle.1 htitle.2.1
  have hata : author.take 50 = author := List.take_of_length_le hauthor.1
  have hctc : copyr.take 200 = copyr := List.take_of_length_le hcopyr.1
  have hntn : notes.take 2000 = notes := List.take_of_length_le hnotes.1
  have hcluesOK : ∀ s ∈ cluesOf clues g, s ≠ [] ∧
      ∀ ch ∈ s, 1 ≤ ch.toNat ∧ ch.toNat ≤ 255 := by
    intro s hs
    obtain ⟨w, hw, hse⟩ := mem_allClues huniq hs
    rw [hse]
    exact hclues w hw
  have hCL : (cluesOf clues g).length = (numberWords (detectWords g)).length :=
    allClues_length clues hnd huniq
  have hCLne : cluesOf clues g ≠ [] := by
    intro h
    rw [h] at hCL
    simp at hCL
    omega
  have hEeq : exportToPuz g rows cols clues title author copyr notes =
      puzHeader (overallOf g rows cols clues title author copyr notes)
        (cibOf g rows cols clues) (solCkOf g rows cols) (solCkOf g rows cols)
        (partOf g rows cols clues title author copyr notes)
        rows cols (cluesOf clues g).length ++
      (solBytesOf g rows cols ++ (solBytesOf g rows cols ++
        puzTextSection (titleOf title) (author.take 50) (copyr.take 200) (notes.take 2000)
          (cluesOf clues g))) := rfl
  rw [hEeq]
  generalize overallOf g rows cols clues title author copyr notes = OV
  generalize cibOf g rows cols clues = CB
  generalize solCkOf g rows cols = CS
  generalize partOf g rows cols clues title author copyr notes = CP
  unfold importFromPuz
  rw [if_neg (by
    rw [puzHeader_append_length]
    omega)]
  rw [if_neg (fun hcon => hcon (puzHeader_magic OV CB CS CS CP rows cols
    (cluesOf clues g).length _))]
  rw [if_neg (by
    rw [puzHeader_append_length]
    omega)]
  dsimp only
  rw [puzHeader_getD44, puzHeader_getD45, puzHeader_getD46, puzHeader_getD47]
  rw [Nat.mod_eq_of_lt (show rows < 256 by omega),
    Nat.mod_eq_of_lt (show cols < 256 by omega)]
  have hNlt : (cluesOf clues g).length < 65536 := by
    rw [hCL]
    exact hwcount.2
  have hNread : (cluesOf clues g).length % 256 +
      256 * ((cluesOf clues g).length / 256 % 256) = (cluesOf clues g).length := by
    omega
  rw [hNread]
  rw [htid, hata, hctc, hntn]
  rw [if_neg (by
    rw [puzHeader_append_length]
    simp only [List.length_append, solBytesOf_length]
    omega)]
  have hdrop52 := puzHeader_drop52 OV CB CS CS CP rows cols (cluesOf clues g).length
    (solBytesOf g rows cols ++ (solBytesOf g rows cols ++
      puzTextSection title author copyr notes (cluesOf clues g)))
  have htake : List.take (rows * cols) (List.drop 52
      (puzHeader OV CB CS CS CP rows cols (cluesOf clues g).length ++
        (solBytesOf g rows cols ++ (solBytesOf g rows cols ++
          puzTextSection title author copyr notes (cluesOf clues g))))) =
      solBytesOf g rows cols := by
    rw [hdrop52]
    exact List.take_left' (solBytesOf_length g rows cols)
  rw [htake]
  set E := puzHeader OV CB CS CS CP rows cols (cluesOf clues g).length ++
    (solBytesOf g rows cols ++ (solBytesOf g rows cols ++
      puzTextSection title author copyr notes (cluesOf clues g))) with hE
  have hdropS1 := drop_shift hdrop52
  rw [solBytesOf_length] at hdropS1
  have hdropS2 := drop_shift hdropS1
  rw [solBytesOf_length] at hdropS2
  have hdropS2' := hdropS2.trans (puzTextSection_eq title author copyr notes
    (cluesOf clues g))
  obtain ⟨htR, hdropA⟩ := readNTS_step hdropS2' htitle.2.2
  obtain ⟨haR, hdropC⟩ := readNTS_step hdropA hauthor.2
  obtain ⟨hcR, hdropCL⟩ := readNTS_step hdropC hcopyr.2
  rw [htR]
  dsimp only
  rw [haR]
  dsimp only
  rw [hcR]
  dsimp only
  have hCLlen : ((cluesOf clues g).flatMap fun s => strBytes s ++ [0]).length ≤
      E.length := by
    have hc := congrArg List.length hdropCL
    simp only [List.length_drop, List.length_append, List.length_cons] at hc
    omega
  have hclr := clueLoop_spec E (cluesOf clues g).length (cluesOf clues g) (E.length + 1)
    (52 + rows * cols + rows * cols + title.length + 1 + author.length + 1 +
      copyr.length + 1)
    (strBytes notes ++ [0]) [] hCLne hcluesOK hdropCL (by simp)
    (by
      have h1 := flatMap_clue_len_ge (cluesOf clues g)
      omega)
  rw [hclr]
  dsimp only
  simp only [List.nil_append]
  have hd5 : E.drop (52 + rows * cols + rows * cols + title.length + 1 + author.length +
      1 + copyr.length + 1 +
      (((cluesOf clues g).flatMap fun s => strBytes s ++ [0]).length + 1)) =
      strBytes notes ++ [0] := by
    have hshift : E.drop (52 + rows * cols + rows * cols + title.length + 1 +
        author.length + 1 + copyr.length + 1) =
        (((cluesOf clues g).flatMap fun s => strBytes s ++ [0]) ++ [0]) ++
          (strBytes notes ++ [0]) := by
      rw [hdropCL]
      simp
    have h6 := drop_shift hshift
    rw [List.length_append] at h6
    simpa using h6
  have hlt5 : 52 + rows * cols + rows * cols + title.length + 1 + author.length + 1 +
      copyr.length + 1 +
      (((cluesOf clues g).flatMap fun s => strBytes s ++ [0]).length + 1) < E.length := by
    have hne5 : E.drop (52 + rows * cols + rows * cols + title.length + 1 +
        author.length + 1 + copyr.length + 1 +
        (((cluesOf clues g).flatMap fun s => strBytes s ++ [0]).length + 1)) ≠ [] := by
      rw [hd5]
      simp
    rw [ne_eq, List.drop_eq_nil_iff] at hne5
    omega
  rw [if_pos hlt5]
  have hnR := readNTS_of_drop hd5 hnotes.2
  rw [hnR]
  dsimp only
  have hgridmap : List.map (fun row => List.map (fun col => cellOfChar
      ((List.map (fun b => Char.ofNat b) (solBytesOf g rows cols)).getD (row * cols + col)
        (Char.ofNat 0))) (List.range cols)) (List.range rows) =
      List.map (fun row => List.map (fun col =>
        cellOfChar (solutionChar (getCellD g row col))) (List.range cols))
        (List.range rows) := by
    apply List.map_congr_left
    intro row hrow
    apply List.map_congr_left
    intro col hcol
    apply congrArg
    rw [List.getD_eq_getElem?_getD, List.getElem?_map]
    have hsol : (solutionStringOf g rows cols)[row * cols + col]? =
        some (solutionChar (getCellD g row col)) :=
      flat_getElem cols (fun r2 c2 => solutionChar (getCellD g r2 c2)) rows row col
        (List.mem_range.mp hrow) (List.mem_range.mp hcol)
    have hbytes : (solBytesOf g rows cols)[row * cols + col]? =
        some (charByte (solutionChar (getCellD g row col))) := by
      show (strBytes (solutionStringOf g rows cols))[row * cols + col]? = _
      unfold strBytes
      rw [List.getElem?_map, hsol]
      rfl
    rw [hbytes]
    simp only [Option.map_some', Option.getD_some]
    obtain ⟨cellq, hcellq⟩ := rect_getCell_isSome hrect (List.mem_range.mp hrow)
      (List.mem_range.mp hcol)
    have hcd : getCellD g row col = cellq := by
      unfold getCellD
      rw [hcellq]
      rfl
    rw [hcd]
    have hbq := solutionChar_bounds cellq (hupper_of_list hupperL hcellq)
    exact char_byte_id hbq.1 hbq.2
  rw [hgridmap]
  have hBE := (decoded_grid_spec hrect hupperL).1
  have hdet : detectWords (List.map (fun row => List.map (fun col =>
      cellOfChar (solutionChar (getCellD g row col))) (List.range cols))
      (List.range rows)) = detectWords g := (detectWords_congr hBE).symm
  rw [hdet]
  have hflatlen : (0 : Nat) + ((sortedClueNumbers (numberWords (detectWords g))).flatMap
      (blockOf clues (numberWords (detectWords g)))).length = (cluesOf clues g).length := by
    have hcg := congrArg List.length (allClues_eq_flatMap clues
      (numberWords (detectWords g)))
    rw [Nat.zero_add]
    exact hcg.symm
  have hassign := assignFold_spec clues (numberWords (detectWords g)) (cluesOf clues g)
    (sortedClueNumbers (numberWords (detectWords g))) [] 0
    (by
      rw [List.drop_zero]
      exact allClues_eq_flatMap clues (numberWords (detectWords g)))
    hflatlen
  rw [hassign]
  simp only [List.nil_append]
  refine ⟨_, rfl, rfl, rfl, rfl, rfl, rfl, rfl, ?_, ?_, ?_⟩
  · exact hBE
  · exact (decoded_grid_spec hrect hupperL).2
  · intro w hw
    obtain ⟨-, hget⟩ := cluesByNumber_get_aux clues w.direction
      (numberWords (detectWords g)) [] w hw rfl
      (fun w' h' hn hd => huniq w' h' w hw hn hd) rfl
    have hget2 : mapGet (cluesByNumber clues w.direction (numberWords (detectWords g)))
        w.number = clueTextOf clues w := hget
    rw [assign_lookup clues hnd hkinj huniq hw, hget2]


/-- C1 witness: the amended round trip applied to a concrete 1-by-1
puzzle with a letter, clues for both entries and single-byte strings. -/
theorem c1_witness :
    ∃ res, importFromPuz (exportToPuz gridC1X 1 1 cluesC1X ['T'] ['a'] ['c'] ['n']) =
      Except.ok res ∧
      res.rows = 1 ∧ res.cols = 1 ∧
      res.puzzleTitle = ['T'] ∧ res.author = ['a'] ∧
      res.copyright = ['c'] ∧ res.notes = ['n'] ∧
      blackEq gridC1X res.grid ∧
      (∀ r c : Nat, Option.map cellLetter (getCell res.grid r c) =
        Option.map cellLetter (getCell gridC1X r c)) ∧
      ∀ w ∈ numberWords (detectWords gridC1X),
        lookupClue res.clues w.key = some (clueTextOf cluesC1X w) :=
  c1_roundtrip gridC1X 1 1 cluesC1X ['T'] ['a'] ['c'] ['n']
    ⟨by decide, by decide⟩ (by decide) (by decide) (by decide) (by decide)
    (by decide) (by decide) (by decide) (by decide) (by decide)

end Crossroads
